import Mathlib

/-!
Verification development for the route-planning core of the T-IA repository
(file `core.py`).  The Python functions are shallowly embedded as executable
Lean definitions over rational numbers (Python floats are modelled by `ℚ`,
`float("inf")` by `⊤ : WithTop ℚ`), and the behavioural claims about them are
settled as theorems below the definitions.

Modelling conventions, used throughout:
- a networkx `MultiDiGraph` is a list of node records `(id, y, x)` plus a
  list of directed parallel edges `(u, v, data)`;
- python dicts keyed by nodes become functions `Node → Option _`;
- the `heapq` priority queue becomes a list from which the lexicographically
  least `(cost, node)` pair is removed, which is exactly the pair
  `heapq.heappop` returns;
- external collaborators (geocoding, reverse geocoding, translation) are
  oracle parameters, as the specification treats them as external.
-/

namespace TIA

/-- Node identifiers of the road graph (osmnx node ids are integers). -/
abbrev Node := ℕ

/-- Attribute record of one parallel edge variant.  Only the two fields the
core reads are modelled; a missing key in the Python dict is `none`. -/
structure EdgeData where
  length : Option ℚ
  travel_time : Option ℚ
  deriving DecidableEq, Repr

/-- The weight-field selector of `bidirectional_dijkstra`
(`weight='travel_time'` or `weight='length'`). -/
inductive WeightField where
  | travel_time
  | length
  deriving DecidableEq, Repr

/-- Dictionary lookup `d.get(weight)` for the selected field. -/
def WeightField.get : WeightField → EdgeData → Option ℚ
  | .travel_time, d => d.travel_time
  | .length, d => d.length

/-- A networkx MultiDiGraph: node records `(id, y, x)` (the `y`/`x`
coordinate attributes) and directed parallel edges `(u, v, data)`. -/
structure MultiDiGraph where
  nodes : List (Node × ℚ × ℚ)
  edges : List (Node × Node × EdgeData)
  deriving DecidableEq

/-- The node-id set of the graph; `start_node not in graph` in Python is
membership of the id among the node keys. -/
def MultiDiGraph.nodeIds (G : MultiDiGraph) : List Node :=
  G.nodes.map (·.1)

/-- Order-preserving deduplication (first occurrence kept), matching how a
networkx adjacency dict enumerates each neighbour once in insertion order. -/
def dedupFirst (l : List Node) : List Node :=
  l.foldl (fun acc x => if x ∈ acc then acc else acc ++ [x]) []

/-- `graph.neighbors(u)`: the distinct successor nodes of `u`. -/
def MultiDiGraph.successors (G : MultiDiGraph) (u : Node) : List Node :=
  dedupFirst (G.edges.filterMap (fun e => if e.1 = u then some e.2.1 else none))

/-- `graph.predecessors(v)`: the distinct predecessor nodes of `v`. -/
def MultiDiGraph.predecessors (G : MultiDiGraph) (v : Node) : List Node :=
  dedupFirst (G.edges.filterMap (fun e => if e.2.1 = v then some e.1 else none))

/-- `graph.get_edge_data(u, v)`: the attribute records of all parallel
edge variants from `u` to `v`, in key order. -/
def MultiDiGraph.edgeDataList (G : MultiDiGraph) (u v : Node) : List EdgeData :=
  G.edges.filterMap (fun e => if e.1 = u ∧ e.2.1 = v then some e.2.2 else none)

/-- `min(d.get(weight, float("inf")) for d in edges.values())`: the least
present value of the selected field over the parallel variants; `none` when
no variant carries the field (the Python minimum is then `inf`). -/
def stepWeightO (G : MultiDiGraph) (w : WeightField) (u v : Node) : Option ℚ :=
  ((G.edgeDataList u v).filterMap w.get).min?

/-- Coercion of an optional tentative distance (`dist.get(v, float("inf"))`)
into the extended rationals. -/
def toTop : Option ℚ → WithTop ℚ
  | none => ⊤
  | some q => (q : WithTop ℚ)

/-- Python dict lookup `d.get(k)` on an association list; the most recent
binding of a key shadows older ones. -/
def dlookup {α : Type} (l : List (Node × α)) (k : Node) : Option α :=
  (l.find? (fun p => p.1 = k)).map (·.2)

/-- Python dict assignment `d[k] = v`: bind `k`, shadowing any older
binding. -/
def dinsert {α : Type} (l : List (Node × α)) (k : Node) (v : α) :
    List (Node × α) :=
  (k, v) :: l

/-- State of the bidirectional search loop of `bidirectional_dijkstra`:
the two heaps, the two tentative-distance dicts, the two parent dicts, the
two visited sets, the best connection cost `mu` and its `meeting_node`.
Dicts are association lists under `dlookup`/`dinsert`; a parent entry
`(v, none)` is the Python binding `parent[v] = None`, while an absent key
is an absent key. -/
structure BDState where
  qf : List (ℚ × Node)
  qb : List (ℚ × Node)
  distf : List (Node × ℚ)
  distb : List (Node × ℚ)
  parentf : List (Node × Option Node)
  parentb : List (Node × Option Node)
  visitedf : List Node
  visitedb : List Node
  mu : WithTop ℚ
  meeting : Option Node
  deriving DecidableEq, Repr

/-- The least `(cost, node)` pair of a heap under the lexicographic tuple
order that `heapq` uses; `none` on the empty heap.  Of equal pairs the
earliest is returned, which is irrelevant because equal pairs are equal. -/
def qMinE : List (ℚ × Node) → Option (ℚ × Node)
  | [] => none
  | x :: xs => some (xs.foldl (fun m e =>
      if m.1 < e.1 ∨ (m.1 = e.1 ∧ m.2 ≤ e.2) then m else e) x)

/-- Relaxation of one forward edge `u → v` (loop body over
`graph.neighbors(u)` in the forward step), including the meeting-node
update when `v` already carries a backward distance. -/
def relaxF (G : MultiDiGraph) (w : WeightField) (avoid : Node → Bool)
    (d_u : ℚ) (u : Node) (st : BDState) (v : Node) : BDState :=
  if avoid v then st
  else
    match stepWeightO G w u v with
    | none => st
    | some val =>
      if (↑(d_u + val) : WithTop ℚ) < toTop (dlookup st.distf v) then
        let nd := d_u + val
        let st1 := { st with
          distf := dinsert st.distf v nd
          parentf := dinsert st.parentf v (some u)
          qf := (nd, v) :: st.qf }
        match dlookup st1.distb v with
        | none => st1
        | some db =>
          if (↑(nd + db) : WithTop ℚ) < st1.mu then
            { st1 with mu := ↑(nd + db), meeting := some v }
          else st1
      else st

/-- Relaxation of one backward edge `u → v` (loop body over
`graph.predecessors(v)` in the backward step). -/
def relaxB (G : MultiDiGraph) (w : WeightField) (avoid : Node → Bool)
    (d_v : ℚ) (v : Node) (st : BDState) (u : Node) : BDState :=
  if avoid u then st
  else
    match stepWeightO G w u v with
    | none => st
    | some val =>
      if (↑(d_v + val) : WithTop ℚ) < toTop (dlookup st.distb u) then
        let nd := d_v + val
        let st1 := { st with
          distb := dinsert st.distb u nd
          parentb := dinsert st.parentb u (some v)
          qb := (nd, u) :: st.qb }
        match dlookup st1.distf u with
        | none => st1
        | some df =>
          if (↑(df + nd) : WithTop ℚ) < st1.mu then
            { st1 with mu := ↑(df + nd), meeting := some u }
          else st1
      else st

/-- The `--- Forward ---` block: pop the least heap entry; if its node is
unvisited and not excluded, mark it visited and relax its out-edges. -/
def forwardStep (G : MultiDiGraph) (w : WeightField) (avoid : Node → Bool)
    (st : BDState) : BDState :=
  match qMinE st.qf with
  | none => st
  | some e =>
    let st1 := { st with qf := st.qf.erase e }
    if e.2 ∈ st1.visitedf ∨ avoid e.2 then st1
    else
      let st2 := { st1 with visitedf := e.2 :: st1.visitedf }
      (G.successors e.2).foldl (relaxF G w avoid e.1 e.2) st2

/-- The `--- Backward ---` block. -/
def backwardStep (G : MultiDiGraph) (w : WeightField) (avoid : Node → Bool)
    (st : BDState) : BDState :=
  match qMinE st.qb with
  | none => st
  | some e =>
    let st1 := { st with qb := st.qb.erase e }
    if e.2 ∈ st1.visitedb ∨ avoid e.2 then st1
    else
      let st2 := { st1 with visitedb := e.2 :: st1.visitedb }
      (G.predecessors e.2).foldl (relaxB G w avoid e.1 e.2) st2

/-- The `while q_f and q_b` guard together with the
`if q_f[0][0] + q_b[0][0] >= mu: break` test: the loop body runs exactly
when both heaps are non-empty and the sum of their least costs is below
`mu`. -/
def loopGuard (st : BDState) : Bool :=
  match qMinE st.qf, qMinE st.qb with
  | some a, some b => !decide ((↑(a.1 + b.1) : WithTop ℚ) ≥ st.mu)
  | _, _ => false

/-- One iteration of the while loop: the forward block then the backward
block (their inner `if q_f:` and `if q_b:` tests are the `none` cases of
`qMinE`). -/
def bdStep (G : MultiDiGraph) (w : WeightField) (avoid : Node → Bool)
    (st : BDState) : BDState :=
  backwardStep G w avoid (forwardStep G w avoid st)

/-- The while loop, driven by a fuel argument.  `bdFuel` below always
suffices for the guard to become false (the termination theorem), so the
fuelled loop computes the exact final state of the Python loop. -/
def bdLoop (G : MultiDiGraph) (w : WeightField) (avoid : Node → Bool) :
    ℕ → BDState → BDState
  | 0, st => st
  | n + 1, st =>
    if loopGuard st then bdLoop G w avoid n (bdStep G w avoid st) else st

/-- Fuel bound: two initial heap entries plus one heap push per edge end;
each loop iteration consumes at least one entry of each heap. -/
def bdFuel (G : MultiDiGraph) : ℕ :=
  2 + ((dedupFirst G.nodeIds).map (fun u => (G.successors u).length)).sum
    + ((dedupFirst G.nodeIds).map (fun v => (G.predecessors v).length)).sum

/-- Initial search state for `start_node` and `end_node`. -/
def initState (s t : Node) : BDState where
  qf := [(0, s)]
  qb := [(0, t)]
  distf := [(s, 0)]
  distb := [(t, 0)]
  parentf := [(s, none)]
  parentb := [(t, none)]
  visitedf := []
  visitedb := []
  mu := ⊤
  meeting := none

/-- One `while curr is not None` chain walk of `reconstruct_path`, fuelled;
it emits the current node and follows the parent dict.  A missing key
(which raises in Python and never occurs on search states) stops the walk
like a `None` entry does.  On every state the search produces, the parent
chains are acyclic and shorter than the fuel passed in, so the fuel never
runs out. -/
def chainWalk (parent : List (Node × Option Node)) : ℕ → Node → List Node
  | 0, _ => []
  | n + 1, curr =>
    curr :: (match dlookup parent curr with
      | some (some p) => chainWalk parent n p
      | _ => [])

/-- Embedding of `reconstruct_path(parent_f, parent_b, meeting_node,
total_val)`: `(None, inf)` when there is no meeting node, otherwise the
reversed forward chain from the meeting node glued to the backward chain
that starts at `parent_b[meeting_node]`. -/
def reconstruct_path (parent_f parent_b : List (Node × Option Node))
    (fuel : ℕ) (meeting_node : Option Node) (total_val : WithTop ℚ) :
    Option (List Node) × WithTop ℚ :=
  match meeting_node with
  | none => (none, ⊤)
  | some m =>
    let path_f := (chainWalk parent_f fuel m).reverse
    let path_b := match dlookup parent_b m with
      | some (some c) => chainWalk parent_b fuel c
      | _ => []
    (some (path_f ++ path_b), total_val)

/-- Embedding of `bidirectional_dijkstra(graph, start_node, end_node,
weight, avoid_nodes)`.  The early `if start_node not in graph or end_node
not in graph: return None, float("inf")` precedes the loop; the commented
`pass` branch on excluded endpoints changes nothing and is not modelled. -/
def bidirectional_dijkstra (G : MultiDiGraph) (start_node end_node : Node)
    (w : WeightField := .travel_time) (avoid : Node → Bool := fun _ => false) :
    Option (List Node) × WithTop ℚ :=
  if start_node ∉ G.nodeIds ∨ end_node ∉ G.nodeIds then (none, ⊤)
  else
    let final := bdLoop G w avoid (bdFuel G) (initState start_node end_node)
    reconstruct_path final.parentf final.parentb (G.nodes.length + 1)
      final.meeting final.mu

/-- The representative variant `min(data.values(), key=lambda x:
x.get("travel_time", float("inf")))`: the first variant of least
travel time, a missing travel time counting as `inf`.  `none` only on an
empty variant list, where the Python `min` raises. -/
def minByTravelTime (l : List EdgeData) : Option EdgeData :=
  l.foldl (fun acc d =>
    match acc with
    | none => some d
    | some m => if toTop d.travel_time < toTop m.travel_time then some d else acc)
    none

/-- Embedding of `get_path_metrics(graph, path_nodes)`: walk the
consecutive pairs, take the least-travel-time variant of each, accumulate
its `length` and `travel_time` (each defaulting to 0 when absent).
`none` models the exception the Python raises when some consecutive pair
has no edge data (a graph-integrity violation, never hit on search paths). -/
def get_path_metrics (G : MultiDiGraph) (path_nodes : List Node) :
    Option (ℚ × ℚ) :=
  (path_nodes.zip path_nodes.tail).foldlM
    (fun acc uv =>
      (minByTravelTime (G.edgeDataList uv.1 uv.2)).map (fun edge =>
        (acc.1 + edge.length.getD 0, acc.2 + edge.travel_time.getD 0)))
    ((0 : ℚ), (0 : ℚ))

/-- Embedding of `get_nodes_to_avoid(graph, city_name, radius_km)`.  The
geocoder is an oracle parameter; a failing geocode is the bare `except`
branch returning the empty set.  The `center_node =
ox.distance.nearest_nodes(...)` value of the source is never used and is
omitted.  The returned Python set is modelled by the list of members. -/
def get_nodes_to_avoid (geocode : String → Option (ℚ × ℚ))
    (G : MultiDiGraph) (city_name : String) (radius_km : ℚ := 5) :
    List Node :=
  match geocode (city_name ++ ", Benin") with
  | none => []
  | some point =>
    let c_lat := point.1
    let c_lon := point.2
    let limit_sq := (radius_km / 111) ^ 2
    G.nodes.filterMap (fun nd =>
      let dy := nd.2.1 - c_lat
      let dx := nd.2.2 - c_lon
      if dy * dy + dx * dx < limit_sq then some nd.1 else none)

/-! Mathematical ground truth for the search claims: walks of the graph
restricted to the non-excluded nodes, stepping only between node pairs
joined by at least one variant carrying the selected weight field; the
cost of a walk is the sum of the per-pair least weights, exactly the
relaxation values the algorithm uses. -/

/-- Cost of a node sequence: sum of the minimum selected-field weights of
its consecutive pairs. -/
def walkCostT (G : MultiDiGraph) (w : WeightField) : List Node → WithTop ℚ
  | u :: v :: rest => toTop (stepWeightO G w u v) + walkCostT G w (v :: rest)
  | _ => 0

/-- A walk from `s` to `t` in the subgraph of non-excluded nodes: nonempty,
starts at `s`, ends at `t`, every step has a variant with a finite selected
weight, and no node of it is excluded. -/
def IsRWalk (G : MultiDiGraph) (w : WeightField) (avoid : Node → Bool)
    (s t : Node) (p : List Node) : Prop :=
  p.head? = some s ∧ p.getLast? = some t ∧
  List.Chain' (fun u v => stepWeightO G w u v ≠ none) p ∧
  ∀ x ∈ p, avoid x = false

/-! Embedding of the narrative pipeline of `calculate_route`. -/

/-- One record of a `reverse_geocoder.search` result (`name` and country
code `cc` are the fields the core reads). -/
structure RGInfo where
  name : String
  cc : String
  deriving DecidableEq, Repr

/-- The `FON_CITIES` translation table, in source order. -/
def FON_CITIES : List (String × String) :=
  [("Cotonou", "Kutɔnu"), ("Porto-Novo", "Xɔgbonu"), ("Abomey", "Agbomɛ"),
   ("Ouidah", "Glexwé"), ("Bohicon", "Bɔxikɔn"), ("Allada", "Alada")]

/-- ASCII model of Python `str.lower()` (the byte-level `String.toLower`
of the core library does not reduce; this per-character map does, and the
two agree on ASCII data). -/
def pyLower (s : String) : String :=
  String.mk (s.data.map Char.toLower)

/-- Embedding of `get_fon_city_name(city_fren)`: keep the part before the
first comma, strip it, look it up case-insensitively, and render
`"Fon (French)"` on a hit. -/
def get_fon_city_name (city_fren : String) : String :=
  let base_name := ((city_fren.splitOn ",").headD city_fren).trim
  match FON_CITIES.find? (fun kv => pyLower kv.1 = pyLower base_name) with
  | some kv => kv.2 ++ " (" ++ kv.1 ++ ")"
  | none => city_fren

/-- ASCII model of the Python `str.title()` used for display names. -/
def pyTitle (s : String) : String :=
  String.mk (s.data.foldl
    (fun (acc : List Char × Bool) c =>
      (acc.1 ++ [if acc.2 then c.toLower else c.toUpper], c.isAlpha))
    ([], false)).1

/-- Python `int()` on a rational: truncation toward zero. -/
def pyInt (q : ℚ) : ℤ :=
  if 0 ≤ q then ⌊q⌋ else -⌊-q⌋

/-- The edge length used by the segmentation loop:
`min(d.get("length", 0) for d in data.values())`, with the per-variant
default 0 (unlike the search, which defaults to `inf`).  The outer
default covers the empty-variant case on which the Python raises;
search paths never hit it. -/
def segEdgeLen (G : MultiDiGraph) (u v : Node) : ℚ :=
  (((G.edgeDataList u v).map (fun d => d.length.getD 0)).min?).getD 0

/-- Running state of the segmentation loop of `calculate_route`:
accumulated metres, next step index, running place name, and the legs
emitted so far.  A leg `(name, km)` models the source entry
`json_output["step_k"] = f"{name} - {km:.1f}km"` with the number kept
exact instead of formatted. -/
structure SegState where
  segment_dist : ℚ
  step_count : ℕ
  current_city_name : String
  steps : List (String × ℚ)
  deriving DecidableEq, Repr

/-- Body of the segmentation loop of `calculate_route` for one index `i`:
the input is the pair of the edge length of `(path[i], path[i+1])` and of
`results[i+1]`.  Accumulate the edge length; skip nodes resolved outside
Benin; on a place-name change, either fold into the destination (when the
new name is the final city name) or emit a leg and reset. -/
def segStep (final_city_name : String) (st : SegState) (x : ℚ × RGInfo) :
    SegState :=
  let segment_dist := st.segment_dist + x.1
  if x.2.cc ≠ "BJ" then { st with segment_dist := segment_dist }
  else
    let next_city := x.2.name
    if next_city ≠ st.current_city_name then
      if next_city = final_city_name then
        { st with segment_dist := segment_dist, current_city_name := next_city }
      else
        { segment_dist := 0
          step_count := st.step_count + 1
          current_city_name := next_city
          steps := st.steps ++ [(get_fon_city_name next_city, segment_dist / 1000)] }
    else { st with segment_dist := segment_dist }

/-- The error conditions `calculate_route` raises as `RouteError`; the
constructors carry the interpolated data of the corresponding f-strings
and `render` recovers the exact message text. -/
inductive RouteMsg where
  | same_place (start_input : String)
  | graph_load_failed
  | lieu_introuvable
  | depart_incorrect (name : String) (cc : String)
  | destination_hors_zone (name : String) (cc : String)
  | aucun_chemin
  deriving DecidableEq, Repr

/-- The message strings of the source, reconstructed from the structured
form. -/
def RouteMsg.render : RouteMsg → String
  | .same_place s => "Origine et destination identiques (" ++ s ++ ")"
  | .graph_load_failed => "Impossible de charger le graphe routier"
  | .lieu_introuvable => "Lieu introuvable"
  | .depart_incorrect n cc => "Départ incorrect (" ++ n ++ ", " ++ cc ++ ")"
  | .destination_hors_zone n cc => "Destination hors zone (" ++ n ++ ", " ++ cc ++ ")"
  | .aucun_chemin => "Aucun chemin trouvé"

/-- The `RouteError(message, details)` exception value. -/
structure RouteError where
  message : RouteMsg
  details : Option String
  deriving DecidableEq, Repr

/-- External collaborators of `calculate_route`, per the specification all
treated as oracles: graph loading, geocoding (`ox.geocode`; `none` models a
raised exception), single and batch reverse geocoding, nearest-node lookup
on the loaded graph, and the Gemini translator (which returns its input
unchanged on a missing key or API failure). -/
structure Collaborators where
  load_graph : Option MultiDiGraph
  geocode : String → Option (ℚ × ℚ)
  rg_search1 : ℚ × ℚ → Option RGInfo
  rg_search : List (ℚ × ℚ) → List RGInfo
  nearest_nodes : ℚ × ℚ → Node
  translate : String → String

/-- Embedding of `smart_geocode(query)`: try the query, then the query
suffixed with `", Benin"`. -/
def smart_geocode (geocode : String → Option (ℚ × ℚ)) (query : String) :
    Option (ℚ × ℚ) :=
  match geocode query with
  | some p => some p
  | none => geocode (query ++ ", Benin")

/-- Lookup of `G.nodes[n]["y"]` (first record wins; search paths only hold
present ids). -/
def nodeY (G : MultiDiGraph) (n : Node) : ℚ :=
  (((G.nodes.find? (fun nd => nd.1 = n)).map (·.2.1)).getD 0)

/-- Lookup of `G.nodes[n]["x"]`. -/
def nodeX (G : MultiDiGraph) (n : Node) : ℚ :=
  (((G.nodes.find? (fun nd => nd.1 = n)).map (·.2.2)).getD 0)

/-- The result dictionary of `calculate_route`, with the f-string number
formatting kept as exact values: a leg is `(name, km)` instead of
`"name - X.Xkm"`, and the `info_sup` summary line is kept as its
components (total km, duration, weather penalty, prices, suggestion). -/
structure RouteOutput where
  departure : String
  steps : List (String × ℚ)
  destination : String × ℚ
  avoid_city : Option String
  season : String
  km_total : ℚ
  time_s : ℚ
  weather_penalty : Bool
  hours : ℤ
  minutes : ℤ
  p_bus : ℤ
  p_taxi : ℤ
  suggestion : Bool
  deriving DecidableEq, Repr

/-- Embedding of `calculate_route(start_input, end_input, avoid_input,
season_raining, api_key)`.  Python truthiness of the optional
`avoid_input` string is modelled explicitly (`none` and the empty string
are falsy).  Exceptions become `Except.error`; the generic
`except Exception` around the geocoding block (which also catches the
`NameError` of using an unbound `start_geocode_info` after a failing
`rg.search`) is the `lieu_introuvable` error. -/
def calculate_route (C : Collaborators) (start_input end_input : String)
    (avoid_input : Option String := none) (season_raining : Bool := false) :
    Except RouteError RouteOutput :=
  if pyLower start_input = pyLower end_input then
    .error ⟨.same_place start_input, none⟩
  else
    match C.load_graph with
    | none => .error ⟨.graph_load_failed, none⟩
    | some G =>
      match smart_geocode C.geocode start_input with
      | none => .error ⟨.lieu_introuvable, none⟩
      | some start_pt =>
        match smart_geocode C.geocode end_input with
        | none => .error ⟨.lieu_introuvable, none⟩
        | some end_pt =>
          match C.rg_search1 start_pt, C.rg_search1 end_pt with
          | none, _ => .error ⟨.lieu_introuvable, none⟩
          | _, none => .error ⟨.lieu_introuvable, none⟩
          | some start_geocode_info, some dest_geocode_info =>
            if start_geocode_info.cc ≠ "BJ" then
              .error ⟨.depart_incorrect start_geocode_info.name start_geocode_info.cc,
                some "La zone de couverture est EXCLUSIVEMENT le BÉNIN."⟩
            else if dest_geocode_info.cc ≠ "BJ" then
              .error ⟨.destination_hors_zone dest_geocode_info.name dest_geocode_info.cc,
                some "Trajet impossible : Le calculateur ne gère que les routes internes."⟩
            else
              let start_node := C.nearest_nodes (start_pt.2, start_pt.1)
              let end_node := C.nearest_nodes (end_pt.2, end_pt.1)
              let avoid_nodes : List Node :=
                match avoid_input with
                | none => []
                | some city =>
                  if city = "" then []
                  else get_nodes_to_avoid C.geocode G city 3
              let res := bidirectional_dijkstra G start_node end_node
                .travel_time (fun n => n ∈ avoid_nodes)
              match res.1 with
              | none => .error ⟨.aucun_chemin, none⟩
              | some path =>
                if path = [] then .error ⟨.aucun_chemin, none⟩
                else
                  let coords := path.map (fun n => (nodeY G n, nodeX G n))
                  let results := C.rg_search coords
                  let real_start_name := pyTitle start_input
                  let departure := get_fon_city_name real_start_name
                  let current_city_name :=
                    ((results.head?.map (·.name)).getD "")
                  let final_city_name :=
                    match results.reverse.find? (fun r => r.cc = "BJ") with
                    | some r =>
                      if r.name = "" then ((results.getLast?.map (·.name)).getD "")
                      else r.name
                    | none => ((results.getLast?.map (·.name)).getD "")
                  let pairs := path.zip path.tail
                  let seg := (pairs.map (fun uv => segEdgeLen G uv.1 uv.2)).zip
                    results.tail
                  let segFinal := seg.foldl (segStep final_city_name)
                    ⟨0, 1, current_city_name, []⟩
                  let km_final := segFinal.segment_dist / 1000
                  let dest_name_fon := get_fon_city_name (pyTitle end_input)
                  let avoid_city :=
                    match avoid_input with
                    | none => none
                    | some city =>
                      if city = "" then none
                      else some (get_fon_city_name (pyTitle city))
                  let season_fr :=
                    if season_raining then "Saison des Pluies" else "Saison Sèche"
                  let season := C.translate season_fr
                  let metrics := (get_path_metrics G path).getD (0, 0)
                  let km_total := metrics.1 / 1000
                  let lat_max := ((path.map (nodeY G)).max?).getD 0
                  let rain_penalty := season_raining ∧ lat_max > (98 : ℚ) / 10
                  let time_s := if rain_penalty then metrics.2 + 1800 else metrics.2
                  let hours := ⌊time_s / 3600⌋
                  let minutes := ⌊(time_s - 3600 * (hours : ℚ)) / 60⌋
                  let suggestion := hours ≥ 10
                  let p_bus := pyInt (km_total * 18)
                  let p_taxi := pyInt (km_total * 30)
                  .ok {
                    departure := departure
                    steps := segFinal.steps
                    destination := (dest_name_fon, km_final)
                    avoid_city := avoid_city
                    season := season
                    km_total := km_total
                    time_s := time_s
                    weather_penalty := decide rain_penalty
                    hours := hours
                    minutes := minutes
                    p_bus := p_bus
                    p_taxi := p_taxi
                    suggestion := suggestion }

/-- The state produced by a successful forward relaxation of `u → v` with
new tentative distance `nd`, including the conditional meeting-node
update; `relaxF` equals this exactly when its three guards pass. -/
def relaxedF (st : BDState) (u v : Node) (nd : ℚ) : BDState :=
  let st1 := { st with
    distf := dinsert st.distf v nd
    parentf := dinsert st.parentf v (some u)
    qf := (nd, v) :: st.qf }
  match dlookup st1.distb v with
  | none => st1
  | some db =>
    if (↑(nd + db) : WithTop ℚ) < st1.mu then
      { st1 with mu := ↑(nd + db), meeting := some v }
    else st1

/-- The state produced by a successful backward relaxation of `u → v`. -/
def relaxedB (st : BDState) (u v : Node) (nd : ℚ) : BDState :=
  let st1 := { st with
    distb := dinsert st.distb u nd
    parentb := dinsert st.parentb u (some v)
    qb := (nd, u) :: st.qb }
  match dlookup st1.distf u with
  | none => st1
  | some df =>
    if (↑(df + nd) : WithTop ℚ) < st1.mu then
      { st1 with mu := ↑(df + nd), meeting := some u }
    else st1

/-! Concrete fixtures used by individual claims, and the one
specification-side comparison definition needed for a refinement check. -/

/-- Modelled from the claim words, for comparison with the code: the sum,
over consecutive node pairs, of the minimum `length` across the parallel
edge variants of the pair. -/
def minLengthSum (G : MultiDiGraph) (p : List Node) : Option ℚ :=
  (p.zip p.tail).foldlM
    (fun acc uv =>
      ((((G.edgeDataList uv.1 uv.2).filterMap (·.length))).min?).map (acc + ·))
    (0 : ℚ)

/-- Fixture: a single isolated node, id 0. -/
def oneNodeGraph : MultiDiGraph := { nodes := [(0, 0, 0)], edges := [] }

/-- Fixture: a single isolated node, id 7. -/
def oneNodeGraph7 : MultiDiGraph := { nodes := [(7, 0, 0)], edges := [] }

/-- Fixture: two isolated nodes 0 and 1 with no edges. -/
def twoNodeGraph : MultiDiGraph :=
  { nodes := [(0, 0, 0), (1, 0, 0)], edges := [] }

/-- Fixture: one node pair joined by two parallel variants whose fastest
variant is long (travel time 1, length 100) and whose shortest variant is
slow (travel time 2, length 5). -/
def parallelGraph : MultiDiGraph :=
  { nodes := [(0, 0, 0), (1, 0, 0)]
    edges := [(0, 1, { length := some 100, travel_time := some 1 }),
              (0, 1, { length := some 5, travel_time := some 2 })] }

/-- Fixture: the line graph 0 → 1 → 2 with unit weights on both fields. -/
def lineGraph : MultiDiGraph :=
  { nodes := [(0, 0, 0), (1, 0, 0), (2, 0, 0)]
    edges := [(0, 1, { length := some 1, travel_time := some 1 }),
              (1, 2, { length := some 1, travel_time := some 1 })] }

/-- The state of the search on `lineGraph` from 0 to 2 after its one loop
iteration (both frontiers have expanded their root and met at node 1). -/
def lineGraphMid : BDState :=
  { qf := [(1, 1)], qb := [(1, 1)]
    distf := [(1, 1), (0, 0)], distb := [(1, 1), (2, 0)]
    parentf := [(1, some 0), (0, none)], parentb := [(1, some 2), (2, none)]
    visitedf := [0], visitedb := [2]
    mu := ((2 : ℚ) : WithTop ℚ), meeting := some 1 }

/-- Whether a `calculate_route` outcome is the same-place input error. -/
def isSamePlaceError : Except RouteError RouteOutput → Bool
  | .error e =>
    match e.message with
    | .same_place _ => true
    | _ => false
  | .ok _ => false

/-- Well-formedness of the graph value: both endpoints of every edge are
nodes of the graph (an invariant every networkx multigraph maintains). -/
def Wf (G : MultiDiGraph) : Prop :=
  ∀ e ∈ G.edges, e.1 ∈ G.nodeIds ∧ e.2.1 ∈ G.nodeIds

instance (G : MultiDiGraph) : Decidable (Wf G) := by
  unfold Wf
  infer_instance

/-- Forward potential of a search state: heap entries still to pop plus
one future heap push per out-edge of each unexpanded node.  Every loop
iteration strictly decreases it. -/
def phiF (G : MultiDiGraph) (st : BDState) : ℕ :=
  st.qf.length +
    (((dedupFirst G.nodeIds).filter (fun u => decide (u ∉ st.visitedf))).map
      (fun u => (G.successors u).length)).sum

/-- Backward potential, mirror of `phiF`. -/
def phiB (G : MultiDiGraph) (st : BDState) : ℕ :=
  st.qb.length +
    (((dedupFirst G.nodeIds).filter (fun v => decide (v ∉ st.visitedb))).map
      (fun v => (G.predecessors v).length)).sum

/-- Total termination potential of the while loop. -/
def phi (G : MultiDiGraph) (st : BDState) : ℕ :=
  phiF G st + phiB G st

/-- Fixture: collaborators that geocode every place to the origin, reverse
geocode every point to Cotonou in Benin, and snap every point to node 0 of
the single-node graph. -/
def stubCollaborators : Collaborators where
  load_graph := some oneNodeGraph
  geocode := fun _ => some (0, 0)
  rg_search1 := fun _ => some ⟨"Cotonou", "BJ"⟩
  rg_search := fun _ => []
  nearest_nodes := fun _ => 0
  translate := fun s => s

/-! Theorems. -/

/-- Claim C8: for every graph and every place that geocodes to a center
coordinate, the exclusion filter with radius `radius_km` returns exactly
the graph nodes whose squared Euclidean distance in degrees from the
center is strictly below `(radius_km / 111)^2`, scanning every node. -/
theorem C8_exclusion_filter_geometry (geocode : String → Option (ℚ × ℚ))
    (G : MultiDiGraph) (city : String) (radius_km : ℚ) (c : ℚ × ℚ)
    (hgeo : geocode (city ++ ", Benin") = some c) (n : Node) :
    n ∈ get_nodes_to_avoid geocode G city radius_km ↔
      ∃ y x, (n, y, x) ∈ G.nodes ∧
        (y - c.1) * (y - c.1) + (x - c.2) * (x - c.2) < (radius_km / 111) ^ 2 := by
  unfold get_nodes_to_avoid
  rw [hgeo]
  simp only [List.mem_filterMap]
  constructor
  · rintro ⟨⟨m, y, x⟩, hmem, hif⟩
    by_cases hlt : (y - c.1) * (y - c.1) + (x - c.2) * (x - c.2) < (radius_km / 111) ^ 2
    · simp only [hlt, if_pos] at hif
      cases hif
      exact ⟨y, x, hmem, hlt⟩
    · simp [hlt] at hif
  · rintro ⟨y, x, hmem, hlt⟩
    exact ⟨(n, y, x), hmem, by simp [hlt]⟩

/-- Witness for C8 at a concrete oracle, graph and node. -/
theorem C8_exclusion_filter_geometry_witness :
    (3 : Node) ∈ get_nodes_to_avoid (fun _ => some (0, 0))
        { nodes := [(3, 0, 1/100), (4, 5, 5)], edges := [] } "Bohicon" 3 ↔
      ∃ y x, ((3 : Node), y, x) ∈
          ({ nodes := [(3, 0, 1/100), (4, 5, 5)], edges := [] } : MultiDiGraph).nodes ∧
        (y - 0) * (y - 0) + (x - 0) * (x - 0) < ((3 : ℚ) / 111) ^ 2 :=
  C8_exclusion_filter_geometry (fun _ => some (0, 0)) _ "Bohicon" 3 (0, 0) rfl 3

/-- Claim C9: in the segmentation loop, when the next node resolves inside
the country and its place name differs from the running one, then if the
new name is the final destination name no leg is emitted and the
accumulated distance keeps accumulating (the running name advancing),
and otherwise a leg with the new name and the accumulated kilometres is
emitted, the accumulator is reset to 0 and the running name advances. -/
theorem C9_segmentation_transition (final_city_name : String) (st : SegState)
    (len : ℚ) (res : RGInfo) (hcc : res.cc = "BJ")
    (hne : res.name ≠ st.current_city_name) :
    (res.name = final_city_name →
      segStep final_city_name st (len, res) =
        { st with segment_dist := st.segment_dist + len
                  current_city_name := res.name }) ∧
    (res.name ≠ final_city_name →
      segStep final_city_name st (len, res) =
        { segment_dist := 0
          step_count := st.step_count + 1
          current_city_name := res.name
          steps := st.steps ++
            [(get_fon_city_name res.name, (st.segment_dist + len) / 1000)] }) := by
  constructor
  · intro hfin
    subst hfin
    simp [segStep, hcc, hne]
  · intro hfin
    simp [segStep, hcc, hne, hfin]

/-- Witness for C9 at a concrete state and resolver record. -/
theorem C9_segmentation_transition_witness :
    segStep "Parakou" ⟨10, 1, "Cotonou", []⟩ (500, ⟨"Bohicon", "BJ"⟩) =
      { segment_dist := 0, step_count := 2, current_city_name := "Bohicon",
        steps := [(get_fon_city_name "Bohicon", (10 + 500) / 1000)] } :=
  (C9_segmentation_transition "Parakou" ⟨10, 1, "Cotonou", []⟩ 500
    ⟨"Bohicon", "BJ"⟩ rfl (by decide)).2 (by decide)

/-- Claim C2 (code bug): the search in `core.py` has no start-equals-end
short-circuit; on an isolated node the claimed result would be the
single-node path of cost 0, but the code finds no meeting node and
returns the no-path value `(None, inf)`. -/
theorem C2_same_node_no_short_circuit :
    bidirectional_dijkstra oneNodeGraph 0 0 .travel_time (fun _ => false) =
        (none, ⊤) ∧
      ((none, ⊤) : Option (List Node) × WithTop ℚ) ≠
        (some [0], ((0 : ℚ) : WithTop ℚ)) := by
  constructor
  · rfl
  · decide

/-- Claim C5, counterexample: a missing start node produces exactly the
same value `(None, inf)` as a legitimate no-path search between two
present but disconnected nodes, so the two outcomes are not
distinguishable. -/
theorem C5_counterexample :
    bidirectional_dijkstra twoNodeGraph 5 1 .travel_time (fun _ => false) =
        (none, ⊤) ∧
      bidirectional_dijkstra twoNodeGraph 0 1 .travel_time (fun _ => false) =
        (none, ⊤) := by
  constructor <;> rfl

/-- Claim C5, amended: when the start or end node is absent from the
graph, `bidirectional_dijkstra` returns `(None, inf)` immediately, before
the search loop — but that value coincides with the no-path outcome
instead of being distinguishable from it. -/
theorem C5_missing_node_early_return (G : MultiDiGraph) (s t : Node)
    (w : WeightField) (avoid : Node → Bool)
    (h : s ∉ G.nodeIds ∨ t ∉ G.nodeIds) :
    bidirectional_dijkstra G s t w avoid = (none, ⊤) := by
  unfold bidirectional_dijkstra
  simp [h]

/-- Witness for the amended C5 at a concrete graph. -/
theorem C5_missing_node_early_return_witness :
    bidirectional_dijkstra twoNodeGraph 9 0 .length (fun _ => false) =
      (none, ⊤) :=
  C5_missing_node_early_return twoNodeGraph 9 0 .length (fun _ => false)
    (by decide)

/-- Unfolding step: the representative search over a nonempty variant list
is the fold started at its head. -/
theorem minByTravelTime_cons_eq (x : EdgeData) (l : List EdgeData) :
    minByTravelTime (x :: l) = l.foldl (fun acc d =>
      match acc with
      | none => some d
      | some m => if toTop d.travel_time < toTop m.travel_time then some d else acc)
      (some x) := rfl

/-- The representative of a nonempty variant list exists, belongs to the
list, and has the least travel time of the list. -/
theorem minByTravelTime_cons (a : EdgeData) (l : List EdgeData) :
    ∃ m, minByTravelTime (a :: l) = some m ∧ (m = a ∨ m ∈ l) ∧
      toTop m.travel_time ≤ toTop a.travel_time ∧
      ∀ d ∈ l, toTop m.travel_time ≤ toTop d.travel_time := by
  induction l generalizing a with
  | nil => exact ⟨a, rfl, Or.inl rfl, le_refl _, by simp⟩
  | cons b l ih =>
    by_cases hlt : toTop b.travel_time < toTop a.travel_time
    · obtain ⟨m, hm, hmem, hle, hall⟩ := ih b
      refine ⟨m, ?_, ?_, ?_, ?_⟩
      · rw [minByTravelTime_cons_eq, List.foldl_cons]
        rw [minByTravelTime_cons_eq] at hm
        simpa [hlt] using hm
      · rcases hmem with rfl | hmem
        · exact Or.inr (List.mem_cons_self _ _)
        · exact Or.inr (List.mem_cons_of_mem _ hmem)
      · exact hle.trans hlt.le
      · intro d hd
        rcases List.mem_cons.mp hd with rfl | hd
        · exact hle
        · exact hall d hd
    · obtain ⟨m, hm, hmem, hle, hall⟩ := ih a
      refine ⟨m, ?_, ?_, hle, ?_⟩
      · rw [minByTravelTime_cons_eq, List.foldl_cons]
        rw [minByTravelTime_cons_eq] at hm
        simpa [hlt] using hm
      · rcases hmem with rfl | hmem
        · exact Or.inl rfl
        · exact Or.inr (List.mem_cons_of_mem _ hmem)
      · intro d hd
        rcases List.mem_cons.mp hd with rfl | hd
        · exact hle.trans (not_lt.mp hlt)
        · exact hall d hd

/-- Characterization of a successful representative lookup. -/
theorem minByTravelTime_spec {l : List EdgeData} {m : EdgeData}
    (h : minByTravelTime l = some m) :
    m ∈ l ∧ ∀ d ∈ l, toTop m.travel_time ≤ toTop d.travel_time := by
  match l with
  | [] => cases h
  | a :: l =>
    obtain ⟨m', hm', hmem, hlea, hall⟩ := minByTravelTime_cons a l
    rw [hm'] at h
    cases h
    refine ⟨?_, ?_⟩
    · rcases hmem with rfl | hmem
      · exact List.mem_cons_self _ _
      · exact List.mem_cons_of_mem _ hmem
    · intro d hd
      rcases List.mem_cons.mp hd with rfl | hd
      · exact hlea
      · exact hall d hd

/-- The property a representative list must satisfy along a pair list:
member of the variant list of its pair and of least travel time there. -/
def RepOf (G : MultiDiGraph) (uv : Node × Node) (rep : EdgeData) : Prop :=
  rep ∈ G.edgeDataList uv.1 uv.2 ∧
    ∀ d ∈ G.edgeDataList uv.1 uv.2,
      toTop rep.travel_time ≤ toTop d.travel_time

/-- Structure of the metrics fold: a successful run picks one least-travel-
time representative per consecutive pair and adds the `length` and
`travel_time` of exactly those representatives to the accumulator. -/
theorem metrics_fold_reps (G : MultiDiGraph) :
    ∀ (pairs : List (Node × Node)) (acc out : ℚ × ℚ),
      pairs.foldlM (fun acc uv =>
        (minByTravelTime (G.edgeDataList uv.1 uv.2)).map (fun edge =>
          (acc.1 + edge.length.getD 0, acc.2 + edge.travel_time.getD 0))) acc
        = some out →
      ∃ reps : List EdgeData, List.Forall₂ (RepOf G) pairs reps ∧
        out.1 = acc.1 + (reps.map (fun e => e.length.getD 0)).sum ∧
        out.2 = acc.2 + (reps.map (fun e => e.travel_time.getD 0)).sum := by
  intro pairs
  induction pairs with
  | nil =>
    intro acc out h
    simp only [List.foldlM_nil, Option.pure_def, Option.some.injEq] at h
    subst h
    exact ⟨[], List.Forall₂.nil, by simp, by simp⟩
  | cons uv pairs ih =>
    intro acc out h
    simp only [List.foldlM_cons] at h
    rcases hmin : minByTravelTime (G.edgeDataList uv.1 uv.2) with _ | rep
    · rw [hmin] at h
      simp at h
    · rw [hmin] at h
      obtain ⟨reps, hfa, h1, h2⟩ := ih _ _ h
      obtain ⟨hmem, hleast⟩ := minByTravelTime_spec hmin
      refine ⟨rep :: reps, List.Forall₂.cons ⟨hmem, hleast⟩ hfa, ?_, ?_⟩
      · simp only [List.map_cons, List.sum_cons, h1]
        ring
      · simp only [List.map_cons, List.sum_cons, h2]
        ring

/-- Claim C7: a successful `get_path_metrics` run selects, for every
consecutive node pair, a variant of minimal travel time (a missing travel
time counting as `inf`), and accumulates both the length and the travel
time of that same representative variant into the two totals. -/
theorem C7_metrics_representative (G : MultiDiGraph) (p : List Node)
    (dist time : ℚ) (h : get_path_metrics G p = some (dist, time)) :
    ∃ reps : List EdgeData, List.Forall₂ (RepOf G) (p.zip p.tail) reps ∧
      dist = (reps.map (fun e => e.length.getD 0)).sum ∧
      time = (reps.map (fun e => e.travel_time.getD 0)).sum := by
  obtain ⟨reps, hfa, h1, h2⟩ := metrics_fold_reps G (p.zip p.tail) (0, 0) (dist, time) h
  exact ⟨reps, hfa, by simpa using h1, by simpa using h2⟩

/-- Witness for C7 on the two-variant fixture: the representative is the
fast long variant. -/
theorem C7_metrics_representative_witness :
    ∃ reps : List EdgeData,
      List.Forall₂ (RepOf parallelGraph) ([0, 1].zip [0, 1].tail) reps ∧
      (100 : ℚ) = (reps.map (fun e => e.length.getD 0)).sum ∧
      (1 : ℚ) = (reps.map (fun e => e.travel_time.getD 0)).sum :=
  C7_metrics_representative parallelGraph [0, 1] 100 1
    (by simp [get_path_metrics, parallelGraph, MultiDiGraph.edgeDataList, minByTravelTime, toTop, List.filterMap])

/-- Claim C3, counterexample: on the two-variant fixture the recomputed
total distance is the length 100 of the least-travel-time variant, while
the sum of minimum lengths is 5, so the claimed equality fails. -/
theorem C3_counterexample :
    get_path_metrics parallelGraph [0, 1] = some (100, 1) ∧
      minLengthSum parallelGraph [0, 1] = some 5 ∧ (100 : ℚ) ≠ 5 := by
  refine ⟨(by simp [get_path_metrics, parallelGraph, MultiDiGraph.edgeDataList, minByTravelTime, toTop, List.filterMap]),
    by simp [minLengthSum, parallelGraph, MultiDiGraph.edgeDataList, List.filterMap]
       norm_num, by norm_num⟩

/-- Claim C3, amended: the total distance of a successful
`get_path_metrics` run equals the sum, over consecutive node pairs, of the
`length` of the least-travel-time variant of the pair (not of the
variant of least length), whichever weight field the search optimized —
the calculator never consults that field. -/
theorem C3_metrics_distance (G : MultiDiGraph) (p : List Node)
    (dist time : ℚ) (h : get_path_metrics G p = some (dist, time)) :
    ∃ reps : List EdgeData, List.Forall₂ (RepOf G) (p.zip p.tail) reps ∧
      dist = (reps.map (fun e => e.length.getD 0)).sum := by
  obtain ⟨reps, hfa, h1, h2⟩ := metrics_fold_reps G (p.zip p.tail) (0, 0) (dist, time) h
  exact ⟨reps, hfa, by simpa using h1⟩

/-- Witness for the amended C3 on the two-variant fixture. -/
theorem C3_metrics_distance_witness :
    ∃ reps : List EdgeData,
      List.Forall₂ (RepOf parallelGraph) ([0, 1].zip [0, 1].tail) reps ∧
      (100 : ℚ) = (reps.map (fun e => e.length.getD 0)).sum :=
  C3_metrics_distance parallelGraph [0, 1] 100 1
    (by simp [get_path_metrics, parallelGraph, MultiDiGraph.edgeDataList, minByTravelTime, toTop, List.filterMap])

/-! Structural lemmas about the search embedding, shared by the claims
about `bidirectional_dijkstra`. -/

/-- Lookup after insertion: the inserted key shadows, others unchanged. -/
theorem dlookup_dinsert {α : Type} (l : List (Node × α)) (k : Node) (v : α)
    (k' : Node) :
    dlookup (dinsert l k v) k' = if k' = k then some v else dlookup l k' := by
  by_cases h : k' = k <;> simp [dlookup, dinsert, List.find?_cons, h, eq_comm]

/-- Insertion never removes keys. -/
theorem isSome_dlookup_dinsert {α : Type} {l : List (Node × α)} {k' : Node}
    (k : Node) (v : α) (h : (dlookup l k').isSome) :
    (dlookup (dinsert l k v) k').isSome := by
  rw [dlookup_dinsert]
  split <;> simp [h]

/-- The fold inside `qMinE` returns its seed or a list member, of least
cost among both. -/
theorem qMinE_foldl_spec (l : List (ℚ × Node)) (x : ℚ × Node) :
    (l.foldl (fun m e =>
        if m.1 < e.1 ∨ (m.1 = e.1 ∧ m.2 ≤ e.2) then m else e) x = x ∨
      l.foldl (fun m e =>
        if m.1 < e.1 ∨ (m.1 = e.1 ∧ m.2 ≤ e.2) then m else e) x ∈ l) ∧
    (l.foldl (fun m e =>
        if m.1 < e.1 ∨ (m.1 = e.1 ∧ m.2 ≤ e.2) then m else e) x).1 ≤ x.1 ∧
    ∀ b ∈ l, (l.foldl (fun m e =>
        if m.1 < e.1 ∨ (m.1 = e.1 ∧ m.2 ≤ e.2) then m else e) x).1 ≤ b.1 := by
  induction l generalizing x with
  | nil => exact ⟨Or.inl rfl, le_refl _, by simp⟩
  | cons y l ih =>
    simp only [List.foldl_cons]
    by_cases hc : x.1 < y.1 ∨ (x.1 = y.1 ∧ x.2 ≤ y.2)
    · obtain ⟨hmem, hle, hall⟩ := ih x
      rw [if_pos hc]
      refine ⟨?_, hle, ?_⟩
      · rcases hmem with h | h
        · exact Or.inl h
        · exact Or.inr (List.mem_cons_of_mem _ h)
      · intro b hb
        rcases List.mem_cons.mp hb with rfl | hb
        · rcases hc with hc | hc
          · exact hle.trans hc.le
          · exact hle.trans hc.1.le
        · exact hall b hb
    · obtain ⟨hmem, hle, hall⟩ := ih y
      rw [if_neg hc]
      push_neg at hc
      refine ⟨?_, ?_, ?_⟩
      · rcases hmem with h | h
        · exact Or.inr (by rw [h]; exact List.mem_cons_self _ _)
        · exact Or.inr (List.mem_cons_of_mem _ h)
      · exact hle.trans hc.1
      · intro b hb
        rcases List.mem_cons.mp hb with rfl | hb
        · exact hle
        · exact hall b hb

/-- A popped heap entry is a heap member of least cost. -/
theorem qMinE_spec {l : List (ℚ × Node)} {e : ℚ × Node}
    (h : qMinE l = some e) : e ∈ l ∧ ∀ b ∈ l, e.1 ≤ b.1 := by
  match l with
  | [] => cases h
  | x :: xs =>
    obtain ⟨hmem, hle, hall⟩ := qMinE_foldl_spec xs x
    simp only [qMinE, Option.some.injEq] at h
    subst h
    refine ⟨?_, ?_⟩
    · rcases hmem with h | h
      · rw [h]; exact List.mem_cons_self _ _
      · exact List.mem_cons_of_mem _ h
    · intro b hb
      rcases List.mem_cons.mp hb with rfl | hb
      · exact hle
      · exact hall b hb

/-- The heap minimum exists exactly on nonempty heaps. -/
theorem qMinE_eq_none {l : List (ℚ × Node)} : qMinE l = none ↔ l = [] := by
  cases l <;> simp [qMinE]

/-- `relaxF` in terms of its three guards and `relaxedF`. -/
theorem relaxF_eq (G : MultiDiGraph) (w : WeightField) (avoid : Node → Bool)
    (d_u : ℚ) (u : Node) (st : BDState) (v : Node) :
    relaxF G w avoid d_u u st v =
      if avoid v then st
      else
        match stepWeightO G w u v with
        | none => st
        | some val =>
          if (↑(d_u + val) : WithTop ℚ) < toTop (dlookup st.distf v) then
            relaxedF st u v (d_u + val)
          else st := rfl

/-- `relaxB` in terms of its three guards and `relaxedB`. -/
theorem relaxB_eq (G : MultiDiGraph) (w : WeightField) (avoid : Node → Bool)
    (d_v : ℚ) (v : Node) (st : BDState) (u : Node) :
    relaxB G w avoid d_v v st u =
      if avoid u then st
      else
        match stepWeightO G w u v with
        | none => st
        | some val =>
          if (↑(d_v + val) : WithTop ℚ) < toTop (dlookup st.distb u) then
            relaxedB st u v (d_v + val)
          else st := rfl

/-- Field-level description of a successful forward relaxation. -/
theorem relaxedF_fields (st : BDState) (u v : Node) (nd : ℚ) :
    (relaxedF st u v nd).distf = dinsert st.distf v nd ∧
    (relaxedF st u v nd).parentf = dinsert st.parentf v (some u) ∧
    (relaxedF st u v nd).qf = (nd, v) :: st.qf ∧
    (relaxedF st u v nd).distb = st.distb ∧
    (relaxedF st u v nd).parentb = st.parentb ∧
    (relaxedF st u v nd).qb = st.qb ∧
    (relaxedF st u v nd).visitedf = st.visitedf ∧
    (relaxedF st u v nd).visitedb = st.visitedb ∧
    ((relaxedF st u v nd).mu = st.mu ∧
       (relaxedF st u v nd).meeting = st.meeting ∨
     ∃ db, dlookup st.distb v = some db ∧
       (↑(nd + db) : WithTop ℚ) < st.mu ∧
       (relaxedF st u v nd).mu = ↑(nd + db) ∧
       (relaxedF st u v nd).meeting = some v) := by
  unfold relaxedF
  dsimp only
  split
  · exact ⟨rfl, rfl, rfl, rfl, rfl, rfl, rfl, rfl, Or.inl ⟨rfl, rfl⟩⟩
  · rename_i db hdb
    split
    · rename_i hlt
      exact ⟨rfl, rfl, rfl, rfl, rfl, rfl, rfl, rfl,
        Or.inr ⟨db, hdb, hlt, rfl, rfl⟩⟩
    · exact ⟨rfl, rfl, rfl, rfl, rfl, rfl, rfl, rfl, Or.inl ⟨rfl, rfl⟩⟩

/-- Field-level description of a successful backward relaxation. -/
theorem relaxedB_fields (st : BDState) (u v : Node) (nd : ℚ) :
    (relaxedB st u v nd).distb = dinsert st.distb u nd ∧
    (relaxedB st u v nd).parentb = dinsert st.parentb u (some v) ∧
    (relaxedB st u v nd).qb = (nd, u) :: st.qb ∧
    (relaxedB st u v nd).distf = st.distf ∧
    (relaxedB st u v nd).parentf = st.parentf ∧
    (relaxedB st u v nd).qf = st.qf ∧
    (relaxedB st u v nd).visitedf = st.visitedf ∧
    (relaxedB st u v nd).visitedb = st.visitedb ∧
    ((relaxedB st u v nd).mu = st.mu ∧
       (relaxedB st u v nd).meeting = st.meeting ∨
     ∃ df, dlookup st.distf u = some df ∧
       (↑(df + nd) : WithTop ℚ) < st.mu ∧
       (relaxedB st u v nd).mu = ↑(df + nd) ∧
       (relaxedB st u v nd).meeting = some u) := by
  unfold relaxedB
  dsimp only
  split
  · exact ⟨rfl, rfl, rfl, rfl, rfl, rfl, rfl, rfl, Or.inl ⟨rfl, rfl⟩⟩
  · rename_i df hdf
    split
    · rename_i hlt
      exact ⟨rfl, rfl, rfl, rfl, rfl, rfl, rfl, rfl,
        Or.inr ⟨df, hdf, hlt, rfl, rfl⟩⟩
    · exact ⟨rfl, rfl, rfl, rfl, rfl, rfl, rfl, rfl, Or.inl ⟨rfl, rfl⟩⟩

/-- Unfolding of the loop on positive fuel with a true guard. -/
theorem bdLoop_guard_true {G : MultiDiGraph} {w : WeightField}
    {avoid : Node → Bool} {st : BDState} (h : loopGuard st = true) (n : ℕ) :
    bdLoop G w avoid (n + 1) st = bdLoop G w avoid n (bdStep G w avoid st) := by
  simp [bdLoop, h]

/-- The loop is the identity on states with a false guard. -/
theorem bdLoop_guard_false {G : MultiDiGraph} {w : WeightField}
    {avoid : Node → Bool} {st : BDState} (h : loopGuard st = false) (n : ℕ) :
    bdLoop G w avoid n st = st := by
  cases n <;> simp [bdLoop, h]

/-- The weightless domain invariants of the search state: heap nodes carry
(forward respectively backward) distances; distance keys are the seed node
or non-excluded; parent values carry distances; the meeting node carries
both distances.  They hold for arbitrary graphs and weights. -/
structure BasicInv (s t : Node) (avoid : Node → Bool) (st : BDState) : Prop where
  qfDom : ∀ p ∈ st.qf, (dlookup st.distf p.2).isSome
  qbDom : ∀ p ∈ st.qb, (dlookup st.distb p.2).isSome
  fAvoid : ∀ v, (dlookup st.distf v).isSome → v = s ∨ avoid v = false
  bAvoid : ∀ v, (dlookup st.distb v).isSome → v = t ∨ avoid v = false
  pfVal : ∀ v u, dlookup st.parentf v = some (some u) →
    (dlookup st.distf u).isSome
  pbVal : ∀ v u, dlookup st.parentb v = some (some u) →
    (dlookup st.distb u).isSome
  meetDom : ∀ m, st.meeting = some m →
    (dlookup st.distf m).isSome ∧ (dlookup st.distb m).isSome

/-- One forward relaxation preserves the domain invariants when the
expanding node carries a forward distance. -/
theorem relaxF_basicInv {G : MultiDiGraph} {w : WeightField}
    {avoid : Node → Bool} {s t : Node} {d_u : ℚ} {u : Node} {st : BDState}
    (inv : BasicInv s t avoid st) (hu : (dlookup st.distf u).isSome)
    (v : Node) : BasicInv s t avoid (relaxF G w avoid d_u u st v) := by
  rw [relaxF_eq]
  by_cases hav : avoid v
  · rwa [if_pos hav]
  rw [if_neg hav]
  rcases hsw : stepWeightO G w u v with _ | val
  · exact inv
  dsimp only
  by_cases himp : (↑(d_u + val) : WithTop ℚ) < toTop (dlookup st.distf v)
  swap
  · rw [if_neg himp]; exact inv
  rw [if_pos himp]
  obtain ⟨hdf, hpf, hqf, hdb, hpb, hqb, hvf, hvb, hmeet⟩ :=
    relaxedF_fields st u v (d_u + val)
  constructor
  · intro p hp
    rw [hqf] at hp
    rw [hdf]
    rcases List.mem_cons.mp hp with rfl | hp
    · simp [dlookup_dinsert]
    · exact isSome_dlookup_dinsert _ _ (inv.qfDom p hp)
  · intro p hp
    rw [hqb] at hp
    rw [hdb]
    exact inv.qbDom p hp
  · intro x hx
    rw [hdf, dlookup_dinsert] at hx
    by_cases hxv : x = v
    · subst hxv
      exact Or.inr (by simpa using hav)
    · rw [if_neg hxv] at hx
      exact inv.fAvoid x hx
  · intro x hx
    rw [hdb] at hx
    exact inv.bAvoid x hx
  · intro x y hxy
    rw [hpf, dlookup_dinsert] at hxy
    rw [hdf]
    by_cases hxv : x = v
    · rw [if_pos hxv] at hxy
      cases hxy
      exact isSome_dlookup_dinsert _ _ hu
    · rw [if_neg hxv] at hxy
      exact isSome_dlookup_dinsert _ _ (inv.pfVal x y hxy)
  · intro x y hxy
    rw [hpb] at hxy
    rw [hdb]
    exact inv.pbVal x y hxy
  · intro m hm
    rcases hmeet with ⟨hmu, hme⟩ | ⟨db, hdbv, hlt, hmu, hme⟩
    · rw [hme] at hm
      obtain ⟨h1, h2⟩ := inv.meetDom m hm
      rw [hdf, hdb]
      exact ⟨isSome_dlookup_dinsert _ _ h1, h2⟩
    · rw [hme] at hm
      cases hm
      rw [hdf, hdb]
      exact ⟨by simp [dlookup_dinsert], by simp [hdbv]⟩

/-- One backward relaxation preserves the domain invariants when the
expanding node carries a backward distance. -/
theorem relaxB_basicInv {G : MultiDiGraph} {w : WeightField}
    {avoid : Node → Bool} {s t : Node} {d_v : ℚ} {v : Node} {st : BDState}
    (inv : BasicInv s t avoid st) (hv : (dlookup st.distb v).isSome)
    (u : Node) : BasicInv s t avoid (relaxB G w avoid d_v v st u) := by
  rw [relaxB_eq]
  by_cases hav : avoid u
  · rwa [if_pos hav]
  rw [if_neg hav]
  rcases hsw : stepWeightO G w u v with _ | val
  · exact inv
  dsimp only
  by_cases himp : (↑(d_v + val) : WithTop ℚ) < toTop (dlookup st.distb u)
  swap
  · rw [if_neg himp]; exact inv
  rw [if_pos himp]
  obtain ⟨hdb, hpb, hqb, hdf, hpf, hqf, hvf, hvb, hmeet⟩ :=
    relaxedB_fields st u v (d_v + val)
  constructor
  · intro p hp
    rw [hqf] at hp
    rw [hdf]
    exact inv.qfDom p hp
  · intro p hp
    rw [hqb] at hp
    rw [hdb]
    rcases List.mem_cons.mp hp with rfl | hp
    · simp [dlookup_dinsert]
    · exact isSome_dlookup_dinsert _ _ (inv.qbDom p hp)
  · intro x hx
    rw [hdf] at hx
    exact inv.fAvoid x hx
  · intro x hx
    rw [hdb, dlookup_dinsert] at hx
    by_cases hxu : x = u
    · subst hxu
      exact Or.inr (by simpa using hav)
    · rw [if_neg hxu] at hx
      exact inv.bAvoid x hx
  · intro x y hxy
    rw [hpf] at hxy
    rw [hdf]
    exact inv.pfVal x y hxy
  · intro x y hxy
    rw [hpb, dlookup_dinsert] at hxy
    rw [hdb]
    by_cases hxu : x = u
    · rw [if_pos hxu] at hxy
      cases hxy
      exact isSome_dlookup_dinsert _ _ hv
    · rw [if_neg hxu] at hxy
      exact isSome_dlookup_dinsert _ _ (inv.pbVal x y hxy)
  · intro m hm
    rcases hmeet with ⟨hmu, hme⟩ | ⟨df, hdfu, hlt, hmu, hme⟩
    · rw [hme] at hm
      obtain ⟨h1, h2⟩ := inv.meetDom m hm
      rw [hdf, hdb]
      exact ⟨h1, isSome_dlookup_dinsert _ _ h2⟩
    · rw [hme] at hm
      cases hm
      rw [hdf, hdb]
      exact ⟨by simp [hdfu], by simp [dlookup_dinsert]⟩

/-- A forward relaxation can only grow the forward distance dict. -/
theorem relaxF_distf_mono {G : MultiDiGraph} {w : WeightField}
    {avoid : Node → Bool} {d_u : ℚ} {u : Node} {st : BDState} {x : Node}
    (h : (dlookup st.distf x).isSome) (v : Node) :
    (dlookup (relaxF G w avoid d_u u st v).distf x).isSome := by
  rw [relaxF_eq]
  split
  · exact h
  split
  · exact h
  split
  · exact (relaxedF_fields st u v _).1 ▸ isSome_dlookup_dinsert _ _ h
  · exact h

/-- A backward relaxation can only grow the backward distance dict. -/
theorem relaxB_distb_mono {G : MultiDiGraph} {w : WeightField}
    {avoid : Node → Bool} {d_v : ℚ} {v : Node} {st : BDState} {x : Node}
    (h : (dlookup st.distb x).isSome) (u : Node) :
    (dlookup (relaxB G w avoid d_v v st u).distb x).isSome := by
  rw [relaxB_eq]
  split
  · exact h
  split
  · exact h
  split
  · exact (relaxedB_fields st u v _).1 ▸ isSome_dlookup_dinsert _ _ h
  · exact h

/-- The forward relaxation fold preserves the domain invariants. -/
theorem relaxF_foldl_basicInv {G : MultiDiGraph} {w : WeightField}
    {avoid : Node → Bool} {s t : Node} {d_u : ℚ} {u : Node}
    (L : List Node) {st : BDState}
    (inv : BasicInv s t avoid st) (hu : (dlookup st.distf u).isSome) :
    BasicInv s t avoid (L.foldl (relaxF G w avoid d_u u) st) := by
  induction L generalizing st with
  | nil => exact inv
  | cons v L ih =>
    exact ih (relaxF_basicInv inv hu v) (relaxF_distf_mono hu v)

/-- The backward relaxation fold preserves the domain invariants. -/
theorem relaxB_foldl_basicInv {G : MultiDiGraph} {w : WeightField}
    {avoid : Node → Bool} {s t : Node} {d_v : ℚ} {v : Node}
    (L : List Node) {st : BDState}
    (inv : BasicInv s t avoid st) (hv : (dlookup st.distb v).isSome) :
    BasicInv s t avoid (L.foldl (relaxB G w avoid d_v v) st) := by
  induction L generalizing st with
  | nil => exact inv
  | cons u L ih =>
    exact ih (relaxB_basicInv inv hv u) (relaxB_distb_mono hv u)

/-- The forward block preserves the domain invariants. -/
theorem forwardStep_basicInv {G : MultiDiGraph} {w : WeightField}
    {avoid : Node → Bool} {s t : Node} {st : BDState}
    (inv : BasicInv s t avoid st) :
    BasicInv s t avoid (forwardStep G w avoid st) := by
  unfold forwardStep
  rcases hq : qMinE st.qf with _ | e
  · exact inv
  have he : e ∈ st.qf := (qMinE_spec hq).1
  have hedom : (dlookup st.distf e.2).isSome := inv.qfDom e he
  have inv1 : BasicInv s t avoid { st with qf := st.qf.erase e } := by
    obtain ⟨h1, h2, h3, h4, h5, h6, h7⟩ := inv
    exact ⟨fun p hp => h1 p (List.mem_of_mem_erase hp), h2, h3, h4, h5, h6, h7⟩
  dsimp only
  split
  · exact inv1
  · obtain ⟨h1, h2, h3, h4, h5, h6, h7⟩ := inv1
    exact relaxF_foldl_basicInv _ ⟨h1, h2, h3, h4, h5, h6, h7⟩ hedom

/-- The backward block preserves the domain invariants. -/
theorem backwardStep_basicInv {G : MultiDiGraph} {w : WeightField}
    {avoid : Node → Bool} {s t : Node} {st : BDState}
    (inv : BasicInv s t avoid st) :
    BasicInv s t avoid (backwardStep G w avoid st) := by
  unfold backwardStep
  rcases hq : qMinE st.qb with _ | e
  · exact inv
  have he : e ∈ st.qb := (qMinE_spec hq).1
  have hedom : (dlookup st.distb e.2).isSome := inv.qbDom e he
  have inv1 : BasicInv s t avoid { st with qb := st.qb.erase e } := by
    obtain ⟨h1, h2, h3, h4, h5, h6, h7⟩ := inv
    exact ⟨h1, fun p hp => h2 p (List.mem_of_mem_erase hp), h3, h4, h5, h6, h7⟩
  dsimp only
  split
  · exact inv1
  · obtain ⟨h1, h2, h3, h4, h5, h6, h7⟩ := inv1
    exact relaxB_foldl_basicInv _ ⟨h1, h2, h3, h4, h5, h6, h7⟩ hedom

/-- The whole loop preserves the domain invariants. -/
theorem bdLoop_basicInv {G : MultiDiGraph} {w : WeightField}
    {avoid : Node → Bool} {s t : Node} (n : ℕ) {st : BDState}
    (inv : BasicInv s t avoid st) :
    BasicInv s t avoid (bdLoop G w avoid n st) := by
  induction n generalizing st with
  | zero => exact inv
  | succ n ih =>
    unfold bdLoop
    split
    · exact ih (backwardStep_basicInv (forwardStep_basicInv inv))
    · exact inv

/-- Lookup in a singleton dict. -/
theorem dlookup_single {α : Type} (k : Node) (v : α) (x : Node) :
    dlookup [(k, v)] x = if x = k then some v else none := by
  by_cases h : x = k
  · subst h
    rw [dlookup, List.find?_cons_of_pos _ (by simp)]
    simp
  · rw [dlookup, List.find?_cons_of_neg _ (by simp [Ne.symm h])]
    simp [h]

/-- The initial state satisfies the domain invariants. -/
theorem initState_basicInv (s t : Node) (avoid : Node → Bool) :
    BasicInv s t avoid (initState s t) := by
  constructor
  · intro p hp
    simp only [initState, List.mem_singleton] at hp
    subst hp
    show (dlookup [(s, (0 : ℚ))] s).isSome = true
    rw [dlookup_single]
    simp
  · intro p hp
    simp only [initState, List.mem_singleton] at hp
    subst hp
    show (dlookup [(t, (0 : ℚ))] t).isSome = true
    rw [dlookup_single]
    simp
  · intro v hv
    by_cases hvs : v = s
    · exact Or.inl hvs
    · dsimp only [initState] at hv
      rw [dlookup_single, if_neg hvs] at hv
      simp at hv
  · intro v hv
    by_cases hvt : v = t
    · exact Or.inl hvt
    · dsimp only [initState] at hv
      rw [dlookup_single, if_neg hvt] at hv
      simp at hv
  · intro v y hv
    dsimp only [initState] at hv
    rw [dlookup_single] at hv
    by_cases hvs : v = s
    · rw [if_pos hvs] at hv
      cases hv
    · rw [if_neg hvs] at hv
      cases hv
  · intro v y hv
    dsimp only [initState] at hv
    rw [dlookup_single] at hv
    by_cases hvt : v = t
    · rw [if_pos hvt] at hv
      cases hv
    · rw [if_neg hvt] at hv
      cases hv
  · intro m hm
    cases hm

/-- Every node of a parent chain walk carries a distance, provided the
start does and parent values do. -/
theorem chainWalk_dom {dist : List (Node × ℚ)}
    {parent : List (Node × Option Node)}
    (hp : ∀ v u, dlookup parent v = some (some u) → (dlookup dist u).isSome) :
    ∀ (fuel : ℕ) (m : Node), (dlookup dist m).isSome →
      ∀ x ∈ chainWalk parent fuel m, (dlookup dist x).isSome := by
  intro fuel
  induction fuel with
  | zero => intro m hm x hx; cases hx
  | succ n ih =>
    intro m hm x hx
    unfold chainWalk at hx
    rcases List.mem_cons.mp hx with rfl | hx
    · exact hm
    · rcases hpar : dlookup parent m with _ | r
      · rw [hpar] at hx; cases hx
      · rcases r with _ | p
        · rw [hpar] at hx; cases hx
        · rw [hpar] at hx
          exact ih p (hp m p hpar) x hx

/-- Claim C4: every node of a path returned by `bidirectional_dijkstra`,
except possibly the start and end nodes themselves, is not a member of the
exclusion set — for every graph, start, end, weight field and exclusion
set. -/
theorem C4_exclusion_correct (G : MultiDiGraph) (s t : Node)
    (w : WeightField) (avoid : Node → Bool) (p : List Node) (c : WithTop ℚ)
    (hrun : bidirectional_dijkstra G s t w avoid = (some p, c)) :
    ∀ x ∈ p, x ≠ s → x ≠ t → avoid x = false := by
  intro x hx hxs hxt
  unfold bidirectional_dijkstra at hrun
  split at hrun
  · cases hrun
  dsimp only at hrun
  generalize hfs : bdLoop G w avoid (bdFuel G) (initState s t) = final at hrun
  have inv : BasicInv s t avoid final :=
    hfs ▸ bdLoop_basicInv _ (initState_basicInv s t avoid)
  unfold reconstruct_path at hrun
  rcases hm : final.meeting with _ | m
  · rw [hm] at hrun
    cases hrun
  rw [hm] at hrun
  dsimp only at hrun
  rw [Prod.mk.injEq] at hrun
  obtain ⟨hp', hc'⟩ := hrun
  injection hp' with hp'
  subst hp'
  obtain ⟨hmf, hmb⟩ := inv.meetDom m hm
  rcases List.mem_append.mp hx with hxf | hxb
  · rw [List.mem_reverse] at hxf
    have : (dlookup final.distf x).isSome :=
      chainWalk_dom inv.pfVal _ m hmf x hxf
    rcases inv.fAvoid x this with h | h
    · exact absurd h hxs
    · exact h
  · rcases hpb : dlookup final.parentb m with _ | r
    · rw [hpb] at hxb
      cases hxb
    rcases r with _ | c0
    · rw [hpb] at hxb
      cases hxb
    rw [hpb] at hxb
    have hc0 : (dlookup final.distb c0).isSome := inv.pbVal m c0 hpb
    have : (dlookup final.distb x).isSome :=
      chainWalk_dom inv.pbVal _ c0 hc0 x hxb
    rcases inv.bAvoid x this with h | h
    · exact absurd h hxt
    · exact h

/-- The concrete run of the search on the line graph: one loop iteration,
then the guard `q_f[0][0] + q_b[0][0] >= mu` stops the loop, and the path
0-1-2 of cost 2 is reconstructed. -/
theorem lineGraph_run :
    bidirectional_dijkstra lineGraph 0 2 .travel_time (fun _ => false) =
      (some [0, 1, 2], ((2 : ℚ) : WithTop ℚ)) := by
  have hg0 : loopGuard (initState 0 2) = true := by
    norm_num [loopGuard, qMinE, initState]
  have hstep : bdStep lineGraph .travel_time (fun _ => false) (initState 0 2) =
      lineGraphMid := by
    norm_num [bdStep, forwardStep, backwardStep, relaxF, relaxB,
      qMinE, initState, lineGraphMid, MultiDiGraph.successors,
      MultiDiGraph.predecessors, MultiDiGraph.edgeDataList, dedupFirst,
      stepWeightO, toTop, dlookup, dinsert, lineGraph, WeightField.get,
      List.filterMap_cons, List.foldl_cons, List.find?, List.erase, List.min?]
  have hg1 : loopGuard lineGraphMid = false := by
    norm_num [loopGuard, qMinE, lineGraphMid]
  unfold bidirectional_dijkstra
  rw [if_neg (by decide)]
  dsimp only
  rw [show bdFuel lineGraph = 5 + 1 from rfl]
  rw [bdLoop_guard_true hg0, hstep, bdLoop_guard_false hg1]
  rfl

/-- Witness for C4 on the line-graph run: the interior node 1 of the
returned path 0-1-2 is not excluded. -/
theorem C4_exclusion_correct_witness :
    (fun _ : Node => false) 1 = false :=
  C4_exclusion_correct lineGraph 0 2 .travel_time (fun _ => false)
    [0, 1, 2] ((2 : ℚ) : WithTop ℚ) lineGraph_run 1 (by decide) (by decide)
    (by decide)

/-! Termination of the while loop: each iteration strictly decreases the
potential `phi`, which `bdFuel` bounds at the initial state. -/

/-- Membership in `dedupFirst` is membership in the original list. -/
theorem mem_dedupFirst {x : Node} {l : List Node} :
    x ∈ dedupFirst l ↔ x ∈ l := by
  have key : ∀ (l acc : List Node),
      (x ∈ l.foldl (fun acc x => if x ∈ acc then acc else acc ++ [x]) acc ↔
        x ∈ acc ∨ x ∈ l) := by
    intro l
    induction l with
    | nil => intro acc; simp
    | cons y l ih =>
      intro acc
      rw [List.foldl_cons, ih]
      by_cases hy : y ∈ acc
      · rw [if_pos hy]
        constructor
        · rintro (h | h)
          · exact Or.inl h
          · exact Or.inr (List.mem_cons_of_mem _ h)
        · rintro (h | h)
          · exact Or.inl h
          · rcases List.mem_cons.mp h with rfl | h
            · exact Or.inl hy
            · exact Or.inr h
      · rw [if_neg hy]
        simp only [List.mem_append, List.mem_singleton, List.mem_cons]
        tauto
  rw [dedupFirst, key]
  simp

/-- `dedupFirst` has no duplicates. -/
theorem nodup_dedupFirst (l : List Node) : (dedupFirst l).Nodup := by
  have key : ∀ (l acc : List Node), acc.Nodup →
      (l.foldl (fun acc x => if x ∈ acc then acc else acc ++ [x]) acc).Nodup := by
    intro l
    induction l with
    | nil => intro acc h; exact h
    | cons y l ih =>
      intro acc h
      rw [List.foldl_cons]
      by_cases hy : y ∈ acc
      · rw [if_pos hy]
        exact ih acc h
      · rw [if_neg hy]
        refine ih _ ?_
        simpa [List.nodup_append] using ⟨h, hy⟩
  exact key l [] List.nodup_nil

/-- On a well-formed graph, an id that is not a node has no successors. -/
theorem successors_eq_nil {G : MultiDiGraph} (hWf : Wf G) {u : Node}
    (hu : u ∉ G.nodeIds) : G.successors u = [] := by
  unfold MultiDiGraph.successors
  have : G.edges.filterMap
      (fun e => if e.1 = u then some e.2.1 else none) = [] := by
    rw [List.filterMap_eq_nil_iff]
    intro e he
    rcases hWf e he with ⟨h1, _⟩
    rw [if_neg]
    intro h
    exact hu (h ▸ h1)
  rw [this]
  rfl

/-- On a well-formed graph, an id that is not a node has no predecessors. -/
theorem predecessors_eq_nil {G : MultiDiGraph} (hWf : Wf G) {v : Node}
    (hv : v ∉ G.nodeIds) : G.predecessors v = [] := by
  unfold MultiDiGraph.predecessors
  have : G.edges.filterMap
      (fun e => if e.2.1 = v then some e.1 else none) = [] := by
    rw [List.filterMap_eq_nil_iff]
    intro e he
    rcases hWf e he with ⟨_, h2⟩
    rw [if_neg]
    intro h
    exact hv (h ▸ h2)
  rw [this]
  rfl

/-- Visiting a fresh list member removes exactly its contribution from the
unvisited sum. -/
theorem sum_filter_visit (f : Node → ℕ) :
    ∀ (l vis : List Node) (x : Node), l.Nodup → x ∈ l → x ∉ vis →
    ((l.filter (fun u => decide (u ∉ x :: vis))).map f).sum + f x =
    ((l.filter (fun u => decide (u ∉ vis))).map f).sum := by
  intro l
  induction l with
  | nil => intro vis x _ hx; cases hx
  | cons y l ih =>
    intro vis x hnd hx hxv
    obtain ⟨hyl, hndl⟩ := List.nodup_cons.mp hnd
    rcases List.mem_cons.mp hx with rfl | hx
    · have hcong : List.filter (fun u => decide (u ∉ x :: vis)) l
          = List.filter (fun u => decide (u ∉ vis)) l :=
        List.filter_congr (by
          intro u hu
          have hux : u ≠ x := fun h => hyl (h ▸ hu)
          simp [hux])
      rw [List.filter_cons, List.filter_cons, hcong]
      simp [hxv, Nat.add_comm]
    · have hyx : y ≠ x := fun h => hyl (h ▸ hx)
      by_cases hyv : y ∈ vis
      · have e1 : List.filter (fun u => decide (u ∉ x :: vis)) (y :: l)
            = List.filter (fun u => decide (u ∉ x :: vis)) l := by
          rw [List.filter_cons]
          simp [hyv]
        have e2 : List.filter (fun u => decide (u ∉ vis)) (y :: l)
            = List.filter (fun u => decide (u ∉ vis)) l := by
          rw [List.filter_cons]
          simp [hyv]
        rw [e1, e2]
        exact ih vis x hndl hx hxv
      · have e1 : List.filter (fun u => decide (u ∉ x :: vis)) (y :: l)
            = y :: List.filter (fun u => decide (u ∉ x :: vis)) l := by
          rw [List.filter_cons]
          simp [hyv, hyx]
        have e2 : List.filter (fun u => decide (u ∉ vis)) (y :: l)
            = y :: List.filter (fun u => decide (u ∉ vis)) l := by
          rw [List.filter_cons]
          simp [hyv]
        rw [e1, e2]
        simp only [List.map_cons, List.sum_cons]
        rw [Nat.add_assoc, ih vis x hndl hx hxv]

/-- Growing the visited set can only shrink the unvisited sum. -/
theorem sum_filter_visit_le (f : Node → ℕ) :
    ∀ (l vis : List Node) (x : Node),
    ((l.filter (fun u => decide (u ∉ x :: vis))).map f).sum ≤
    ((l.filter (fun u => decide (u ∉ vis))).map f).sum := by
  intro l
  induction l with
  | nil => intro vis x; simp
  | cons y l ih =>
    intro vis x
    by_cases hyv : y ∈ vis
    · have e1 : List.filter (fun u => decide (u ∉ x :: vis)) (y :: l)
          = List.filter (fun u => decide (u ∉ x :: vis)) l := by
        rw [List.filter_cons]
        simp [hyv]
      have e2 : List.filter (fun u => decide (u ∉ vis)) (y :: l)
          = List.filter (fun u => decide (u ∉ vis)) l := by
        rw [List.filter_cons]
        simp [hyv]
      rw [e1, e2]
      exact ih vis x
    · have e2 : List.filter (fun u => decide (u ∉ vis)) (y :: l)
          = y :: List.filter (fun u => decide (u ∉ vis)) l := by
        rw [List.filter_cons]
        simp [hyv]
      rw [e2]
      by_cases hyx : y = x
      · have e1 : List.filter (fun u => decide (u ∉ x :: vis)) (y :: l)
            = List.filter (fun u => decide (u ∉ x :: vis)) l := by
          rw [List.filter_cons]
          simp [hyx]
        rw [e1]
        simp only [List.map_cons, List.sum_cons]
        exact le_trans (ih vis x) (Nat.le_add_left _ _)
      · have e1 : List.filter (fun u => decide (u ∉ x :: vis)) (y :: l)
            = y :: List.filter (fun u => decide (u ∉ x :: vis)) l := by
          rw [List.filter_cons]
          simp [hyv, hyx]
        rw [e1]
        simp only [List.map_cons, List.sum_cons]
        exact Nat.add_le_add_left (ih vis x) _

/-- A single relaxation pushes at most one heap entry and leaves the other
frontier and both visited sets unchanged. -/
theorem relaxF_shape (G : MultiDiGraph) (w : WeightField) (avoid : Node → Bool)
    (d_u : ℚ) (u : Node) (st : BDState) (v : Node) :
    (relaxF G w avoid d_u u st v).qf.length ≤ st.qf.length + 1 ∧
    (relaxF G w avoid d_u u st v).visitedf = st.visitedf ∧
    (relaxF G w avoid d_u u st v).qb = st.qb ∧
    (relaxF G w avoid d_u u st v).visitedb = st.visitedb := by
  rw [relaxF_eq]
  split
  · exact ⟨Nat.le_succ _, rfl, rfl, rfl⟩
  split
  · exact ⟨Nat.le_succ _, rfl, rfl, rfl⟩
  split
  · rename_i val _ _
    obtain ⟨_, _, hqf, _, _, hqb, hvf, hvb, _⟩ :=
      relaxedF_fields st u v (d_u + val)
    rw [hqf, hqb, hvf, hvb]
    exact ⟨by simp, rfl, rfl, rfl⟩
  · exact ⟨Nat.le_succ _, rfl, rfl, rfl⟩

/-- Mirror of `relaxF_shape`. -/
theorem relaxB_shape (G : MultiDiGraph) (w : WeightField) (avoid : Node → Bool)
    (d_v : ℚ) (v : Node) (st : BDState) (u : Node) :
    (relaxB G w avoid d_v v st u).qb.length ≤ st.qb.length + 1 ∧
    (relaxB G w avoid d_v v st u).visitedb = st.visitedb ∧
    (relaxB G w avoid d_v v st u).qf = st.qf ∧
    (relaxB G w avoid d_v v st u).visitedf = st.visitedf := by
  rw [relaxB_eq]
  split
  · exact ⟨Nat.le_succ _, rfl, rfl, rfl⟩
  split
  · exact ⟨Nat.le_succ _, rfl, rfl, rfl⟩
  split
  · rename_i val _ _
    obtain ⟨_, _, hqb, _, _, hqf, hvf, hvb, _⟩ :=
      relaxedB_fields st u v (d_v + val)
    rw [hqf, hqb, hvf, hvb]
    exact ⟨by simp, rfl, rfl, rfl⟩
  · exact ⟨Nat.le_succ _, rfl, rfl, rfl⟩

/-- The relaxation fold pushes at most one heap entry per neighbour. -/
theorem relaxF_foldl_shape (G : MultiDiGraph) (w : WeightField)
    (avoid : Node → Bool) (d_u : ℚ) (u : Node) (L : List Node) :
    ∀ st : BDState,
    (L.foldl (relaxF G w avoid d_u u) st).qf.length ≤ st.qf.length + L.length ∧
    (L.foldl (relaxF G w avoid d_u u) st).visitedf = st.visitedf ∧
    (L.foldl (relaxF G w avoid d_u u) st).qb = st.qb ∧
    (L.foldl (relaxF G w avoid d_u u) st).visitedb = st.visitedb := by
  induction L with
  | nil => intro st; exact ⟨by simp, rfl, rfl, rfl⟩
  | cons v L ih =>
    intro st
    rw [List.foldl_cons]
    obtain ⟨ih1, ih2, ih3, ih4⟩ := ih (relaxF G w avoid d_u u st v)
    obtain ⟨s1, s2, s3, s4⟩ := relaxF_shape G w avoid d_u u st v
    refine ⟨?_, ih2.trans s2, ih3.trans s3, ih4.trans s4⟩
    calc (L.foldl (relaxF G w avoid d_u u)
        (relaxF G w avoid d_u u st v)).qf.length
        ≤ (relaxF G w avoid d_u u st v).qf.length + L.length := ih1
      _ ≤ st.qf.length + 1 + L.length := Nat.add_le_add_right s1 _
      _ = st.qf.length + (v :: L).length := by
          simp only [List.length_cons]
          omega

/-- Mirror of `relaxF_foldl_shape`. -/
theorem relaxB_foldl_shape (G : MultiDiGraph) (w : WeightField)
    (avoid : Node → Bool) (d_v : ℚ) (v : Node) (L : List Node) :
    ∀ st : BDState,
    (L.foldl (relaxB G w avoid d_v v) st).qb.length ≤ st.qb.length + L.length ∧
    (L.foldl (relaxB G w avoid d_v v) st).visitedb = st.visitedb ∧
    (L.foldl (relaxB G w avoid d_v v) st).qf = st.qf ∧
    (L.foldl (relaxB G w avoid d_v v) st).visitedf = st.visitedf := by
  induction L with
  | nil => intro st; exact ⟨by simp, rfl, rfl, rfl⟩
  | cons u L ih =>
    intro st
    rw [List.foldl_cons]
    obtain ⟨ih1, ih2, ih3, ih4⟩ := ih (relaxB G w avoid d_v v st u)
    obtain ⟨s1, s2, s3, s4⟩ := relaxB_shape G w avoid d_v v st u
    refine ⟨?_, ih2.trans s2, ih3.trans s3, ih4.trans s4⟩
    calc (L.foldl (relaxB G w avoid d_v v)
        (relaxB G w avoid d_v v st u)).qb.length
        ≤ (relaxB G w avoid d_v v st u).qb.length + L.length := ih1
      _ ≤ st.qb.length + 1 + L.length := Nat.add_le_add_right s1 _
      _ = st.qb.length + (u :: L).length := by
          simp only [List.length_cons]
          omega

/-- The forward block strictly decreases the forward potential on a
nonempty forward heap, leaving the backward heap and visited set alone. -/
theorem forwardStep_phi {G : MultiDiGraph} {w : WeightField}
    {avoid : Node → Bool} {st : BDState} (hWf : Wf G) (hne : st.qf ≠ []) :
    phiF G (forwardStep G w avoid st) < phiF G st ∧
    (forwardStep G w avoid st).qb = st.qb ∧
    (forwardStep G w avoid st).visitedb = st.visitedb := by
  rcases hq : qMinE st.qf with _ | e
  · exact absurd (qMinE_eq_none.mp hq) hne
  have he : e ∈ st.qf := (qMinE_spec hq).1
  have hlen : st.qf.length ≠ 0 := by
    intro h
    exact hne (List.length_eq_zero.mp h)
  have herase : (st.qf.erase e).length = st.qf.length - 1 :=
    List.length_erase_of_mem he
  unfold forwardStep
  rw [hq]
  dsimp only
  split
  · constructor
    · unfold phiF
      dsimp only
      rw [herase]
      omega
    · exact ⟨rfl, rfl⟩
  · rename_i hskip
    have hx_unvis : e.2 ∉ st.visitedf := fun h => hskip (Or.inl h)
    obtain ⟨f1, f2, f3, f4⟩ := relaxF_foldl_shape G w avoid e.1 e.2
      (G.successors e.2)
      { st with qf := st.qf.erase e, visitedf := e.2 :: st.visitedf }
    refine ⟨?_, f3, f4⟩
    unfold phiF
    rw [f2]
    dsimp only at f1 ⊢
    rw [herase] at f1
    by_cases hmem : e.2 ∈ G.nodeIds
    · have hsum := sum_filter_visit (fun u => (G.successors u).length)
        (dedupFirst G.nodeIds) st.visitedf e.2 (nodup_dedupFirst _)
        (mem_dedupFirst.mpr hmem) hx_unvis
      dsimp only at hsum
      omega
    · have hnil : G.successors e.2 = [] := successors_eq_nil hWf hmem
      have hle := sum_filter_visit_le (fun u => (G.successors u).length)
        (dedupFirst G.nodeIds) st.visitedf e.2
      rw [hnil] at f1 ⊢
      simp only [List.length_nil, Nat.add_zero, List.foldl_nil] at f1 ⊢
      omega

/-- Mirror of `forwardStep_phi`. -/
theorem backwardStep_phi {G : MultiDiGraph} {w : WeightField}
    {avoid : Node → Bool} {st : BDState} (hWf : Wf G) (hne : st.qb ≠ []) :
    phiB G (backwardStep G w avoid st) < phiB G st ∧
    (backwardStep G w avoid st).qf = st.qf ∧
    (backwardStep G w avoid st).visitedf = st.visitedf := by
  rcases hq : qMinE st.qb with _ | e
  · exact absurd (qMinE_eq_none.mp hq) hne
  have he : e ∈ st.qb := (qMinE_spec hq).1
  have hlen : st.qb.length ≠ 0 := by
    intro h
    exact hne (List.length_eq_zero.mp h)
  have herase : (st.qb.erase e).length = st.qb.length - 1 :=
    List.length_erase_of_mem he
  unfold backwardStep
  rw [hq]
  dsimp only
  split
  · constructor
    · unfold phiB
      dsimp only
      rw [herase]
      omega
    · exact ⟨rfl, rfl⟩
  · rename_i hskip
    have hx_unvis : e.2 ∉ st.visitedb := fun h => hskip (Or.inl h)
    obtain ⟨f1, f2, f3, f4⟩ := relaxB_foldl_shape G w avoid e.1 e.2
      (G.predecessors e.2)
      { st with qb := st.qb.erase e, visitedb := e.2 :: st.visitedb }
    refine ⟨?_, f3, f4⟩
    unfold phiB
    rw [f2]
    dsimp only at f1 ⊢
    rw [herase] at f1
    by_cases hmem : e.2 ∈ G.nodeIds
    · have hsum := sum_filter_visit (fun v => (G.predecessors v).length)
        (dedupFirst G.nodeIds) st.visitedb e.2 (nodup_dedupFirst _)
        (mem_dedupFirst.mpr hmem) hx_unvis
      dsimp only at hsum
      omega
    · have hnil : G.predecessors e.2 = [] := predecessors_eq_nil hWf hmem
      have hle := sum_filter_visit_le (fun v => (G.predecessors v).length)
        (dedupFirst G.nodeIds) st.visitedb e.2
      rw [hnil] at f1 ⊢
      simp only [List.length_nil, Nat.add_zero, List.foldl_nil] at f1 ⊢
      omega

/-- A true loop guard requires both heaps nonempty. -/
theorem loopGuard_nonempty {st : BDState} (h : loopGuard st = true) :
    st.qf ≠ [] ∧ st.qb ≠ [] := by
  unfold loopGuard at h
  rcases hf : qMinE st.qf with _ | a
  · rw [hf] at h
    cases h
  rcases hb : qMinE st.qb with _ | b
  · rw [hf, hb] at h
    cases h
  constructor
  · intro hx
    rw [qMinE_eq_none.mpr hx] at hf
    cases hf
  · intro hx
    rw [qMinE_eq_none.mpr hx] at hb
    cases hb

/-- One loop iteration strictly decreases the potential. -/
theorem bdStep_phi_lt {G : MultiDiGraph} {w : WeightField}
    {avoid : Node → Bool} {st : BDState} (hWf : Wf G)
    (hg : loopGuard st = true) :
    phi G (bdStep G w avoid st) < phi G st := by
  obtain ⟨hqf, hqb⟩ := loopGuard_nonempty hg
  obtain ⟨hf1, hf2, hf3⟩ := @forwardStep_phi G w avoid st hWf hqf
  have hqb2 : (forwardStep G w avoid st).qb ≠ [] := hf2 ▸ hqb
  obtain ⟨hb1, hb2, hb3⟩ := @backwardStep_phi G w avoid (forwardStep G w avoid st) hWf hqb2
  unfold bdStep phi
  have hBf : phiB G (forwardStep G w avoid st) = phiB G st := by
    unfold phiB
    rw [hf2, hf3]
  have hFb : phiF G (backwardStep G w avoid (forwardStep G w avoid st)) =
      phiF G (forwardStep G w avoid st) := by
    unfold phiF
    rw [hb2, hb3]
  rw [hFb]
  rw [hBf] at hb1
  omega

/-- With fuel at least the potential, the loop reaches a state whose guard
is false: the while loop exits by its own condition. -/
theorem bdLoop_terminal {G : MultiDiGraph} {w : WeightField}
    {avoid : Node → Bool} (hWf : Wf G) :
    ∀ (n : ℕ) (st : BDState), phi G st ≤ n →
      loopGuard (bdLoop G w avoid n st) = false := by
  intro n
  induction n with
  | zero =>
    intro st hst
    by_contra hg
    rw [Bool.not_eq_false] at hg
    obtain ⟨hqf, _⟩ := loopGuard_nonempty (by simpa [bdLoop] using hg)
    have h1 : 0 < st.qf.length := List.length_pos.mpr hqf
    have h2 : st.qf.length ≤ phi G st := by
      unfold phi phiF
      omega
    omega
  | succ n ih =>
    intro st hst
    by_cases hg : loopGuard st = true
    · rw [bdLoop_guard_true hg]
      exact ih _ (by have := @bdStep_phi_lt G w avoid st hWf hg; omega)
    · rw [Bool.not_eq_true] at hg
      rw [bdLoop_guard_false hg]
      exact hg

/-- Loop fuel composes additively. -/
theorem bdLoop_add (G : MultiDiGraph) (w : WeightField) (avoid : Node → Bool) :
    ∀ (m n : ℕ) (st : BDState),
      bdLoop G w avoid (m + n) st = bdLoop G w avoid n (bdLoop G w avoid m st) := by
  intro m
  induction m with
  | zero =>
    intro n st
    rw [Nat.zero_add]
    rfl
  | succ m ih =>
    intro n st
    by_cases hg : loopGuard st = true
    · rw [bdLoop_guard_true hg, show m + 1 + n = (m + n) + 1 by omega,
        bdLoop_guard_true hg, ih]
    · rw [Bool.not_eq_true] at hg
      rw [bdLoop_guard_false hg, bdLoop_guard_false hg, bdLoop_guard_false hg]

/-- The initial potential is exactly the fuel `bidirectional_dijkstra`
passes to the loop. -/
theorem phi_initState (G : MultiDiGraph) (s t : Node) :
    phi G (initState s t) = bdFuel G := by
  unfold phi phiF phiB initState bdFuel
  dsimp only
  have hfil : ∀ (l : List Node),
      l.filter (fun u => decide (u ∉ ([] : List Node))) = l := by
    intro l
    rw [List.filter_eq_self]
    intro a _
    simp
  simp only [hfil, List.length_singleton]
  omega

/-- Claim C6: on every well-formed finite graph, any start and end node
and any exclusion set, the while loop of `bidirectional_dijkstra`
terminates: with the fuel the function passes, the loop reaches a state
whose guard is false, and any additional fuel leaves the result
unchanged. -/
theorem C6_loop_terminates (G : MultiDiGraph) (w : WeightField)
    (avoid : Node → Bool) (s t : Node) (hWf : Wf G) :
    loopGuard (bdLoop G w avoid (bdFuel G) (initState s t)) = false ∧
    ∀ m, bdFuel G ≤ m →
      bdLoop G w avoid m (initState s t) =
        bdLoop G w avoid (bdFuel G) (initState s t) := by
  have hterm : loopGuard (bdLoop G w avoid (bdFuel G) (initState s t)) = false :=
    bdLoop_terminal hWf _ _ (le_of_eq (phi_initState G s t))
  refine ⟨hterm, ?_⟩
  intro m hm
  obtain ⟨k, rfl⟩ := Nat.exists_eq_add_of_le hm
  rw [bdLoop_add, bdLoop_guard_false hterm]

/-- Witness for C6 on the line-graph fixture. -/
theorem C6_loop_terminates_witness :
    loopGuard (bdLoop lineGraph .length (fun _ => false) (bdFuel lineGraph)
        (initState 0 2)) = false ∧
    ∀ m, bdFuel lineGraph ≤ m →
      bdLoop lineGraph .length (fun _ => false) m (initState 0 2) =
        bdLoop lineGraph .length (fun _ => false) (bdFuel lineGraph)
          (initState 0 2) :=
  C6_loop_terminates lineGraph .length (fun _ => false) 0 2 (by decide)

/-- The tail of `calculate_route` after the search never yields the
same-place error: it is the no-path error or a success value. -/
theorem isSamePlaceError_search_tail (o : Option (List Node))
    (f : List Node → RouteOutput) :
    isSamePlaceError (match o with
      | none => .error ⟨.aucun_chemin, none⟩
      | some path =>
        if path = [] then .error ⟨.aucun_chemin, none⟩
        else .ok (f path)) = false := by
  rcases o with _ | p
  · rfl
  · dsimp only
    split <;> rfl

/-- Claim C10: `calculate_route` raises the same-place error exactly on
lowercase-equal raw input strings: equal lowercased inputs short-circuit
to that error before anything else; distinct lowercased inputs can never
produce it; and two distinct place names that geocode inside Benin to the
same nearest graph node proceed into the search, where no start-equals-end
short-circuit exists — when that search finds no path, the outcome is the
no-path error, not a same-place rejection. -/
theorem C10_same_place_lexical (C : Collaborators)
    (start_input end_input : String) (avoid_input : Option String)
    (season_raining : Bool) :
    (pyLower start_input = pyLower end_input →
      calculate_route C start_input end_input avoid_input season_raining =
        .error ⟨.same_place start_input, none⟩) ∧
    (pyLower start_input ≠ pyLower end_input →
      isSamePlaceError
        (calculate_route C start_input end_input avoid_input season_raining) =
        false) ∧
    (∀ (G : MultiDiGraph) (p1 p2 : ℚ × ℚ) (i1 i2 : RGInfo) (n : Node),
      pyLower start_input ≠ pyLower end_input →
      avoid_input = none →
      C.load_graph = some G →
      smart_geocode C.geocode start_input = some p1 →
      smart_geocode C.geocode end_input = some p2 →
      C.rg_search1 p1 = some i1 → i1.cc = "BJ" →
      C.rg_search1 p2 = some i2 → i2.cc = "BJ" →
      C.nearest_nodes (p1.2, p1.1) = n →
      C.nearest_nodes (p2.2, p2.1) = n →
      (bidirectional_dijkstra G n n .travel_time
        (fun x => decide (x ∈ ([] : List Node)))).1 = none →
      calculate_route C start_input end_input avoid_input season_raining =
        .error ⟨.aucun_chemin, none⟩) := by
  refine ⟨?_, ?_, ?_⟩
  · intro h
    unfold calculate_route
    rw [if_pos h]
  · intro hne
    unfold calculate_route
    rw [if_neg hne]
    repeat'
      first
      | rfl
      | (dsimp only; exact isSamePlaceError_search_tail _ _)
      | split
  · intro G p1 p2 i1 i2 n hne hav hload hg1 hg2 hr1 hc1 hr2 hc2 hn1 hn2 hsearch
    subst hav
    unfold calculate_route
    rw [if_neg hne, hload, hg1, hg2]
    try dsimp only
    rw [hr1, hr2]
    try dsimp only
    rw [if_neg (by simp [hc1]), if_neg (by simp [hc2])]
    rw [hn1, hn2]
    try dsimp only
    rcases hres : bidirectional_dijkstra G n n .travel_time
        (fun x => decide (x ∈ ([] : List Node))) with ⟨p?, c?⟩
    rw [hres] at hsearch
    dsimp only at hsearch
    subst hsearch
    rfl

/-- Witness for C10 with the stub collaborators: same lowercased inputs
are rejected as same-place; distinct inputs are never rejected as
same-place, and two distinct names snapping to the same node run the
search and report no path. -/
theorem C10_same_place_lexical_witness :
    calculate_route stubCollaborators "Cotonou" "COTONOU" none false =
      .error ⟨.same_place "Cotonou", none⟩ ∧
    isSamePlaceError
      (calculate_route stubCollaborators "Cotonou" "Ganhi" none false) =
      false ∧
    calculate_route stubCollaborators "Cotonou" "Ganhi" none false =
      .error ⟨.aucun_chemin, none⟩ :=
  ⟨(C10_same_place_lexical stubCollaborators "Cotonou" "COTONOU" none
      false).1 (by decide),
   (C10_same_place_lexical stubCollaborators "Cotonou" "Ganhi" none
      false).2.1 (by decide),
   (C10_same_place_lexical stubCollaborators "Cotonou" "Ganhi" none
      false).2.2 oneNodeGraph (0, 0) (0, 0) ⟨"Cotonou", "BJ"⟩
      ⟨"Cotonou", "BJ"⟩ 0 (by decide) rfl rfl rfl rfl rfl rfl rfl rfl rfl
      rfl rfl⟩

/-! Development for claim C1: optimality of the returned cost against the
restricted walks of the graph.  `WNonneg` is the non-negativity hypothesis
of the claim; the lemmas below are the walk algebra, and the search-loop
invariant follows them. -/

/-- Non-negativity of the selected weight field over every edge variant:
the hypothesis of the optimality claim (road lengths and travel times
satisfy it). -/
def WNonneg (G : MultiDiGraph) (w : WeightField) : Prop :=
  ∀ e ∈ G.edges, 0 ≤ ((w.get e.2.2).getD 0 : ℚ)

instance (G : MultiDiGraph) (w : WeightField) : Decidable (WNonneg G w) := by
  unfold WNonneg
  infer_instance

/-- A present step weight is the selected field of some parallel variant
of an actual edge. -/
theorem stepWeightO_exists_edge {G : MultiDiGraph} {w : WeightField}
    {u v : Node} {q : ℚ} (h : stepWeightO G w u v = some q) :
    ∃ e ∈ G.edges, e.1 = u ∧ e.2.1 = v ∧ w.get e.2.2 = some q := by
  unfold stepWeightO at h
  have hq : q ∈ (G.edgeDataList u v).filterMap w.get :=
    List.min?_mem (fun a b => min_choice a b) h
  obtain ⟨d, hd, hwd⟩ := List.mem_filterMap.mp hq
  unfold MultiDiGraph.edgeDataList at hd
  obtain ⟨e, he, hde⟩ := List.mem_filterMap.mp hd
  by_cases hc : e.1 = u ∧ e.2.1 = v
  · rw [if_pos hc] at hde
    cases hde
    exact ⟨e, he, hc.1, hc.2, hwd⟩
  · rw [if_neg hc] at hde
    cases hde

/-- Step weights of a non-negative field are non-negative. -/
theorem stepWeightO_nonneg {G : MultiDiGraph} {w : WeightField}
    (hnn : WNonneg G w) {u v : Node} {q : ℚ}
    (h : stepWeightO G w u v = some q) : 0 ≤ q := by
  obtain ⟨e, he, _, _, hwd⟩ := stepWeightO_exists_edge h
  have h0 := hnn e he
  rw [hwd] at h0
  exact h0

/-- A finite step weight implies graph successorship. -/
theorem stepWeightO_mem_successors {G : MultiDiGraph} {w : WeightField}
    {u v : Node} {q : ℚ} (h : stepWeightO G w u v = some q) :
    v ∈ G.successors u := by
  obtain ⟨e, he, h1, h2, _⟩ := stepWeightO_exists_edge h
  unfold MultiDiGraph.successors
  rw [mem_dedupFirst]
  exact List.mem_filterMap.mpr ⟨e, he, by rw [if_pos h1, h2]⟩

/-- A finite step weight implies graph predecessorship. -/
theorem stepWeightO_mem_predecessors {G : MultiDiGraph} {w : WeightField}
    {u v : Node} {q : ℚ} (h : stepWeightO G w u v = some q) :
    u ∈ G.predecessors v := by
  obtain ⟨e, he, h1, h2, _⟩ := stepWeightO_exists_edge h
  unfold MultiDiGraph.predecessors
  rw [mem_dedupFirst]
  exact List.mem_filterMap.mpr ⟨e, he, by rw [if_pos h2, h1]⟩

/-- A tentative distance that beats a finite candidate is present and not
larger than it: the failed relaxation test read backwards. -/
theorem not_lt_toTop {x : ℚ} {o : Option ℚ}
    (h : ¬((x : WithTop ℚ) < toTop o)) : ∃ y, o = some y ∧ y ≤ x := by
  rcases o with _ | y
  · exact absurd (WithTop.coe_lt_top x) h
  · refine ⟨y, rfl, ?_⟩
    have h2 : (y : WithTop ℚ) ≤ (x : WithTop ℚ) := not_lt.mp h
    exact_mod_cast h2

/-- A step cost in the extended rationals is never negative under
non-negative weights. -/
theorem toTop_stepWeight_nonneg {G : MultiDiGraph} {w : WeightField}
    (hnn : WNonneg G w) (u v : Node) :
    0 ≤ toTop (stepWeightO G w u v) := by
  rcases h : stepWeightO G w u v with _ | q
  · show (0 : WithTop ℚ) ≤ ⊤
    exact le_top
  · show (0 : WithTop ℚ) ≤ ((q : ℚ) : WithTop ℚ)
    exact_mod_cast stepWeightO_nonneg hnn h

/-- A list with a last element is a concatenation ending in it. -/
theorem eq_concat_of_getLast {p : List Node} {v : Node}
    (h : p.getLast? = some v) : ∃ l, p = l ++ [v] := by
  induction p with
  | nil => cases h
  | cons a p ih =>
    cases p with
    | nil =>
      rw [show ([a] : List Node).getLast? = some a from rfl] at h
      cases h
      exact ⟨[], rfl⟩
    | cons b q =>
      rw [List.getLast?_cons_cons] at h
      obtain ⟨l, hl⟩ := ih h
      exact ⟨a :: l, by rw [List.cons_append, ← hl]⟩

/-- The head of an append is blind to everything after the first element
of the right part. -/
theorem head_append_cons (l1 : List Node) (z : Node) (l2 : List Node) :
    (l1 ++ z :: l2).head? = (l1 ++ [z]).head? := by
  cases l1 with
  | nil => rfl
  | cons a l => rfl

/-- The last element of an append with a nonempty right part. -/
theorem getLast_append_cons (l1 : List Node) (z : Node) (l2 : List Node) :
    (l1 ++ z :: l2).getLast? = (z :: l2).getLast? := by
  induction l1 with
  | nil => rfl
  | cons a l ih =>
    rcases hl : l ++ z :: l2 with _ | ⟨b, r⟩
    · exact absurd hl (by simp)
    · rw [List.cons_append, hl, List.getLast?_cons_cons, ← hl, ih]

/-- Walk costs add over a split at an occurrence of `z`. -/
theorem walkCostT_append (G : MultiDiGraph) (w : WeightField) :
    ∀ (l1 : List Node) (z : Node) (l2 : List Node),
      walkCostT G w (l1 ++ z :: l2) =
        walkCostT G w (l1 ++ [z]) + walkCostT G w (z :: l2) := by
  intro l1
  induction l1 with
  | nil =>
    intro z l2
    show walkCostT G w (z :: l2) = walkCostT G w [z] + walkCostT G w (z :: l2)
    rw [show walkCostT G w [z] = 0 from rfl, zero_add]
  | cons a l ih =>
    intro z l2
    cases l with
    | nil =>
      show toTop (stepWeightO G w a z) + walkCostT G w (z :: l2) =
        (toTop (stepWeightO G w a z) + walkCostT G w [z]) + walkCostT G w (z :: l2)
      rw [show walkCostT G w [z] = 0 from rfl, add_zero]
    | cons b r =>
      show toTop (stepWeightO G w a b) + walkCostT G w (b :: r ++ z :: l2) =
        (toTop (stepWeightO G w a b) + walkCostT G w (b :: r ++ [z])) +
          walkCostT G w (z :: l2)
      rw [ih z l2, add_assoc]

/-- A chained walk has finite cost. -/
theorem walkCostT_ne_top {G : MultiDiGraph} {w : WeightField} :
    ∀ (p : List Node),
      List.Chain' (fun u v => stepWeightO G w u v ≠ none) p →
      walkCostT G w p ≠ ⊤ := by
  intro p
  induction p with
  | nil =>
    intro _
    show (0 : WithTop ℚ) ≠ ⊤
    exact WithTop.zero_ne_top
  | cons a p ih =>
    cases p with
    | nil =>
      intro _
      show (0 : WithTop ℚ) ≠ ⊤
      exact WithTop.zero_ne_top
    | cons b q =>
      intro hchain
      rw [List.chain'_cons] at hchain
      rcases hsw : stepWeightO G w a b with _ | val
      · exact absurd hsw hchain.1
      · show toTop (stepWeightO G w a b) + walkCostT G w (b :: q) ≠ ⊤
        rw [hsw]
        show ((val : ℚ) : WithTop ℚ) + walkCostT G w (b :: q) ≠ ⊤
        exact WithTop.add_ne_top.mpr ⟨WithTop.coe_ne_top, ih hchain.2⟩

/-- Walk costs are non-negative under non-negative weights. -/
theorem walkCostT_nonneg {G : MultiDiGraph} {w : WeightField}
    (hnn : WNonneg G w) : ∀ (p : List Node), 0 ≤ walkCostT G w p := by
  intro p
  induction p with
  | nil => exact le_refl _
  | cons a p ih =>
    cases p with
    | nil => exact le_refl _
    | cons b q =>
      show (0 : WithTop ℚ) ≤ toTop (stepWeightO G w a b) + walkCostT G w (b :: q)
      exact add_nonneg (toTop_stepWeight_nonneg hnn a b) ih

/-- The one-node walk at a non-excluded node. -/
theorem IsRWalk_singleton {G : MultiDiGraph} {w : WeightField}
    {avoid : Node → Bool} {x : Node} (hx : avoid x = false) :
    IsRWalk G w avoid x x [x] := by
  refine ⟨rfl, rfl, List.chain'_singleton x, ?_⟩
  intro y hy
  rw [List.mem_singleton] at hy
  rwa [hy]

/-- Splitting a restricted walk at an occurrence of `z`. -/
theorem IsRWalk_split {G : MultiDiGraph} {w : WeightField}
    {avoid : Node → Bool} {s t : Node} {l1 l2 : List Node} {z : Node}
    (h : IsRWalk G w avoid s t (l1 ++ z :: l2)) :
    IsRWalk G w avoid s z (l1 ++ [z]) ∧ IsRWalk G w avoid z t (z :: l2) ∧
    walkCostT G w (l1 ++ z :: l2) =
      walkCostT G w (l1 ++ [z]) + walkCostT G w (z :: l2) := by
  obtain ⟨hh, hl, hc, ha⟩ := h
  rw [List.chain'_split] at hc
  rw [getLast_append_cons] at hl
  rw [head_append_cons] at hh
  refine ⟨⟨hh, ?_, hc.1, ?_⟩, ⟨rfl, hl, hc.2, ?_⟩,
    walkCostT_append G w l1 z l2⟩
  · rw [getLast_append_cons l1 z []]
    rfl
  · intro x hx
    apply ha
    rcases List.mem_append.mp hx with hx | hx
    · exact List.mem_append.mpr (Or.inl hx)
    · rw [List.mem_singleton] at hx
      subst hx
      exact List.mem_append.mpr (Or.inr (List.mem_cons_self x l2))
  · intro x hx
    exact ha x (List.mem_append.mpr (Or.inr hx))

/-- Extending a restricted walk by one more step. -/
theorem IsRWalk_extend {G : MultiDiGraph} {w : WeightField}
    {avoid : Node → Bool} {s u v : Node} {p : List Node} {q : ℚ}
    (h : IsRWalk G w avoid s u p) (hstep : stepWeightO G w u v = some q)
    (hv : avoid v = false) :
    IsRWalk G w avoid s v (p ++ [v]) ∧
    walkCostT G w (p ++ [v]) = walkCostT G w p + (q : WithTop ℚ) := by
  obtain ⟨hh, hl, hc, ha⟩ := h
  obtain ⟨l, rfl⟩ := eq_concat_of_getLast hl
  have hassoc : (l ++ [u]) ++ [v] = l ++ u :: [v] := by simp
  rw [hassoc]
  have hc2 : walkCostT G w (u :: [v]) = (q : WithTop ℚ) := by
    show toTop (stepWeightO G w u v) + walkCostT G w [v] = (q : WithTop ℚ)
    rw [hstep, show walkCostT G w [v] = 0 from rfl, add_zero]
    rfl
  refine ⟨⟨?_, ?_, ?_, ?_⟩, ?_⟩
  · rw [head_append_cons]
    exact hh
  · rw [getLast_append_cons]
    rfl
  · rw [List.chain'_split]
    refine ⟨hc, List.chain'_pair.mpr ?_⟩
    intro hn
    rw [hstep] at hn
    cases hn
  · intro x hx
    rcases List.mem_append.mp hx with hx | hx
    · exact ha x (List.mem_append.mpr (Or.inl hx))
    · rcases List.mem_cons.mp hx with rfl | hx
      · exact ha x (List.mem_append.mpr (Or.inr (List.mem_singleton.mpr rfl)))
      · rw [List.mem_singleton] at hx
        subst hx
        exact hv
  · rw [walkCostT_append G w l u [v], hc2]

/-- Composing a restricted walk into `v` with one out of `v`. -/
theorem IsRWalk_trans {G : MultiDiGraph} {w : WeightField}
    {avoid : Node → Bool} {s v t : Node} {p1 p2 : List Node}
    (h1 : IsRWalk G w avoid s v p1) (h2 : IsRWalk G w avoid v t p2) :
    ∃ p, IsRWalk G w avoid s t p ∧
      walkCostT G w p = walkCostT G w p1 + walkCostT G w p2 := by
  obtain ⟨hh1, hl1, hc1, ha1⟩ := h1
  obtain ⟨hh2, hl2, hc2, ha2⟩ := h2
  obtain ⟨l, rfl⟩ := eq_concat_of_getLast hl1
  rcases p2 with _ | ⟨z, l2⟩
  · cases hh2
  have hz : z = v := by
    rw [List.head?_cons] at hh2
    exact Option.some.inj hh2
  subst hz
  refine ⟨l ++ z :: l2, ⟨?_, ?_, ?_, ?_⟩, walkCostT_append G w l z l2⟩
  · rw [head_append_cons]
    exact hh1
  · rw [getLast_append_cons]
    exact hl2
  · rw [List.chain'_split]
    exact ⟨hc1, hc2⟩
  · intro x hx
    rcases List.mem_append.mp hx with hx | hx
    · exact ha1 x (List.mem_append.mpr (Or.inl hx))
    · exact ha2 x hx

/-- The first node of a list outside a given set, with the settled prefix
before it. -/
theorem exists_first_out (vis : List Node) :
    ∀ (p : List Node), ¬(∀ x ∈ p, x ∈ vis) →
      ∃ l1 x l2, p = l1 ++ x :: l2 ∧ (∀ y ∈ l1, y ∈ vis) ∧ x ∉ vis := by
  intro p
  induction p with
  | nil =>
    intro h
    exact absurd (by intro x hx; cases hx) h
  | cons a p ih =>
    intro h
    by_cases ha : a ∈ vis
    · have hp : ¬∀ x ∈ p, x ∈ vis := by
        intro hall
        refine h ?_
        intro x hx
        rcases List.mem_cons.mp hx with rfl | hx
        · exact ha
        · exact hall x hx
      obtain ⟨l1, x, l2, heq, h1, h2⟩ := ih hp
      refine ⟨a :: l1, x, l2, by rw [heq, List.cons_append], ?_, h2⟩
      intro y hy
      rcases List.mem_cons.mp hy with rfl | hy
      · exact ha
      · exact h1 y hy
    · exact ⟨[], a, p, rfl, (by intro y hy; cases hy), ha⟩

/-- Closure of one expanded forward node: every non-excluded out-neighbour
already carries a distance within one relaxation of its own. -/
def FClosedAt (G : MultiDiGraph) (w : WeightField) (avoid : Node → Bool)
    (st : BDState) (u : Node) : Prop :=
  ∀ du, dlookup st.distf u = some du →
    ∀ v q, avoid v = false → stepWeightO G w u v = some q →
    ∃ dv, dlookup st.distf v = some dv ∧ dv ≤ du + q

/-- Closure of one expanded backward node, over in-edges. -/
def BClosedAt (G : MultiDiGraph) (w : WeightField) (avoid : Node → Bool)
    (st : BDState) (v : Node) : Prop :=
  ∀ dv, dlookup st.distb v = some dv →
    ∀ u q, avoid u = false → stepWeightO G w u v = some q →
    ∃ du, dlookup st.distb u = some du ∧ du ≤ dv + q

/-- The forward-frontier facts of the optimality invariant that do not
mention the closure of expanded nodes: recorded distances are walk costs,
distance keys are non-excluded, expanded distances are optimal, expanded
nodes carry distances below every heap key, and unexpanded keys sit in the
heap at their recorded distance. -/
structure FCore (G : MultiDiGraph) (w : WeightField) (avoid : Node → Bool)
    (s : Node) (st : BDState) : Prop where
  sound : ∀ v d, dlookup st.distf v = some d →
    ∃ p, IsRWalk G w avoid s v p ∧ walkCostT G w p = (d : WithTop ℚ)
  noAvoid : ∀ v, (dlookup st.distf v).isSome → avoid v = false
  opt : ∀ u ∈ st.visitedf, ∀ d, dlookup st.distf u = some d →
    ∀ p, IsRWalk G w avoid s u p → (d : WithTop ℚ) ≤ walkCostT G w p
  dom : ∀ u ∈ st.visitedf, (dlookup st.distf u).isSome
  queued : ∀ v d, dlookup st.distf v = some d → v ∉ st.visitedf →
    (d, v) ∈ st.qf
  qbound : ∀ e ∈ st.qf, ∃ d, dlookup st.distf e.2 = some d ∧ d ≤ e.1
  heap : ∀ u ∈ st.visitedf, ∀ du, dlookup st.distf u = some du →
    ∀ e ∈ st.qf, du ≤ e.1
  start : ∃ d, dlookup st.distf s = some d ∧ d ≤ 0

/-- Mirror of `FCore` for the backward frontier, over walks into `t`. -/
structure BCore (G : MultiDiGraph) (w : WeightField) (avoid : Node → Bool)
    (t : Node) (st : BDState) : Prop where
  sound : ∀ v d, dlookup st.distb v = some d →
    ∃ p, IsRWalk G w avoid v t p ∧ walkCostT G w p = (d : WithTop ℚ)
  noAvoid : ∀ v, (dlookup st.distb v).isSome → avoid v = false
  opt : ∀ u ∈ st.visitedb, ∀ d, dlookup st.distb u = some d →
    ∀ p, IsRWalk G w avoid u t p → (d : WithTop ℚ) ≤ walkCostT G w p
  dom : ∀ u ∈ st.visitedb, (dlookup st.distb u).isSome
  queued : ∀ v d, dlookup st.distb v = some d → v ∉ st.visitedb →
    (d, v) ∈ st.qb
  qbound : ∀ e ∈ st.qb, ∃ d, dlookup st.distb e.2 = some d ∧ d ≤ e.1
  heap : ∀ u ∈ st.visitedb, ∀ du, dlookup st.distb u = some du →
    ∀ e ∈ st.qb, du ≤ e.1
  start : ∃ d, dlookup st.distb t = some d ∧ d ≤ 0

/-- The connection estimate `mu` is the cost of a genuine `s`-`t` walk
when finite, undercuts every recorded two-sided distance sum, and is
infinite while no meeting node is recorded. -/
structure MuCore (G : MultiDiGraph) (w : WeightField) (avoid : Node → Bool)
    (s t : Node) (st : BDState) : Prop where
  sound : ∀ c : ℚ, st.mu = (c : WithTop ℚ) →
    ∃ p, IsRWalk G w avoid s t p ∧ walkCostT G w p = (c : WithTop ℚ)
  bound : ∀ v df db, dlookup st.distf v = some df →
    dlookup st.distb v = some db → st.mu ≤ ((df + db : ℚ) : WithTop ℚ)
  meet : st.meeting = none → st.mu = ⊤

/-- The full optimality invariant of the search loop. -/
structure SearchInv (G : MultiDiGraph) (w : WeightField)
    (avoid : Node → Bool) (s t : Node) (st : BDState) : Prop where
  f : FCore G w avoid s st
  fC : ∀ u ∈ st.visitedf, FClosedAt G w avoid st u
  b : BCore G w avoid t st
  bC : ∀ v ∈ st.visitedb, BClosedAt G w avoid st v
  m : MuCore G w avoid s t st

/-- The invariant while the forward expansion of `u` (popped at its final
distance `d_u`) still has the neighbour list `L` to relax: closure of `u`
holds outside `L` only, and every expanded distance is at most `d_u`. -/
structure ExpandInvF (G : MultiDiGraph) (w : WeightField)
    (avoid : Node → Bool) (s t : Node) (d_u : ℚ) (u : Node) (L : List Node)
    (st : BDState) : Prop where
  f : FCore G w avoid s st
  fCO : ∀ x ∈ st.visitedf, x ≠ u → FClosedAt G w avoid st x
  fCU : ∀ v q, avoid v = false → stepWeightO G w u v = some q →
    v ∈ L ∨ ∃ dv, dlookup st.distf v = some dv ∧ dv ≤ d_u + q
  b : BCore G w avoid t st
  bC : ∀ v ∈ st.visitedb, BClosedAt G w avoid st v
  m : MuCore G w avoid s t st
  du_eq : dlookup st.distf u = some d_u
  vis_le : ∀ x ∈ st.visitedf, ∀ dx, dlookup st.distf x = some dx → dx ≤ d_u

/-- Mirror of `ExpandInvF` for one backward expansion of `v`. -/
structure ExpandInvB (G : MultiDiGraph) (w : WeightField)
    (avoid : Node → Bool) (s t : Node) (d_v : ℚ) (v : Node) (L : List Node)
    (st : BDState) : Prop where
  f : FCore G w avoid s st
  fC : ∀ u ∈ st.visitedf, FClosedAt G w avoid st u
  b : BCore G w avoid t st
  bCO : ∀ x ∈ st.visitedb, x ≠ v → BClosedAt G w avoid st x
  bCU : ∀ u q, avoid u = false → stepWeightO G w u v = some q →
    u ∈ L ∨ ∃ du, dlookup st.distb u = some du ∧ du ≤ d_v + q
  m : MuCore G w avoid s t st
  dv_eq : dlookup st.distb v = some d_v
  vis_le : ∀ x ∈ st.visitedb, ∀ dx, dlookup st.distb x = some dx → dx ≤ d_v

/-- `FCore` transfers along states with the same forward fields. -/
theorem fcore_transfer {G : MultiDiGraph} {w : WeightField}
    {avoid : Node → Bool} {s : Node} {st st' : BDState}
    (h : FCore G w avoid s st) (h1 : st'.distf = st.distf)
    (h2 : st'.qf = st.qf) (h3 : st'.visitedf = st.visitedf) :
    FCore G w avoid s st' :=
  ⟨by rw [h1]; exact h.sound, by rw [h1]; exact h.noAvoid,
   by rw [h1, h3]; exact h.opt, by rw [h1, h3]; exact h.dom,
   by rw [h1, h2, h3]; exact h.queued, by rw [h1, h2]; exact h.qbound,
   by rw [h1, h2, h3]; exact h.heap, by rw [h1]; exact h.start⟩

/-- `BCore` transfers along states with the same backward fields. -/
theorem bcore_transfer {G : MultiDiGraph} {w : WeightField}
    {avoid : Node → Bool} {t : Node} {st st' : BDState}
    (h : BCore G w avoid t st) (h1 : st'.distb = st.distb)
    (h2 : st'.qb = st.qb) (h3 : st'.visitedb = st.visitedb) :
    BCore G w avoid t st' :=
  ⟨by rw [h1]; exact h.sound, by rw [h1]; exact h.noAvoid,
   by rw [h1, h3]; exact h.opt, by rw [h1, h3]; exact h.dom,
   by rw [h1, h2, h3]; exact h.queued, by rw [h1, h2]; exact h.qbound,
   by rw [h1, h2, h3]; exact h.heap, by rw [h1]; exact h.start⟩

/-- `MuCore` transfers along states with the same dicts and estimate. -/
theorem mucore_transfer {G : MultiDiGraph} {w : WeightField}
    {avoid : Node → Bool} {s t : Node} {st st' : BDState}
    (h : MuCore G w avoid s t st) (h1 : st'.distf = st.distf)
    (h2 : st'.distb = st.distb) (h3 : st'.mu = st.mu)
    (h4 : st'.meeting = st.meeting) : MuCore G w avoid s t st' :=
  ⟨by rw [h3]; exact h.sound, by rw [h1, h2, h3]; exact h.bound,
   by rw [h3, h4]; exact h.meet⟩

/-- Forward closure transfers along states with the same forward dict. -/
theorem fClosed_transfer {G : MultiDiGraph} {w : WeightField}
    {avoid : Node → Bool} {st st' : BDState} {u : Node}
    (h1 : st'.distf = st.distf) (h : FClosedAt G w avoid st u) :
    FClosedAt G w avoid st' u := by
  unfold FClosedAt
  rw [h1]
  exact h

/-- Backward closure transfers along states with the same backward dict. -/
theorem bClosed_transfer {G : MultiDiGraph} {w : WeightField}
    {avoid : Node → Bool} {st st' : BDState} {v : Node}
    (h1 : st'.distb = st.distb) (h : BClosedAt G w avoid st v) :
    BClosedAt G w avoid st' v := by
  unfold BClosedAt
  rw [h1]
  exact h

/-- Lookups after a decrease-insert: the inserted key holds the new value,
other keys are untouched, and every present value can only decrease. -/
theorem dlookup_dinsert_lt {l : List (Node × ℚ)} {v : Node} {nd : ℚ}
    (himp : ((nd : ℚ) : WithTop ℚ) < toTop (dlookup l v)) :
    (∀ x dx, dlookup l x = some dx →
      ∃ dx', dlookup (dinsert l v nd) x = some dx' ∧ dx' ≤ dx) ∧
    (∀ x, x ≠ v → dlookup (dinsert l v nd) x = dlookup l x) ∧
    dlookup (dinsert l v nd) v = some nd := by
  refine ⟨?_, ?_, by rw [dlookup_dinsert]; simp⟩
  · intro x dx hx
    by_cases hxv : x = v
    · subst hxv
      rw [hx] at himp
      have h2 : ((nd : ℚ) : WithTop ℚ) < ((dx : ℚ) : WithTop ℚ) := himp
      have hlt : nd < dx := by exact_mod_cast h2
      rw [dlookup_dinsert, if_pos rfl]
      exact ⟨nd, rfl, hlt.le⟩
    · rw [dlookup_dinsert, if_neg hxv]
      exact ⟨dx, hx, le_refl dx⟩
  · intro x hxv
    rw [dlookup_dinsert, if_neg hxv]

/-- The connection estimate never increases across a successful forward
relaxation, and ends below the new connection through `v` whenever `v`
carries a backward distance. -/
theorem relaxedF_mu (st : BDState) (u v : Node) (nd : ℚ) :
    (relaxedF st u v nd).mu ≤ st.mu ∧
    (∀ db, dlookup st.distb v = some db →
      (relaxedF st u v nd).mu ≤ ((nd + db : ℚ) : WithTop ℚ)) := by
  unfold relaxedF
  dsimp only
  rcases hdb : dlookup st.distb v with _ | db
  · refine ⟨le_refl _, ?_⟩
    intro db2 hdb2
    cases hdb2
  · dsimp only
    split
    · rename_i hlt
      refine ⟨hlt.le, ?_⟩
      intro db2 hdb2
      cases hdb2
      exact le_refl _
    · rename_i hlt
      refine ⟨le_refl _, ?_⟩
      intro db2 hdb2
      cases hdb2
      exact not_lt.mp hlt

/-- Mirror of `relaxedF_mu` for a backward relaxation. -/
theorem relaxedB_mu (st : BDState) (u v : Node) (nd : ℚ) :
    (relaxedB st u v nd).mu ≤ st.mu ∧
    (∀ df, dlookup st.distf u = some df →
      (relaxedB st u v nd).mu ≤ ((df + nd : ℚ) : WithTop ℚ)) := by
  unfold relaxedB
  dsimp only
  rcases hdf : dlookup st.distf u with _ | df
  · refine ⟨le_refl _, ?_⟩
    intro df2 hdf2
    cases hdf2
  · dsimp only
    split
    · rename_i hlt
      refine ⟨hlt.le, ?_⟩
      intro df2 hdf2
      cases hdf2
      exact le_refl _
    · rename_i hlt
      refine ⟨le_refl _, ?_⟩
      intro df2 hdf2
      cases hdf2
      exact not_lt.mp hlt

/-- Complete case split of one forward relaxation: either the state is
unchanged and the target is already within one step of `u` whenever the
step exists, or all guards pass and the state is the relaxed one. -/
theorem relaxF_cases (G : MultiDiGraph) (w : WeightField)
    (avoid : Node → Bool) (d_u : ℚ) (u : Node) (st : BDState) (v : Node) :
    (relaxF G w avoid d_u u st v = st ∧
      (∀ q, avoid v = false → stepWeightO G w u v = some q →
        ∃ dv, dlookup st.distf v = some dv ∧ dv ≤ d_u + q)) ∨
    (∃ q, avoid v = false ∧ stepWeightO G w u v = some q ∧
      ((d_u + q : ℚ) : WithTop ℚ) < toTop (dlookup st.distf v) ∧
      relaxF G w avoid d_u u st v = relaxedF st u v (d_u + q)) := by
  rw [relaxF_eq]
  by_cases hav : avoid v
  · rw [if_pos hav]
    refine Or.inl ⟨rfl, ?_⟩
    intro q hv _
    rw [hv] at hav
    exact absurd hav (by simp)
  · rw [if_neg hav]
    rcases hsw : stepWeightO G w u v with _ | val
    · refine Or.inl ⟨rfl, ?_⟩
      intro q _ hq
      cases hq
    · dsimp only
      by_cases himp : ((d_u + val : ℚ) : WithTop ℚ) < toTop (dlookup st.distf v)
      · rw [if_pos himp]
        exact Or.inr ⟨val, by simpa using hav, rfl, himp, rfl⟩
      · rw [if_neg himp]
        refine Or.inl ⟨rfl, ?_⟩
        intro q _ hq
        cases hq
        exact not_lt_toTop himp

/-- Mirror of `relaxF_cases` for one backward relaxation of the in-edge
`u → v` during the expansion of `v`. -/
theorem relaxB_cases (G : MultiDiGraph) (w : WeightField)
    (avoid : Node → Bool) (d_v : ℚ) (v : Node) (st : BDState) (u : Node) :
    (relaxB G w avoid d_v v st u = st ∧
      (∀ q, avoid u = false → stepWeightO G w u v = some q →
        ∃ du, dlookup st.distb u = some du ∧ du ≤ d_v + q)) ∨
    (∃ q, avoid u = false ∧ stepWeightO G w u v = some q ∧
      ((d_v + q : ℚ) : WithTop ℚ) < toTop (dlookup st.distb u) ∧
      relaxB G w avoid d_v v st u = relaxedB st u v (d_v + q)) := by
  rw [relaxB_eq]
  by_cases hav : avoid u
  · rw [if_pos hav]
    refine Or.inl ⟨rfl, ?_⟩
    intro q hv _
    rw [hv] at hav
    exact absurd hav (by simp)
  · rw [if_neg hav]
    rcases hsw : stepWeightO G w u v with _ | val
    · refine Or.inl ⟨rfl, ?_⟩
      intro q _ hq
      cases hq
    · dsimp only
      by_cases himp : ((d_v + val : ℚ) : WithTop ℚ) < toTop (dlookup st.distb u)
      · rw [if_pos himp]
        exact Or.inr ⟨val, by simpa using hav, rfl, himp, rfl⟩
      · rw [if_neg himp]
        refine Or.inl ⟨rfl, ?_⟩
        intro q _ hq
        cases hq
        exact not_lt_toTop himp

/-- An improving relaxation always targets an unexpanded node: expanded
distances sit below the popped key and weights are non-negative. -/
theorem improve_not_vis {v : Node} {d_u q : ℚ} {dist : List (Node × ℚ)}
    {vis : List Node} (hq0 : 0 ≤ q)
    (himp : ((d_u + q : ℚ) : WithTop ℚ) < toTop (dlookup dist v))
    (hdom : ∀ x ∈ vis, (dlookup dist x).isSome)
    (hvle : ∀ x ∈ vis, ∀ dx, dlookup dist x = some dx → dx ≤ d_u) :
    v ∉ vis := by
  intro hv
  obtain ⟨dv, hdv⟩ := Option.isSome_iff_exists.mp (hdom v hv)
  rw [hdv] at himp
  have h2 : ((d_u + q : ℚ) : WithTop ℚ) < ((dv : ℚ) : WithTop ℚ) := himp
  have hlt : d_u + q < dv := by exact_mod_cast h2
  have := hvle v hv dv hdv
  linarith

/-- One forward relaxation preserves the expansion invariant, discharging
the head of the work list. -/
theorem relaxF_expand {G : MultiDiGraph} {w : WeightField}
    {avoid : Node → Bool} {s t : Node} {d_u : ℚ} {u v : Node}
    {L : List Node} {st : BDState} (hnn : WNonneg G w)
    (h : ExpandInvF G w avoid s t d_u u (v :: L) st) :
    ExpandInvF G w avoid s t d_u u L (relaxF G w avoid d_u u st v) := by
  obtain ⟨hf, hfCO, hfCU, hb, hbC, hm, hdu, hvle⟩ := h
  rcases relaxF_cases G w avoid d_u u st v with
    ⟨heq, hclose⟩ | ⟨q, hav, hsw, himp, heq⟩
  · rw [heq]
    refine ⟨hf, hfCO, ?_, hb, hbC, hm, hdu, hvle⟩
    intro v2 q2 hav2 hsw2
    rcases hfCU v2 q2 hav2 hsw2 with hin | hcl
    · rcases List.mem_cons.mp hin with rfl | hin
      · exact Or.inr (hclose q2 hav2 hsw2)
      · exact Or.inl hin
    · exact Or.inr hcl
  · have hq0 : 0 ≤ q := stepWeightO_nonneg hnn hsw
    have hvnot : v ∉ st.visitedf := improve_not_vis hq0 himp hf.dom hvle
    have hun : u ≠ v := by
      intro he
      subst he
      rw [hdu] at himp
      have h2 : ((d_u + q : ℚ) : WithTop ℚ) < ((d_u : ℚ) : WithTop ℚ) := himp
      have h3 : d_u + q < d_u := by exact_mod_cast h2
      linarith
    rw [heq]
    obtain ⟨hdf, hpf, hqf, hdb, hpb, hqb, hvf, hvb, hmeet⟩ :=
      relaxedF_fields st u v (d_u + q)
    obtain ⟨hdec0, hkeep0, hnew0⟩ := dlookup_dinsert_lt himp
    have hdec : ∀ x dx, dlookup st.distf x = some dx →
        ∃ dx', dlookup (relaxedF st u v (d_u + q)).distf x = some dx' ∧
          dx' ≤ dx := by
      intro x dx hx
      rw [hdf]
      exact hdec0 x dx hx
    have hkeep : ∀ x, x ≠ v →
        dlookup (relaxedF st u v (d_u + q)).distf x = dlookup st.distf x := by
      intro x hx
      rw [hdf]
      exact hkeep0 x hx
    have hnew : dlookup (relaxedF st u v (d_u + q)).distf v =
        some (d_u + q) := by
      rw [hdf]
      exact hnew0
    have hsoundv : ∃ p, IsRWalk G w avoid s v p ∧
        walkCostT G w p = ((d_u + q : ℚ) : WithTop ℚ) := by
      obtain ⟨p, hp, hpc⟩ := hf.sound u d_u hdu
      obtain ⟨hw2, hc2⟩ := IsRWalk_extend hp hsw hav
      refine ⟨p ++ [v], hw2, ?_⟩
      rw [hc2, hpc]
      norm_cast
    refine ⟨⟨?_, ?_, ?_, ?_, ?_, ?_, ?_, ?_⟩, ?_, ?_,
      bcore_transfer hb hdb hqb hvb, ?_, ⟨?_, ?_, ?_⟩, ?_, ?_⟩
    · intro x d hx
      by_cases hxv : x = v
      · subst hxv
        rw [hnew] at hx
        cases hx
        exact hsoundv
      · rw [hkeep x hxv] at hx
        exact hf.sound x d hx
    · intro x hx
      by_cases hxv : x = v
      · subst hxv
        exact hav
      · rw [hkeep x hxv] at hx
        exact hf.noAvoid x hx
    · intro x hxvis d hx p hp
      rw [hvf] at hxvis
      have hxv : x ≠ v := by
        intro he2
        rw [he2] at hxvis
        exact hvnot hxvis
      rw [hkeep x hxv] at hx
      exact hf.opt x hxvis d hx p hp
    · intro x hx
      rw [hvf] at hx
      rw [hdf]
      exact isSome_dlookup_dinsert _ _ (hf.dom x hx)
    · intro x d hx hxnot
      rw [hvf] at hxnot
      rw [hqf]
      by_cases hxv : x = v
      · subst hxv
        rw [hnew] at hx
        cases hx
        exact List.mem_cons_self _ _
      · rw [hkeep x hxv] at hx
        exact List.mem_cons_of_mem _ (hf.queued x d hx hxnot)
    · intro e he
      rw [hqf] at he
      rcases List.mem_cons.mp he with rfl | he
      · exact ⟨d_u + q, hnew, le_refl _⟩
      · obtain ⟨d0, hd0, hle0⟩ := hf.qbound e he
        obtain ⟨d1, hd1, hle1⟩ := hdec e.2 d0 hd0
        exact ⟨d1, hd1, hle1.trans hle0⟩
    · intro x hxvis dx hx e he
      rw [hvf] at hxvis
      have hxv : x ≠ v := by
        intro he2
        rw [he2] at hxvis
        exact hvnot hxvis
      rw [hkeep x hxv] at hx
      rw [hqf] at he
      rcases List.mem_cons.mp he with rfl | he
      · have h4 := hvle x hxvis dx hx
        show dx ≤ d_u + q
        linarith
      · exact hf.heap x hxvis dx hx e he
    · obtain ⟨d0, hd0, hle0⟩ := hf.start
      obtain ⟨d1, hd1, hle1⟩ := hdec s d0 hd0
      exact ⟨d1, hd1, hle1.trans hle0⟩
    · intro x hxvis hxu
      rw [hvf] at hxvis
      intro dx hdx v2 q2 hav2 hsw2
      have hxv : x ≠ v := by
        intro he2
        rw [he2] at hxvis
        exact hvnot hxvis
      rw [hkeep x hxv] at hdx
      obtain ⟨dv2, hdv2, hle2⟩ := hfCO x hxvis hxu dx hdx v2 q2 hav2 hsw2
      obtain ⟨dv3, hdv3, hle3⟩ := hdec v2 dv2 hdv2
      exact ⟨dv3, hdv3, hle3.trans hle2⟩
    · intro v2 q2 hav2 hsw2
      by_cases hv2 : v2 = v
      · subst hv2
        refine Or.inr ⟨d_u + q, hnew, ?_⟩
        rw [hsw] at hsw2
        cases hsw2
        exact le_refl _
      · rcases hfCU v2 q2 hav2 hsw2 with hin | ⟨dv2, hdv2, hle2⟩
        · rcases List.mem_cons.mp hin with rfl | hin
          · exact absurd rfl hv2
          · exact Or.inl hin
        · obtain ⟨dv3, hdv3, hle3⟩ := hdec v2 dv2 hdv2
          exact Or.inr ⟨dv3, hdv3, hle3.trans hle2⟩
    · intro v2 hv2
      rw [hvb] at hv2
      exact bClosed_transfer hdb (hbC v2 hv2)
    · intro c hc
      rcases hmeet with ⟨hmu, hme⟩ | ⟨db, hdbv, hlt, hmu, hme⟩
      · rw [hmu] at hc
        exact hm.sound c hc
      · rw [hmu] at hc
        have hceq : c = d_u + q + db := by exact_mod_cast hc.symm
        subst hceq
        obtain ⟨p1, hp1, hc1⟩ := hsoundv
        obtain ⟨p2, hp2, hc2⟩ := hb.sound v db hdbv
        obtain ⟨p, hp, hcp⟩ := IsRWalk_trans hp1 hp2
        refine ⟨p, hp, ?_⟩
        rw [hcp, hc1, hc2]
        norm_cast
    · intro x dfx dbx hdfx hdbx
      rw [hdb] at hdbx
      obtain ⟨hmule, hmuconn⟩ := relaxedF_mu st u v (d_u + q)
      by_cases hxv : x = v
      · subst hxv
        rw [hnew] at hdfx
        cases hdfx
        exact hmuconn dbx hdbx
      · rw [hkeep x hxv] at hdfx
        exact hmule.trans (hm.bound x dfx dbx hdfx hdbx)
    · intro hme2
      rcases hmeet with ⟨hmu, hme⟩ | ⟨db, hdbv, hlt, hmu, hme⟩
      · rw [hme] at hme2
        rw [hmu]
        exact hm.meet hme2
      · rw [hme] at hme2
        cases hme2
    · rw [hkeep u hun]
      exact hdu
    · intro x hxvis dx hx
      rw [hvf] at hxvis
      have hxv : x ≠ v := by
        intro he2
        rw [he2] at hxvis
        exact hvnot hxvis
      rw [hkeep x hxv] at hx
      exact hvle x hxvis dx hx

/-- The relaxation fold over the whole neighbour list. -/
theorem relaxF_expand_fold {G : MultiDiGraph} {w : WeightField}
    {avoid : Node → Bool} {s t : Node} {d_u : ℚ} {u : Node}
    (hnn : WNonneg G w) :
    ∀ (L : List Node) (st : BDState),
      ExpandInvF G w avoid s t d_u u L st →
      ExpandInvF G w avoid s t d_u u []
        (L.foldl (relaxF G w avoid d_u u) st) := by
  intro L
  induction L with
  | nil =>
    intro st h
    exact h
  | cons v L ih =>
    intro st h
    rw [List.foldl_cons]
    exact ih _ (relaxF_expand hnn h)

/-- Closing the expansion: an exhausted work list yields the plain
invariant back. -/
theorem expandInvF_done {G : MultiDiGraph} {w : WeightField}
    {avoid : Node → Bool} {s t : Node} {d_u : ℚ} {u : Node} {st : BDState}
    (h : ExpandInvF G w avoid s t d_u u [] st) :
    SearchInv G w avoid s t st := by
  obtain ⟨hf, hfCO, hfCU, hb, hbC, hm, hdu, hvle⟩ := h
  refine ⟨hf, ?_, hb, hbC, hm⟩
  intro x hxvis
  by_cases hxu : x = u
  · subst hxu
    intro dx hdx v q hav hsw
    rcases hfCU v q hav hsw with hin | ⟨dv, hdv, hle⟩
    · cases hin
    · rw [hdu] at hdx
      cases hdx
      exact ⟨dv, hdv, hle⟩
  · exact hfCO x hxvis hxu

/-- Cover: a restricted walk from `s` to an unexpanded node is bounded
below by some forward heap entry. -/
theorem coverF {G : MultiDiGraph} {w : WeightField} {avoid : Node → Bool}
    {s t : Node} {st : BDState} (hnn : WNonneg G w)
    (inv : SearchInv G w avoid s t st) :
    ∀ (n : ℕ) (p : List Node) (x : Node), p.length ≤ n →
      IsRWalk G w avoid s x p → x ∉ st.visitedf →
      ∃ e ∈ st.qf, ((e.1 : ℚ) : WithTop ℚ) ≤ walkCostT G w p := by
  intro n
  induction n with
  | zero =>
    intro p x hlen hw _
    obtain ⟨hh, _, _, _⟩ := hw
    rcases p with _ | ⟨a, p⟩
    · cases hh
    · simp at hlen
  | succ n ih =>
    intro p x hlen hw hx
    obtain ⟨hh, hl, hc, ha⟩ := hw
    obtain ⟨l, rfl⟩ := eq_concat_of_getLast hl
    rcases List.eq_nil_or_concat l with rfl | ⟨l0, u, heqc⟩
    · have hxs : x = s := by
        rw [show (([] : List Node) ++ [x]).head? = some x from rfl] at hh
        exact Option.some.inj hh
      obtain ⟨ds, hds, hds0⟩ := inv.f.start
      refine ⟨(ds, s), inv.f.queued s ds hds (hxs ▸ hx), ?_⟩
      have h0 : walkCostT G w ([] ++ [x]) = 0 := rfl
      rw [h0]
      exact_mod_cast hds0
    · rw [List.concat_eq_append] at heqc
      subst heqc
      have hassoc : (l0 ++ [u]) ++ [x] = l0 ++ u :: [x] := by simp
      have hw2 : IsRWalk G w avoid s x (l0 ++ u :: [x]) := by
        rw [← hassoc]
        exact ⟨hh, hl, hc, ha⟩
      obtain ⟨hwpre, hwstep, hcost⟩ := IsRWalk_split hw2
      obtain ⟨hh2, hl2, hc2, ha2⟩ := hwstep
      have hstep := List.chain'_pair.mp hc2
      rcases hsq : stepWeightO G w u x with _ | q
      · exact absurd hsq hstep
      have havx : avoid x = false := ha2 x (by simp)
      have hcostx : walkCostT G w (u :: [x]) = ((q : ℚ) : WithTop ℚ) := by
        show toTop (stepWeightO G w u x) + walkCostT G w [x] = _
        rw [hsq, show walkCostT G w [x] = 0 from rfl, add_zero]
        rfl
      by_cases hu : u ∈ st.visitedf
      · obtain ⟨du, hdu⟩ := Option.isSome_iff_exists.mp (inv.f.dom u hu)
        obtain ⟨dx, hdx, hdxle⟩ := inv.fC u hu du hdu x q havx hsq
        have hqopt := inv.f.opt u hu du hdu (l0 ++ [u]) hwpre
        refine ⟨(dx, x), inv.f.queued x dx hdx hx, ?_⟩
        rw [hassoc, hcost, hcostx]
        have h1 : ((dx : ℚ) : WithTop ℚ) ≤
            ((du : ℚ) : WithTop ℚ) + ((q : ℚ) : WithTop ℚ) := by
          exact_mod_cast hdxle
        exact h1.trans (add_le_add_right hqopt _)
      · obtain ⟨e, he, hle⟩ := ih (l0 ++ [u]) u
          (by simp only [List.length_append, List.length_singleton] at hlen ⊢; omega)
          hwpre hu
        refine ⟨e, he, ?_⟩
        rw [hassoc, hcost, hcostx]
        have h0 : (0 : WithTop ℚ) ≤ ((q : ℚ) : WithTop ℚ) := by
          exact_mod_cast stepWeightO_nonneg hnn hsq
        exact hle.trans (le_add_of_nonneg_right h0)

/-- Popped-but-skipped forward entries leave the invariant intact. -/
theorem searchInv_erase_f {G : MultiDiGraph} {w : WeightField}
    {avoid : Node → Bool} {s t : Node} {st : BDState} {e : ℚ × Node}
    (inv : SearchInv G w avoid s t st) (hvis : e.2 ∈ st.visitedf) :
    SearchInv G w avoid s t { st with qf := st.qf.erase e } := by
  obtain ⟨hf, hfC, hb, hbC, hm⟩ := inv
  refine ⟨⟨hf.sound, hf.noAvoid, hf.opt, hf.dom, ?_, ?_, ?_, hf.start⟩,
    hfC, bcore_transfer hb rfl rfl rfl, hbC,
    mucore_transfer hm rfl rfl rfl rfl⟩
  · intro v d hv hvnot
    refine (List.mem_erase_of_ne ?_).mpr (hf.queued v d hv hvnot)
    intro he
    have h5 : v = e.2 := congrArg Prod.snd he
    exact hvnot (show v ∈ st.visitedf from h5 ▸ hvis)
  · intro e2 he2
    exact hf.qbound e2 (List.mem_of_mem_erase he2)
  · intro x hxv dx hdx e2 he2
    exact hf.heap x hxv dx hdx e2 (List.mem_of_mem_erase he2)

/-- The forward block of the loop preserves the optimality invariant. -/
theorem forwardStep_searchInv {G : MultiDiGraph} {w : WeightField}
    {avoid : Node → Bool} {s t : Node} {st : BDState} (hnn : WNonneg G w)
    (inv : SearchInv G w avoid s t st) :
    SearchInv G w avoid s t (forwardStep G w avoid st) := by
  unfold forwardStep
  rcases hq : qMinE st.qf with _ | e
  · exact inv
  obtain ⟨hemem, hmin⟩ := qMinE_spec hq
  dsimp only
  split
  · rename_i hcond
    have hvis : e.2 ∈ st.visitedf := by
      rcases hcond with hcv | hca
      · exact hcv
      · obtain ⟨d0, hd0, _⟩ := inv.f.qbound e hemem
        have h2 := inv.f.noAvoid e.2 (by rw [hd0]; rfl)
        rw [h2] at hca
        exact absurd hca (by simp)
    exact searchInv_erase_f inv hvis
  · rename_i hcond
    push_neg at hcond
    obtain ⟨hnv, hna⟩ := hcond
    obtain ⟨d0, hd0, hled⟩ := inv.f.qbound e hemem
    have hd_eq : dlookup st.distf e.2 = some e.1 := by
      have hq2 := inv.f.queued e.2 d0 hd0 hnv
      have hge := hmin (d0, e.2) hq2
      have h3 : d0 = e.1 := le_antisymm hled hge
      rw [← h3]
      exact hd0
    have hopt_u : ∀ d, dlookup st.distf e.2 = some d →
        ∀ p, IsRWalk G w avoid s e.2 p →
          ((d : ℚ) : WithTop ℚ) ≤ walkCostT G w p := by
      intro d hd p hp
      rw [hd_eq] at hd
      cases hd
      obtain ⟨e2, he2, hle2⟩ := coverF hnn inv p.length p e.2 (le_refl _) hp hnv
      have h3 : ((e.1 : ℚ) : WithTop ℚ) ≤ ((e2.1 : ℚ) : WithTop ℚ) := by
        exact_mod_cast hmin e2 he2
      exact h3.trans hle2
    have hexp : ExpandInvF G w avoid s t e.1 e.2 (G.successors e.2)
        { st with qf := st.qf.erase e, visitedf := e.2 :: st.visitedf } := by
      refine ⟨⟨inv.f.sound, inv.f.noAvoid, ?_, ?_, ?_, ?_, ?_, inv.f.start⟩,
        ?_, ?_, bcore_transfer inv.b rfl rfl rfl, ?_,
        mucore_transfer inv.m rfl rfl rfl rfl, hd_eq, ?_⟩
      · intro x hxvis d hxd p hp
        rcases List.mem_cons.mp hxvis with rfl | hxvis
        · exact hopt_u d hxd p hp
        · exact inv.f.opt x hxvis d hxd p hp
      · intro x hxvis
        rcases List.mem_cons.mp hxvis with rfl | hxvis
        · rw [hd_eq]
          rfl
        · exact inv.f.dom x hxvis
      · intro v d hv hvnot
        have h1 : v ∉ st.visitedf := fun hh => hvnot (List.mem_cons_of_mem _ hh)
        have h2 : v ≠ e.2 := by
          intro hh
          exact hvnot (by rw [hh]; exact List.mem_cons_self _ _)
        refine (List.mem_erase_of_ne ?_).mpr (inv.f.queued v d hv h1)
        intro he2
        exact h2 (congrArg Prod.snd he2)
      · intro e2 he2
        exact inv.f.qbound e2 (List.mem_of_mem_erase he2)
      · intro x hxvis dx hdx e2 he2
        have he2m := List.mem_of_mem_erase he2
        rcases List.mem_cons.mp hxvis with rfl | hxvis
        · rw [hd_eq] at hdx
          cases hdx
          exact hmin e2 he2m
        · exact inv.f.heap x hxvis dx hdx e2 he2m
      · intro x hxvis hxu
        rcases List.mem_cons.mp hxvis with rfl | hxvis
        · exact absurd rfl hxu
        · exact fClosed_transfer rfl (inv.fC x hxvis)
      · intro v q hav hsw
        exact Or.inl (stepWeightO_mem_successors hsw)
      · intro v hv
        exact bClosed_transfer rfl (inv.bC v hv)
      · intro x hxvis dx hdx
        rcases List.mem_cons.mp hxvis with rfl | hxvis
        · rw [hd_eq] at hdx
          cases hdx
          exact le_refl _
        · exact inv.f.heap x hxvis dx hdx e hemem
    exact expandInvF_done (relaxF_expand_fold hnn _ _ hexp)

/-- Prepending one step to a restricted walk. -/
theorem IsRWalk_prepend {G : MultiDiGraph} {w : WeightField}
    {avoid : Node → Bool} {v t u : Node} {p : List Node} {q : ℚ}
    (h : IsRWalk G w avoid v t p) (hstep : stepWeightO G w u v = some q)
    (hu : avoid u = false) :
    IsRWalk G w avoid u t (u :: p) ∧
    walkCostT G w (u :: p) = ((q : ℚ) : WithTop ℚ) + walkCostT G w p := by
  obtain ⟨hh, hl, hc, ha⟩ := h
  rcases p with _ | ⟨z, l⟩
  · cases hh
  have hz : z = v := Option.some.inj hh
  subst hz
  refine ⟨⟨rfl, ?_, ?_, ?_⟩, ?_⟩
  · rw [List.getLast?_cons_cons]
    exact hl
  · rw [List.chain'_cons]
    refine ⟨?_, hc⟩
    intro hn
    rw [hstep] at hn
    cases hn
  · intro x hx
    rcases List.mem_cons.mp hx with rfl | hx
    · exact hu
    · exact ha x hx
  · show toTop (stepWeightO G w u z) + walkCostT G w (z :: l) = _
    rw [hstep]
    rfl

/-- One backward relaxation preserves the backward expansion invariant,
discharging the head of the work list. -/
theorem relaxB_expand {G : MultiDiGraph} {w : WeightField}
    {avoid : Node → Bool} {s t : Node} {d_v : ℚ} {v u : Node}
    {L : List Node} {st : BDState} (hnn : WNonneg G w)
    (h : ExpandInvB G w avoid s t d_v v (u :: L) st) :
    ExpandInvB G w avoid s t d_v v L (relaxB G w avoid d_v v st u) := by
  obtain ⟨hf, hfC, hb, hbCO, hbCU, hm, hdv, hvle⟩ := h
  rcases relaxB_cases G w avoid d_v v st u with
    ⟨heq, hclose⟩ | ⟨q, hav, hsw, himp, heq⟩
  · rw [heq]
    refine ⟨hf, hfC, hb, hbCO, ?_, hm, hdv, hvle⟩
    intro u2 q2 hav2 hsw2
    rcases hbCU u2 q2 hav2 hsw2 with hin | hcl
    · rcases List.mem_cons.mp hin with rfl | hin
      · exact Or.inr (hclose q2 hav2 hsw2)
      · exact Or.inl hin
    · exact Or.inr hcl
  · have hq0 : 0 ≤ q := stepWeightO_nonneg hnn hsw
    have hvnot : u ∉ st.visitedb := improve_not_vis hq0 himp hb.dom hvle
    have hun : v ≠ u := by
      intro he
      subst he
      rw [hdv] at himp
      have h2 : ((d_v + q : ℚ) : WithTop ℚ) < ((d_v : ℚ) : WithTop ℚ) := himp
      have h3 : d_v + q < d_v := by exact_mod_cast h2
      linarith
    rw [heq]
    obtain ⟨hdb, hpb, hqb, hdf, hpf, hqf, hvf, hvb, hmeet⟩ :=
      relaxedB_fields st u v (d_v + q)
    obtain ⟨hdec0, hkeep0, hnew0⟩ := dlookup_dinsert_lt himp
    have hdec : ∀ x dx, dlookup st.distb x = some dx →
        ∃ dx', dlookup (relaxedB st u v (d_v + q)).distb x = some dx' ∧
          dx' ≤ dx := by
      intro x dx hx
      rw [hdb]
      exact hdec0 x dx hx
    have hkeep : ∀ x, x ≠ u →
        dlookup (relaxedB st u v (d_v + q)).distb x = dlookup st.distb x := by
      intro x hx
      rw [hdb]
      exact hkeep0 x hx
    have hnew : dlookup (relaxedB st u v (d_v + q)).distb u =
        some (d_v + q) := by
      rw [hdb]
      exact hnew0
    have hsoundu : ∃ p, IsRWalk G w avoid u t p ∧
        walkCostT G w p = ((d_v + q : ℚ) : WithTop ℚ) := by
      obtain ⟨p, hp, hpc⟩ := hb.sound v d_v hdv
      obtain ⟨hw2, hc2⟩ := IsRWalk_prepend hp hsw hav
      refine ⟨u :: p, hw2, ?_⟩
      rw [hc2, hpc]
      push_cast
      exact add_comm _ _
    refine ⟨fcore_transfer hf hdf hqf hvf, ?_,
      ⟨?_, ?_, ?_, ?_, ?_, ?_, ?_, ?_⟩, ?_, ?_, ⟨?_, ?_, ?_⟩, ?_, ?_⟩
    · intro u2 hu2
      rw [hvf] at hu2
      exact fClosed_transfer hdf (hfC u2 hu2)
    · intro x d hx
      by_cases hxu : x = u
      · subst hxu
        rw [hnew] at hx
        cases hx
        exact hsoundu
      · rw [hkeep x hxu] at hx
        exact hb.sound x d hx
    · intro x hx
      by_cases hxu : x = u
      · subst hxu
        exact hav
      · rw [hkeep x hxu] at hx
        exact hb.noAvoid x hx
    · intro x hxvis d hx p hp
      rw [hvb] at hxvis
      have hxu : x ≠ u := by
        intro he2
        rw [he2] at hxvis
        exact hvnot hxvis
      rw [hkeep x hxu] at hx
      exact hb.opt x hxvis d hx p hp
    · intro x hx
      rw [hvb] at hx
      rw [hdb]
      exact isSome_dlookup_dinsert _ _ (hb.dom x hx)
    · intro x d hx hxnot
      rw [hvb] at hxnot
      rw [hqb]
      by_cases hxu : x = u
      · subst hxu
        rw [hnew] at hx
        cases hx
        exact List.mem_cons_self _ _
      · rw [hkeep x hxu] at hx
        exact List.mem_cons_of_mem _ (hb.queued x d hx hxnot)
    · intro e he
      rw [hqb] at he
      rcases List.mem_cons.mp he with rfl | he
      · exact ⟨d_v + q, hnew, le_refl _⟩
      · obtain ⟨d0, hd0, hle0⟩ := hb.qbound e he
        obtain ⟨d1, hd1, hle1⟩ := hdec e.2 d0 hd0
        exact ⟨d1, hd1, hle1.trans hle0⟩
    · intro x hxvis dx hx e he
      rw [hvb] at hxvis
      have hxu : x ≠ u := by
        intro he2
        rw [he2] at hxvis
        exact hvnot hxvis
      rw [hkeep x hxu] at hx
      rw [hqb] at he
      rcases List.mem_cons.mp he with rfl | he
      · have h4 := hvle x hxvis dx hx
        show dx ≤ d_v + q
        linarith
      · exact hb.heap x hxvis dx hx e he
    · obtain ⟨d0, hd0, hle0⟩ := hb.start
      obtain ⟨d1, hd1, hle1⟩ := hdec t d0 hd0
      exact ⟨d1, hd1, hle1.trans hle0⟩
    · intro x hxvis hxv
      rw [hvb] at hxvis
      intro dx hdx u2 q2 hav2 hsw2
      have hxu : x ≠ u := by
        intro he2
        rw [he2] at hxvis
        exact hvnot hxvis
      rw [hkeep x hxu] at hdx
      obtain ⟨du2, hdu2, hle2⟩ := hbCO x hxvis hxv dx hdx u2 q2 hav2 hsw2
      obtain ⟨du3, hdu3, hle3⟩ := hdec u2 du2 hdu2
      exact ⟨du3, hdu3, hle3.trans hle2⟩
    · intro u2 q2 hav2 hsw2
      by_cases hu2 : u2 = u
      · subst hu2
        refine Or.inr ⟨d_v + q, hnew, ?_⟩
        rw [hsw] at hsw2
        cases hsw2
        exact le_refl _
      · rcases hbCU u2 q2 hav2 hsw2 with hin | ⟨du2, hdu2, hle2⟩
        · rcases List.mem_cons.mp hin with rfl | hin
          · exact absurd rfl hu2
          · exact Or.inl hin
        · obtain ⟨du3, hdu3, hle3⟩ := hdec u2 du2 hdu2
          exact Or.inr ⟨du3, hdu3, hle3.trans hle2⟩
    · intro c hc
      rcases hmeet with ⟨hmu, hme⟩ | ⟨df, hdfu, hlt, hmu, hme⟩
      · rw [hmu] at hc
        exact hm.sound c hc
      · rw [hmu] at hc
        have hceq : c = df + (d_v + q) := by exact_mod_cast hc.symm
        subst hceq
        obtain ⟨p1, hp1, hc1⟩ := hf.sound u df hdfu
        obtain ⟨p2, hp2, hc2⟩ := hsoundu
        obtain ⟨p, hp, hcp⟩ := IsRWalk_trans hp1 hp2
        refine ⟨p, hp, ?_⟩
        rw [hcp, hc1, hc2]
        norm_cast
    · intro x dfx dbx hdfx hdbx
      rw [hdf] at hdfx
      obtain ⟨hmule, hmuconn⟩ := relaxedB_mu st u v (d_v + q)
      by_cases hxu : x = u
      · subst hxu
        rw [hnew] at hdbx
        cases hdbx
        exact hmuconn dfx hdfx
      · rw [hkeep x hxu] at hdbx
        exact hmule.trans (hm.bound x dfx dbx hdfx hdbx)
    · intro hme2
      rcases hmeet with ⟨hmu, hme⟩ | ⟨df, hdfu, hlt, hmu, hme⟩
      · rw [hme] at hme2
        rw [hmu]
        exact hm.meet hme2
      · rw [hme] at hme2
        cases hme2
    · rw [hkeep v hun]
      exact hdv
    · intro x hxvis dx hx
      rw [hvb] at hxvis
      have hxu : x ≠ u := by
        intro he2
        rw [he2] at hxvis
        exact hvnot hxvis
      rw [hkeep x hxu] at hx
      exact hvle x hxvis dx hx

/-- The backward relaxation fold over the whole predecessor list. -/
theorem relaxB_expand_fold {G : MultiDiGraph} {w : WeightField}
    {avoid : Node → Bool} {s t : Node} {d_v : ℚ} {v : Node}
    (hnn : WNonneg G w) :
    ∀ (L : List Node) (st : BDState),
      ExpandInvB G w avoid s t d_v v L st →
      ExpandInvB G w avoid s t d_v v []
        (L.foldl (relaxB G w avoid d_v v) st) := by
  intro L
  induction L with
  | nil =>
    intro st h
    exact h
  | cons u L ih =>
    intro st h
    rw [List.foldl_cons]
    exact ih _ (relaxB_expand hnn h)

/-- Closing a backward expansion. -/
theorem expandInvB_done {G : MultiDiGraph} {w : WeightField}
    {avoid : Node → Bool} {s t : Node} {d_v : ℚ} {v : Node} {st : BDState}
    (h : ExpandInvB G w avoid s t d_v v [] st) :
    SearchInv G w avoid s t st := by
  obtain ⟨hf, hfC, hb, hbCO, hbCU, hm, hdv, hvle⟩ := h
  refine ⟨hf, hfC, hb, ?_, hm⟩
  intro x hxvis
  by_cases hxv : x = v
  · subst hxv
    intro dx hdx u q hav hsw
    rcases hbCU u q hav hsw with hin | ⟨du, hdu, hle⟩
    · cases hin
    · rw [hdv] at hdx
      cases hdx
      exact ⟨du, hdu, hle⟩
  · exact hbCO x hxvis hxv

/-- Cover for the backward frontier: a restricted walk from an unexpanded
node into `t` is bounded below by some backward heap entry. -/
theorem coverB {G : MultiDiGraph} {w : WeightField} {avoid : Node → Bool}
    {s t : Node} {st : BDState} (hnn : WNonneg G w)
    (inv : SearchInv G w avoid s t st) :
    ∀ (p : List Node) (x : Node),
      IsRWalk G w avoid x t p → x ∉ st.visitedb →
      ∃ e ∈ st.qb, ((e.1 : ℚ) : WithTop ℚ) ≤ walkCostT G w p := by
  intro p
  induction p with
  | nil =>
    intro x hw _
    obtain ⟨hh, _, _, _⟩ := hw
    cases hh
  | cons a p ih =>
    intro x hw hx
    obtain ⟨hh, hl, hc, ha⟩ := hw
    have hax : a = x := Option.some.inj hh
    subst hax
    rcases p with _ | ⟨y, l⟩
    · have hat : a = t := by
        rw [show ([a] : List Node).getLast? = some a from rfl] at hl
        exact Option.some.inj hl
      obtain ⟨dt, hdt, hdt0⟩ := inv.b.start
      refine ⟨(dt, t), inv.b.queued t dt hdt (hat ▸ hx), ?_⟩
      have h0 : walkCostT G w [a] = 0 := rfl
      rw [h0]
      exact_mod_cast hdt0
    · have hc2 := List.chain'_cons.mp hc
      rcases hsq : stepWeightO G w a y with _ | q
      · exact absurd hsq hc2.1
      have hava : avoid a = false := ha a (List.mem_cons_self _ _)
      have hwtail : IsRWalk G w avoid y t (y :: l) := by
        refine ⟨rfl, ?_, hc2.2, ?_⟩
        · rw [List.getLast?_cons_cons] at hl
          exact hl
        · intro z hz
          exact ha z (List.mem_cons_of_mem _ hz)
      have hcoste : walkCostT G w (a :: y :: l) =
          ((q : ℚ) : WithTop ℚ) + walkCostT G w (y :: l) := by
        show toTop (stepWeightO G w a y) + walkCostT G w (y :: l) = _
        rw [hsq]
        rfl
      by_cases hy : y ∈ st.visitedb
      · obtain ⟨dy, hdy⟩ := Option.isSome_iff_exists.mp (inv.b.dom y hy)
        obtain ⟨da, hda, hdale⟩ := inv.bC y hy dy hdy a q hava hsq
        have hyopt := inv.b.opt y hy dy hdy (y :: l) hwtail
        refine ⟨(da, a), inv.b.queued a da hda hx, ?_⟩
        rw [hcoste]
        have h1 : ((da : ℚ) : WithTop ℚ) ≤
            ((q : ℚ) : WithTop ℚ) + ((dy : ℚ) : WithTop ℚ) := by
          rw [show ((q : ℚ) : WithTop ℚ) + ((dy : ℚ) : WithTop ℚ) =
            ((dy + q : ℚ) : WithTop ℚ) from by push_cast; rw [add_comm]]
          exact_mod_cast hdale
        exact h1.trans (add_le_add_left hyopt _)
      · obtain ⟨e, he, hle⟩ := ih y hwtail hy
        refine ⟨e, he, ?_⟩
        rw [hcoste]
        have h0 : (0 : WithTop ℚ) ≤ ((q : ℚ) : WithTop ℚ) := by
          exact_mod_cast stepWeightO_nonneg hnn hsq
        exact hle.trans (le_add_of_nonneg_left h0)

/-- Popped-but-skipped backward entries leave the invariant intact. -/
theorem searchInv_erase_b {G : MultiDiGraph} {w : WeightField}
    {avoid : Node → Bool} {s t : Node} {st : BDState} {e : ℚ × Node}
    (inv : SearchInv G w avoid s t st) (hvis : e.2 ∈ st.visitedb) :
    SearchInv G w avoid s t { st with qb := st.qb.erase e } := by
  obtain ⟨hf, hfC, hb, hbC, hm⟩ := inv
  refine ⟨fcore_transfer hf rfl rfl rfl, hfC,
    ⟨hb.sound, hb.noAvoid, hb.opt, hb.dom, ?_, ?_, ?_, hb.start⟩, hbC,
    mucore_transfer hm rfl rfl rfl rfl⟩
  · intro v d hv hvnot
    refine (List.mem_erase_of_ne ?_).mpr (hb.queued v d hv hvnot)
    intro he
    have h5 : v = e.2 := congrArg Prod.snd he
    exact hvnot (show v ∈ st.visitedb from h5 ▸ hvis)
  · intro e2 he2
    exact hb.qbound e2 (List.mem_of_mem_erase he2)
  · intro x hxv dx hdx e2 he2
    exact hb.heap x hxv dx hdx e2 (List.mem_of_mem_erase he2)

/-- The backward block of the loop preserves the optimality invariant. -/
theorem backwardStep_searchInv {G : MultiDiGraph} {w : WeightField}
    {avoid : Node → Bool} {s t : Node} {st : BDState} (hnn : WNonneg G w)
    (inv : SearchInv G w avoid s t st) :
    SearchInv G w avoid s t (backwardStep G w avoid st) := by
  unfold backwardStep
  rcases hq : qMinE st.qb with _ | e
  · exact inv
  obtain ⟨hemem, hmin⟩ := qMinE_spec hq
  dsimp only
  split
  · rename_i hcond
    have hvis : e.2 ∈ st.visitedb := by
      rcases hcond with hcv | hca
      · exact hcv
      · obtain ⟨d0, hd0, _⟩ := inv.b.qbound e hemem
        have h2 := inv.b.noAvoid e.2 (by rw [hd0]; rfl)
        rw [h2] at hca
        exact absurd hca (by simp)
    exact searchInv_erase_b inv hvis
  · rename_i hcond
    push_neg at hcond
    obtain ⟨hnv, hna⟩ := hcond
    obtain ⟨d0, hd0, hled⟩ := inv.b.qbound e hemem
    have hd_eq : dlookup st.distb e.2 = some e.1 := by
      have hq2 := inv.b.queued e.2 d0 hd0 hnv
      have hge := hmin (d0, e.2) hq2
      have h3 : d0 = e.1 := le_antisymm hled hge
      rw [← h3]
      exact hd0
    have hopt_v : ∀ d, dlookup st.distb e.2 = some d →
        ∀ p, IsRWalk G w avoid e.2 t p →
          ((d : ℚ) : WithTop ℚ) ≤ walkCostT G w p := by
      intro d hd p hp
      rw [hd_eq] at hd
      cases hd
      obtain ⟨e2, he2, hle2⟩ := coverB hnn inv p e.2 hp hnv
      have h3 : ((e.1 : ℚ) : WithTop ℚ) ≤ ((e2.1 : ℚ) : WithTop ℚ) := by
        exact_mod_cast hmin e2 he2
      exact h3.trans hle2
    have hexp : ExpandInvB G w avoid s t e.1 e.2 (G.predecessors e.2)
        { st with qb := st.qb.erase e, visitedb := e.2 :: st.visitedb } := by
      refine ⟨fcore_transfer inv.f rfl rfl rfl, ?_,
        ⟨inv.b.sound, inv.b.noAvoid, ?_, ?_, ?_, ?_, ?_, inv.b.start⟩,
        ?_, ?_, mucore_transfer inv.m rfl rfl rfl rfl, hd_eq, ?_⟩
      · intro u hu
        exact fClosed_transfer rfl (inv.fC u hu)
      · intro x hxvis d hxd p hp
        rcases List.mem_cons.mp hxvis with rfl | hxvis
        · exact hopt_v d hxd p hp
        · exact inv.b.opt x hxvis d hxd p hp
      · intro x hxvis
        rcases List.mem_cons.mp hxvis with rfl | hxvis
        · rw [hd_eq]
          rfl
        · exact inv.b.dom x hxvis
      · intro v d hv hvnot
        have h1 : v ∉ st.visitedb := fun hh => hvnot (List.mem_cons_of_mem _ hh)
        have h2 : v ≠ e.2 := by
          intro hh
          exact hvnot (by rw [hh]; exact List.mem_cons_self _ _)
        refine (List.mem_erase_of_ne ?_).mpr (inv.b.queued v d hv h1)
        intro he2
        exact h2 (congrArg Prod.snd he2)
      · intro e2 he2
        exact inv.b.qbound e2 (List.mem_of_mem_erase he2)
      · intro x hxvis dx hdx e2 he2
        have he2m := List.mem_of_mem_erase he2
        rcases List.mem_cons.mp hxvis with rfl | hxvis
        · rw [hd_eq] at hdx
          cases hdx
          exact hmin e2 he2m
        · exact inv.b.heap x hxvis dx hdx e2 he2m
      · intro x hxvis hxv
        rcases List.mem_cons.mp hxvis with rfl | hxvis
        · exact absurd rfl hxv
        · exact bClosed_transfer rfl (inv.bC x hxvis)
      · intro u q hav hsw
        exact Or.inl (stepWeightO_mem_predecessors hsw)
      · intro x hxvis dx hdx
        rcases List.mem_cons.mp hxvis with rfl | hxvis
        · rw [hd_eq] at hdx
          cases hdx
          exact le_refl _
        · exact inv.b.heap x hxvis dx hdx e hemem
    exact expandInvB_done (relaxB_expand_fold hnn _ _ hexp)

/-- The initial state satisfies the optimality invariant when the two
distinct endpoints are not excluded. -/
theorem initState_searchInv (G : MultiDiGraph) (w : WeightField)
    (avoid : Node → Bool) (s t : Node) (hsa : avoid s = false)
    (hta : avoid t = false) (hst : s ≠ t) :
    SearchInv G w avoid s t (initState s t) := by
  refine ⟨⟨?_, ?_, ?_, ?_, ?_, ?_, ?_, ?_⟩, ?_,
    ⟨?_, ?_, ?_, ?_, ?_, ?_, ?_, ?_⟩, ?_, ⟨?_, ?_, ?_⟩⟩
  · intro v d hv
    dsimp only [initState] at hv
    rw [dlookup_single] at hv
    by_cases hvs : v = s
    · rw [if_pos hvs] at hv
      cases hv
      subst hvs
      exact ⟨[v], IsRWalk_singleton hsa, by norm_cast⟩
    · rw [if_neg hvs] at hv
      cases hv
  · intro v hv
    dsimp only [initState] at hv
    rw [dlookup_single] at hv
    by_cases hvs : v = s
    · subst hvs
      exact hsa
    · rw [if_neg hvs] at hv
      simp at hv
  · intro x hx
    exact absurd hx (List.not_mem_nil x)
  · intro x hx
    exact absurd hx (List.not_mem_nil x)
  · intro v d hv _
    dsimp only [initState] at hv
    rw [dlookup_single] at hv
    by_cases hvs : v = s
    · rw [if_pos hvs] at hv
      cases hv
      subst hvs
      exact List.mem_singleton.mpr rfl
    · rw [if_neg hvs] at hv
      cases hv
  · intro e he
    rw [show (initState s t).qf = [(0, s)] from rfl, List.mem_singleton] at he
    subst he
    refine ⟨0, ?_, le_refl _⟩
    dsimp only [initState]
    rw [dlookup_single, if_pos rfl]
  · intro x hx
    exact absurd hx (List.not_mem_nil x)
  · refine ⟨0, ?_, le_refl _⟩
    dsimp only [initState]
    rw [dlookup_single, if_pos rfl]
  · intro x hx
    exact absurd hx (List.not_mem_nil x)
  · intro v d hv
    dsimp only [initState] at hv
    rw [dlookup_single] at hv
    by_cases hvt : v = t
    · rw [if_pos hvt] at hv
      cases hv
      subst hvt
      exact ⟨[v], IsRWalk_singleton hta, by norm_cast⟩
    · rw [if_neg hvt] at hv
      cases hv
  · intro v hv
    dsimp only [initState] at hv
    rw [dlookup_single] at hv
    by_cases hvt : v = t
    · subst hvt
      exact hta
    · rw [if_neg hvt] at hv
      simp at hv
  · intro x hx
    exact absurd hx (List.not_mem_nil x)
  · intro x hx
    exact absurd hx (List.not_mem_nil x)
  · intro v d hv _
    dsimp only [initState] at hv
    rw [dlookup_single] at hv
    by_cases hvt : v = t
    · rw [if_pos hvt] at hv
      cases hv
      subst hvt
      exact List.mem_singleton.mpr rfl
    · rw [if_neg hvt] at hv
      cases hv
  · intro e he
    rw [show (initState s t).qb = [(0, t)] from rfl, List.mem_singleton] at he
    subst he
    refine ⟨0, ?_, le_refl _⟩
    dsimp only [initState]
    rw [dlookup_single, if_pos rfl]
  · intro x hx
    exact absurd hx (List.not_mem_nil x)
  · refine ⟨0, ?_, le_refl _⟩
    dsimp only [initState]
    rw [dlookup_single, if_pos rfl]
  · intro x hx
    exact absurd hx (List.not_mem_nil x)
  · intro c hc
    exact absurd hc WithTop.top_ne_coe
  · intro v df db hdf hdb
    dsimp only [initState] at hdf hdb
    rw [dlookup_single] at hdf
    rw [dlookup_single] at hdb
    have h1 : v = s := by
      by_cases hvs : v = s
      · exact hvs
      · rw [if_neg hvs] at hdf
        cases hdf
    have h2 : v = t := by
      by_cases hvt : v = t
      · exact hvt
      · rw [if_neg hvt] at hdb
        cases hdb
    exact absurd (h1 ▸ h2) hst
  · intro _
    rfl

/-- One full loop iteration preserves the optimality invariant. -/
theorem bdStep_searchInv {G : MultiDiGraph} {w : WeightField}
    {avoid : Node → Bool} {s t : Node} {st : BDState} (hnn : WNonneg G w)
    (inv : SearchInv G w avoid s t st) :
    SearchInv G w avoid s t (bdStep G w avoid st) :=
  backwardStep_searchInv hnn (forwardStep_searchInv hnn inv)

/-- The whole loop preserves the optimality invariant. -/
theorem bdLoop_searchInv {G : MultiDiGraph} {w : WeightField}
    {avoid : Node → Bool} {s t : Node} (hnn : WNonneg G w) :
    ∀ (n : ℕ) (st : BDState), SearchInv G w avoid s t st →
      SearchInv G w avoid s t (bdLoop G w avoid n st) := by
  intro n
  induction n with
  | zero =>
    intro st inv
    exact inv
  | succ n ih =>
    intro st inv
    unfold bdLoop
    split
    · exact ih _ (bdStep_searchInv hnn inv)
    · exact inv

/-- At any state with a false loop guard, the connection estimate bounds
the cost of every restricted walk from `s` to `t` from below: the heart of
the optimality claim. -/
theorem terminal_mu_le {G : MultiDiGraph} {w : WeightField}
    {avoid : Node → Bool} {s t : Node} {st : BDState} (hnn : WNonneg G w)
    (inv : SearchInv G w avoid s t st) (hterm : loopGuard st = false) :
    ∀ p, IsRWalk G w avoid s t p → st.mu ≤ walkCostT G w p := by
  intro P hP
  by_cases hAf : ∀ x ∈ P, x ∈ st.visitedf
  · have htP : t ∈ P := by
      obtain ⟨_, hl, _, _⟩ := hP
      obtain ⟨l, rfl⟩ := eq_concat_of_getLast hl
      exact List.mem_append.mpr (Or.inr (List.mem_singleton.mpr rfl))
    have htv : t ∈ st.visitedf := hAf t htP
    obtain ⟨dft, hdft⟩ := Option.isSome_iff_exists.mp (inv.f.dom t htv)
    have hopt := inv.f.opt t htv dft hdft P hP
    obtain ⟨dbt, hdbt, hdbt0⟩ := inv.b.start
    have hbound := inv.m.bound t dft dbt hdft hdbt
    have h0 : dft + dbt ≤ dft := by linarith
    have h1 : ((dft + dbt : ℚ) : WithTop ℚ) ≤ ((dft : ℚ) : WithTop ℚ) := by
      exact_mod_cast h0
    exact hbound.trans (h1.trans hopt)
  · obtain ⟨l1, x, l2, hPeq, hl1set, hxvis⟩ := exists_first_out st.visitedf P hAf
    subst hPeq
    obtain ⟨hwpre, hwsuf, hcost⟩ := IsRWalk_split hP
    by_cases hAb : ∀ y ∈ x :: l2, y ∈ st.visitedb
    · have hxb : x ∈ st.visitedb := hAb x (List.mem_cons_self _ _)
      obtain ⟨dbx, hdbx⟩ := Option.isSome_iff_exists.mp (inv.b.dom x hxb)
      have hbopt := inv.b.opt x hxb dbx hdbx (x :: l2) hwsuf
      rcases List.eq_nil_or_concat l1 with rfl | ⟨l0, u, heqc⟩
      · have hxs : x = s := by
          obtain ⟨hh, _, _, _⟩ := hP
          exact Option.some.inj hh
        subst hxs
        obtain ⟨dfs, hdfs, hdfs0⟩ := inv.f.start
        have hbound := inv.m.bound x dfs dbx hdfs hdbx
        have h0 : dfs + dbx ≤ dbx := by linarith
        have h1 : ((dfs + dbx : ℚ) : WithTop ℚ) ≤ ((dbx : ℚ) : WithTop ℚ) := by
          exact_mod_cast h0
        have h2 : walkCostT G w ([] ++ x :: l2) = walkCostT G w (x :: l2) := rfl
        rw [h2]
        exact hbound.trans (h1.trans hbopt)
      · rw [List.concat_eq_append] at heqc
        subst heqc
        have hassoc : (l0 ++ [u]) ++ x :: l2 = l0 ++ u :: (x :: l2) := by simp
        have hP2 : IsRWalk G w avoid s t (l0 ++ u :: (x :: l2)) := by
          rw [← hassoc]
          exact hP
        obtain ⟨hwpre2, hwsuf2, hcost2⟩ := IsRWalk_split hP2
        obtain ⟨hh2, hl2, hc2, ha2⟩ := hwsuf2
        have hcc := List.chain'_cons.mp hc2
        rcases hsq : stepWeightO G w u x with _ | q
        · exact absurd hsq hcc.1
        have havx : avoid x = false :=
          ha2 x (List.mem_cons_of_mem _ (List.mem_cons_self _ _))
        have huvis : u ∈ st.visitedf :=
          hl1set u (List.mem_append.mpr (Or.inr (List.mem_singleton.mpr rfl)))
        obtain ⟨du, hdu⟩ := Option.isSome_iff_exists.mp (inv.f.dom u huvis)
        obtain ⟨dx, hdx, hdxle⟩ := inv.fC u huvis du hdu x q havx hsq
        have hfopt := inv.f.opt u huvis du hdu (l0 ++ [u]) hwpre2
        have hbound := inv.m.bound x dx dbx hdx hdbx
        have hcstep : walkCostT G w (u :: x :: l2) =
            ((q : ℚ) : WithTop ℚ) + walkCostT G w (x :: l2) := by
          show toTop (stepWeightO G w u x) + _ = _
          rw [hsq]
          rfl
        rw [show walkCostT G w ((l0 ++ [u]) ++ x :: l2) =
            walkCostT G w (l0 ++ u :: (x :: l2)) from by rw [hassoc]]
        rw [hcost2, hcstep]
        refine hbound.trans ?_
        have hstep0 : dx + dbx ≤ (du + q) + dbx := by linarith
        have hstep1 : ((dx + dbx : ℚ) : WithTop ℚ) ≤
            (((du + q) + dbx : ℚ) : WithTop ℚ) := by exact_mod_cast hstep0
        refine hstep1.trans ?_
        have hsplit : (((du + q) + dbx : ℚ) : WithTop ℚ) =
            (((du : ℚ) : WithTop ℚ) + ((q : ℚ) : WithTop ℚ)) +
              ((dbx : ℚ) : WithTop ℚ) := by norm_cast
        rw [hsplit, ← add_assoc]
        exact add_le_add (add_le_add_right hfopt _) hbopt
    · push_neg at hAb
      obtain ⟨y, hy_mem, hy_nvis⟩ := hAb
      obtain ⟨m1, m2, hm⟩ := List.append_of_mem hy_mem
      have hPeq2 : l1 ++ x :: l2 = (l1 ++ m1) ++ y :: m2 := by
        rw [hm, ← List.append_assoc]
      have hPy : IsRWalk G w avoid s t ((l1 ++ m1) ++ y :: m2) := by
        rw [← hPeq2]
        exact hP
      obtain ⟨hwpy, hwsy, hcy⟩ := IsRWalk_split hPy
      have hprefix : walkCostT G w (l1 ++ [x]) ≤
          walkCostT G w ((l1 ++ m1) ++ [y]) := by
        rcases m1 with _ | ⟨a0, m1'⟩
        · simp only [List.nil_append] at hm
          injection hm with hxy hl2m
          subst hxy
          simp only [List.append_nil]
          exact le_refl _
        · simp only [List.cons_append] at hm
          injection hm with hxa hl2m
          subst hxa
          have hassoc2 : (l1 ++ (x :: m1')) ++ [y] = l1 ++ x :: (m1' ++ [y]) := by
            simp
          have hpyw2 : IsRWalk G w avoid s y (l1 ++ x :: (m1' ++ [y])) := by
            rw [← hassoc2]
            exact hwpy
          obtain ⟨hw1, hw2, hc3⟩ := IsRWalk_split hpyw2
          rw [show walkCostT G w ((l1 ++ (x :: m1')) ++ [y]) =
            walkCostT G w (l1 ++ x :: (m1' ++ [y])) from by rw [hassoc2]]
          rw [hc3]
          exact le_add_of_nonneg_right (walkCostT_nonneg hnn _)
      obtain ⟨ef, hef, hef_le⟩ :=
        coverF hnn inv (l1 ++ [x]).length (l1 ++ [x]) x (le_refl _) hwpre hxvis
      obtain ⟨eb, heb, heb_le⟩ := coverB hnn inv (y :: m2) y hwsy hy_nvis
      have hqf_ne : st.qf ≠ [] := by
        intro h0
        rw [h0] at hef
        exact absurd hef (List.not_mem_nil ef)
      have hqb_ne : st.qb ≠ [] := by
        intro h0
        rw [h0] at heb
        exact absurd heb (List.not_mem_nil eb)
      unfold loopGuard at hterm
      rcases hqa : qMinE st.qf with _ | a
      · exact absurd (qMinE_eq_none.mp hqa) hqf_ne
      rcases hqb2 : qMinE st.qb with _ | b
      · exact absurd (qMinE_eq_none.mp hqb2) hqb_ne
      rw [hqa, hqb2] at hterm
      have hbreak : st.mu ≤ ((a.1 + b.1 : ℚ) : WithTop ℚ) := by
        simp only [Bool.not_eq_false', decide_eq_true_eq, ge_iff_le] at hterm
        exact hterm
      have hamin := (qMinE_spec hqa).2 ef hef
      have hbmin := (qMinE_spec hqb2).2 eb heb
      rw [hPeq2, hcy]
      have hsum : ((a.1 + b.1 : ℚ) : WithTop ℚ) =
          ((a.1 : ℚ) : WithTop ℚ) + ((b.1 : ℚ) : WithTop ℚ) := by norm_cast
      rw [hsum] at hbreak
      refine hbreak.trans ?_
      have h1 : ((a.1 : ℚ) : WithTop ℚ) ≤ walkCostT G w ((l1 ++ m1) ++ [y]) := by
        have h2 : ((a.1 : ℚ) : WithTop ℚ) ≤ ((ef.1 : ℚ) : WithTop ℚ) := by
          exact_mod_cast hamin
        exact (h2.trans hef_le).trans hprefix
      have h3 : ((b.1 : ℚ) : WithTop ℚ) ≤ walkCostT G w (y :: m2) := by
        have h4 : ((b.1 : ℚ) : WithTop ℚ) ≤ ((eb.1 : ℚ) : WithTop ℚ) := by
          exact_mod_cast hbmin
        exact h4.trans heb_le
      exact add_le_add h1 h3

/-- The cost component of `reconstruct_path` is the total value it is
given, provided an absent meeting node comes with an infinite total. -/
theorem reconstruct_path_snd (pf pb : List (Node × Option Node)) (fuel : ℕ)
    (m : Option Node) (tv : WithTop ℚ) (hm : m = none → tv = ⊤) :
    (reconstruct_path pf pb fuel m tv).2 = tv := by
  rcases m with _ | m0
  · unfold reconstruct_path
    exact (hm rfl).symm
  · rfl

/-- The cost returned by the search is the final connection estimate,
whenever an absent meeting node forces an infinite estimate. -/
theorem bd_cost_eq_mu {G : MultiDiGraph} {s t : Node} {w : WeightField}
    {avoid : Node → Bool} (hs : s ∈ G.nodeIds) (ht : t ∈ G.nodeIds)
    (hmeet : (bdLoop G w avoid (bdFuel G) (initState s t)).meeting = none →
      (bdLoop G w avoid (bdFuel G) (initState s t)).mu = ⊤) :
    (bidirectional_dijkstra G s t w avoid).2 =
      (bdLoop G w avoid (bdFuel G) (initState s t)).mu := by
  unfold bidirectional_dijkstra
  rw [if_neg (by push_neg; exact ⟨hs, ht⟩)]
  exact reconstruct_path_snd _ _ _ _ _ hmeet

/-- Run facts when the start node is excluded: the forward dict never
grows beyond `s` and no connection is ever recorded. -/
structure ExclSInv (s : Node) (st : BDState) : Prop where
  fOnly : ∀ v, (dlookup st.distf v).isSome → v = s
  mu_top : st.mu = ⊤
  meet_none : st.meeting = none

/-- Run facts when the end node is excluded. -/
structure ExclTInv (t : Node) (st : BDState) : Prop where
  bOnly : ∀ v, (dlookup st.distb v).isSome → v = t
  mu_top : st.mu = ⊤
  meet_none : st.meeting = none

/-- A backward relaxation cannot record a connection through an excluded
start whose forward dict holds only the start. -/
theorem relaxB_exclS {G : MultiDiGraph} {w : WeightField}
    {avoid : Node → Bool} {s : Node} {d_v : ℚ} {v : Node} {st : BDState}
    (hsa : avoid s = true) (h : ExclSInv s st) (u : Node) :
    ExclSInv s (relaxB G w avoid d_v v st u) := by
  rcases relaxB_cases G w avoid d_v v st u with ⟨heq, _⟩ | ⟨q, hav, hsw, himp, heq⟩
  · rw [heq]
    exact h
  · rw [heq]
    obtain ⟨hdb, hpb, hqb, hdf, hpf, hqf, hvf, hvb, hmeet⟩ :=
      relaxedB_fields st u v (d_v + q)
    refine ⟨?_, ?_, ?_⟩
    · intro x hx
      rw [hdf] at hx
      exact h.fOnly x hx
    · rcases hmeet with ⟨hmu, _⟩ | ⟨df, hdfu, _, _, _⟩
      · rw [hmu]
        exact h.mu_top
      · have hus : u = s := h.fOnly u (by rw [hdfu]; rfl)
        rw [hus] at hav
        rw [hav] at hsa
        exact absurd hsa (by simp)
    · rcases hmeet with ⟨_, hme⟩ | ⟨df, hdfu, _, _, _⟩
      · rw [hme]
        exact h.meet_none
      · have hus : u = s := h.fOnly u (by rw [hdfu]; rfl)
        rw [hus] at hav
        rw [hav] at hsa
        exact absurd hsa (by simp)

/-- A forward relaxation cannot record a connection through an excluded
end whose backward dict holds only the end. -/
theorem relaxF_exclT {G : MultiDiGraph} {w : WeightField}
    {avoid : Node → Bool} {t : Node} {d_u : ℚ} {u : Node} {st : BDState}
    (hta : avoid t = true) (h : ExclTInv t st) (v : Node) :
    ExclTInv t (relaxF G w avoid d_u u st v) := by
  rcases relaxF_cases G w avoid d_u u st v with ⟨heq, _⟩ | ⟨q, hav, hsw, himp, heq⟩
  · rw [heq]
    exact h
  · rw [heq]
    obtain ⟨hdf, hpf, hqf, hdb, hpb, hqb, hvf, hvb, hmeet⟩ :=
      relaxedF_fields st u v (d_u + q)
    refine ⟨?_, ?_, ?_⟩
    · intro x hx
      rw [hdb] at hx
      exact h.bOnly x hx
    · rcases hmeet with ⟨hmu, _⟩ | ⟨db, hdbv, _, _, _⟩
      · rw [hmu]
        exact h.mu_top
      · have hvt : v = t := h.bOnly v (by rw [hdbv]; rfl)
        rw [hvt] at hav
        rw [hav] at hta
        exact absurd hta (by simp)
    · rcases hmeet with ⟨_, hme⟩ | ⟨db, hdbv, _, _, _⟩
      · rw [hme]
        exact h.meet_none
      · have hvt : v = t := h.bOnly v (by rw [hdbv]; rfl)
        rw [hvt] at hav
        rw [hav] at hta
        exact absurd hta (by simp)

/-- The forward block under an excluded start only drops its popped
entry: the start never expands. -/
theorem forwardStep_exclS {G : MultiDiGraph} {w : WeightField}
    {avoid : Node → Bool} {s t : Node} {st : BDState} (hsa : avoid s = true)
    (binv : BasicInv s t avoid st) (h : ExclSInv s st) :
    ExclSInv s (forwardStep G w avoid st) := by
  unfold forwardStep
  rcases hq : qMinE st.qf with _ | e
  · exact h
  have hemem := (qMinE_spec hq).1
  have hes : e.2 = s := h.fOnly e.2 (binv.qfDom e hemem)
  dsimp only
  rw [if_pos (Or.inr (by rw [hes]; exact hsa))]
  exact ⟨h.fOnly, h.mu_top, h.meet_none⟩

/-- The backward block preserves the excluded-start facts. -/
theorem backwardStep_exclS {G : MultiDiGraph} {w : WeightField}
    {avoid : Node → Bool} {s : Node} {st : BDState} (hsa : avoid s = true)
    (h : ExclSInv s st) : ExclSInv s (backwardStep G w avoid st) := by
  unfold backwardStep
  rcases hq : qMinE st.qb with _ | e
  · exact h
  dsimp only
  split
  · exact ⟨h.fOnly, h.mu_top, h.meet_none⟩
  · have hfold : ∀ (L : List Node) (st2 : BDState), ExclSInv s st2 →
        ExclSInv s (L.foldl (relaxB G w avoid e.1 e.2) st2) := by
      intro L
      induction L with
      | nil =>
        intro st2 h2
        exact h2
      | cons u L ih =>
        intro st2 h2
        rw [List.foldl_cons]
        exact ih _ (relaxB_exclS hsa h2 u)
    exact hfold _ _ ⟨h.fOnly, h.mu_top, h.meet_none⟩

/-- The backward block under an excluded end only drops its popped
entry. -/
theorem backwardStep_exclT {G : MultiDiGraph} {w : WeightField}
    {avoid : Node → Bool} {s t : Node} {st : BDState} (hta : avoid t = true)
    (binv : BasicInv s t avoid st) (h : ExclTInv t st) :
    ExclTInv t (backwardStep G w avoid st) := by
  unfold backwardStep
  rcases hq : qMinE st.qb with _ | e
  · exact h
  have hemem := (qMinE_spec hq).1
  have het : e.2 = t := h.bOnly e.2 (binv.qbDom e hemem)
  dsimp only
  rw [if_pos (Or.inr (by rw [het]; exact hta))]
  exact ⟨h.bOnly, h.mu_top, h.meet_none⟩

/-- The forward block preserves the excluded-end facts. -/
theorem forwardStep_exclT {G : MultiDiGraph} {w : WeightField}
    {avoid : Node → Bool} {t : Node} {st : BDState} (hta : avoid t = true)
    (h : ExclTInv t st) : ExclTInv t (forwardStep G w avoid st) := by
  unfold forwardStep
  rcases hq : qMinE st.qf with _ | e
  · exact h
  dsimp only
  split
  · exact ⟨h.bOnly, h.mu_top, h.meet_none⟩
  · have hfold : ∀ (L : List Node) (st2 : BDState), ExclTInv t st2 →
        ExclTInv t (L.foldl (relaxF G w avoid e.1 e.2) st2) := by
      intro L
      induction L with
      | nil =>
        intro st2 h2
        exact h2
      | cons v L ih =>
        intro st2 h2
        rw [List.foldl_cons]
        exact ih _ (relaxF_exclT hta h2 v)
    exact hfold _ _ ⟨h.bOnly, h.mu_top, h.meet_none⟩

/-- The loop preserves the excluded-start facts. -/
theorem bdLoop_exclS {G : MultiDiGraph} {w : WeightField}
    {avoid : Node → Bool} {s t : Node} (hsa : avoid s = true) :
    ∀ (n : ℕ) (st : BDState), BasicInv s t avoid st → ExclSInv s st →
      ExclSInv s (bdLoop G w avoid n st) := by
  intro n
  induction n with
  | zero =>
    intro st _ h
    exact h
  | succ n ih =>
    intro st binv h
    unfold bdLoop
    split
    · exact ih _ (backwardStep_basicInv (forwardStep_basicInv binv))
        (backwardStep_exclS hsa (forwardStep_exclS hsa binv h))
    · exact h

/-- The loop preserves the excluded-end facts. -/
theorem bdLoop_exclT {G : MultiDiGraph} {w : WeightField}
    {avoid : Node → Bool} {s t : Node} (hta : avoid t = true) :
    ∀ (n : ℕ) (st : BDState), BasicInv s t avoid st → ExclTInv t st →
      ExclTInv t (bdLoop G w avoid n st) := by
  intro n
  induction n with
  | zero =>
    intro st _ h
    exact h
  | succ n ih =>
    intro st binv h
    unfold bdLoop
    split
    · exact ih _ (backwardStep_basicInv (forwardStep_basicInv binv))
        (backwardStep_exclT hta (forwardStep_basicInv binv)
          (forwardStep_exclT hta h))
    · exact h

/-- The initial state satisfies the excluded-start facts. -/
theorem initState_exclS (s t : Node) : ExclSInv s (initState s t) := by
  refine ⟨?_, rfl, rfl⟩
  intro v hv
  dsimp only [initState] at hv
  rw [dlookup_single] at hv
  by_cases hvs : v = s
  · exact hvs
  · rw [if_neg hvs] at hv
    simp at hv

/-- The initial state satisfies the excluded-end facts. -/
theorem initState_exclT (s t : Node) : ExclTInv t (initState s t) := by
  refine ⟨?_, rfl, rfl⟩
  intro v hv
  dsimp only [initState] at hv
  rw [dlookup_single] at hv
  by_cases hvt : v = t
  · exact hvt
  · rw [if_neg hvt] at hv
    simp at hv

/-- No restricted walk leaves an excluded start. -/
theorem no_walk_of_avoid_s {G : MultiDiGraph} {w : WeightField}
    {avoid : Node → Bool} {s t : Node} (hsa : avoid s = true) :
    ¬∃ p, IsRWalk G w avoid s t p := by
  rintro ⟨p, hh, hl, hc, ha⟩
  rcases p with _ | ⟨a, p⟩
  · cases hh
  have has : a = s := Option.some.inj hh
  have h2 := ha a (List.mem_cons_self _ _)
  rw [has] at h2
  rw [h2] at hsa
  exact absurd hsa (by simp)

/-- No restricted walk reaches an excluded end. -/
theorem no_walk_of_avoid_t {G : MultiDiGraph} {w : WeightField}
    {avoid : Node → Bool} {s t : Node} (hta : avoid t = true) :
    ¬∃ p, IsRWalk G w avoid s t p := by
  rintro ⟨p, hh, hl, hc, ha⟩
  obtain ⟨l, rfl⟩ := eq_concat_of_getLast hl
  have h2 := ha t (List.mem_append.mpr (Or.inr (List.mem_singleton.mpr rfl)))
  rw [h2] at hta
  exact absurd hta (by simp)

/-- Claim C1, counterexample to the claim as stated: with coincident
endpoints (allowed by the claim, which quantifies over every start and
end node present in the graph) the true shortest restricted walk on the
isolated node 7 is the trivial walk of cost 0, yet the search returns the
no-path cost `⊤`, because it lacks a start-equals-end short circuit and
the two frontiers never meet (claim C2). -/
theorem C1_counterexample :
    (bidirectional_dijkstra oneNodeGraph7 7 7 .travel_time
        (fun _ => false)).2 = ⊤ ∧
    IsRWalk oneNodeGraph7 .travel_time (fun _ => false) 7 7 [7] ∧
    walkCostT oneNodeGraph7 .travel_time [7] = 0 ∧
    (⊤ : WithTop ℚ) ≠ (0 : WithTop ℚ) := by
  refine ⟨rfl, IsRWalk_singleton rfl, rfl, ?_⟩
  simp

/-- Claim C1 (amended: the endpoints must be distinct — see
`C1_counterexample` and claim C2): on a well-formed graph with
non-negative selected weights, both endpoints present and distinct, and
any exclusion set, the cost returned by `bidirectional_dijkstra` is a
lower bound on the cost of every walk from start to end inside the
non-excluded subgraph, is infinite exactly when no such walk exists, and
when finite is attained by such a walk — together: it equals the true
shortest restricted-walk cost. -/
theorem C1_search_optimal (G : MultiDiGraph) (w : WeightField)
    (avoid : Node → Bool) (s t : Node) (hWf : Wf G) (hnn : WNonneg G w)
    (hs : s ∈ G.nodeIds) (ht : t ∈ G.nodeIds) (hst : s ≠ t) :
    (∀ p, IsRWalk G w avoid s t p →
      (bidirectional_dijkstra G s t w avoid).2 ≤ walkCostT G w p) ∧
    ((bidirectional_dijkstra G s t w avoid).2 = ⊤ ↔
      ¬∃ p, IsRWalk G w avoid s t p) ∧
    (∀ c : ℚ,
      (bidirectional_dijkstra G s t w avoid).2 = ((c : ℚ) : WithTop ℚ) →
      ∃ p, IsRWalk G w avoid s t p ∧
        walkCostT G w p = ((c : ℚ) : WithTop ℚ)) := by
  by_cases hsa : avoid s = true
  · have hloop : ExclSInv s (bdLoop G w avoid (bdFuel G) (initState s t)) :=
      bdLoop_exclS hsa (bdFuel G) (initState s t)
        (initState_basicInv s t avoid) (initState_exclS s t)
    have hcost := bd_cost_eq_mu hs ht (fun _ => hloop.mu_top)
    have hc2 : (bidirectional_dijkstra G s t w avoid).2 = ⊤ := by
      rw [hcost]
      exact hloop.mu_top
    have hnw : ¬∃ p, IsRWalk G w avoid s t p := no_walk_of_avoid_s hsa
    refine ⟨?_, ⟨fun _ => hnw, fun _ => hc2⟩, ?_⟩
    · intro p hp
      exact absurd ⟨p, hp⟩ hnw
    · intro c hc
      rw [hc2] at hc
      exact absurd hc WithTop.top_ne_coe
  · by_cases hta : avoid t = true
    · have hloop : ExclTInv t (bdLoop G w avoid (bdFuel G) (initState s t)) :=
        bdLoop_exclT hta (bdFuel G) (initState s t)
          (initState_basicInv s t avoid) (initState_exclT s t)
      have hcost := bd_cost_eq_mu hs ht (fun _ => hloop.mu_top)
      have hc2 : (bidirectional_dijkstra G s t w avoid).2 = ⊤ := by
        rw [hcost]
        exact hloop.mu_top
      have hnw : ¬∃ p, IsRWalk G w avoid s t p := no_walk_of_avoid_t hta
      refine ⟨?_, ⟨fun _ => hnw, fun _ => hc2⟩, ?_⟩
      · intro p hp
        exact absurd ⟨p, hp⟩ hnw
      · intro c hc
        rw [hc2] at hc
        exact absurd hc WithTop.top_ne_coe
    · have hsa' : avoid s = false := by simpa using hsa
      have hta' : avoid t = false := by simpa using hta
      have hinv : SearchInv G w avoid s t
          (bdLoop G w avoid (bdFuel G) (initState s t)) :=
        bdLoop_searchInv hnn _ _ (initState_searchInv G w avoid s t hsa' hta' hst)
      have hterm : loopGuard (bdLoop G w avoid (bdFuel G) (initState s t)) =
          false :=
        bdLoop_terminal hWf _ _ (le_of_eq (phi_initState G s t))
      have hcost := bd_cost_eq_mu hs ht hinv.m.meet
      have hub := terminal_mu_le hnn hinv hterm
      refine ⟨?_, ?_, ?_⟩
      · intro p hp
        rw [hcost]
        exact hub p hp
      · constructor
        · intro htop
          rintro ⟨p, hp⟩
          have h1 := hub p hp
          rw [← hcost, htop] at h1
          exact (walkCostT_ne_top p hp.2.2.1) (top_le_iff.mp h1)
        · intro hnw
          by_contra hne
          obtain ⟨c0, hc0⟩ := WithTop.ne_top_iff_exists.mp hne
          have hmu : (bdLoop G w avoid (bdFuel G) (initState s t)).mu =
              ((c0 : ℚ) : WithTop ℚ) := by
            rw [← hcost]
            exact hc0.symm
          obtain ⟨p, hp, _⟩ := hinv.m.sound c0 hmu
          exact hnw ⟨p, hp⟩
      · intro c hc
        rw [hcost] at hc
        exact hinv.m.sound c hc

/-- Witness: the amended optimality theorem applied to the line graph
between its distinct endpoints, with the lower-bound conclusion kept. -/
theorem C1_search_optimal_witness :
    Wf lineGraph ∧ WNonneg lineGraph .travel_time ∧
    0 ∈ lineGraph.nodeIds ∧ 2 ∈ lineGraph.nodeIds ∧ (0 : Node) ≠ 2 ∧
    (∀ p, IsRWalk lineGraph .travel_time (fun _ => false) 0 2 p →
      (bidirectional_dijkstra lineGraph 0 2 .travel_time
        (fun _ => false)).2 ≤ walkCostT lineGraph .travel_time p) := by
  have h1 : Wf lineGraph := by decide
  have h2 : WNonneg lineGraph .travel_time := by decide
  have h3 : (0 : Node) ∈ lineGraph.nodeIds := by decide
  have h4 : (2 : Node) ∈ lineGraph.nodeIds := by decide
  have h5 : (0 : Node) ≠ 2 := by decide
  exact ⟨h1, h2, h3, h4, h5,
    (C1_search_optimal lineGraph .travel_time (fun _ => false) 0 2
      h1 h2 h3 h4 h5).1⟩

end TIA
